import Mathlib

/-!
# The crux runtime: graph reduction (`runtime/reduce.go`) and the primitive
operators (`runtime/operators.go`)

A shallow embedding of the two source units.  Go pointers to thunks become
addresses into an explicit heap (a list of thunk records, extended at the end by
every allocation); the process-wide counters and the diagnostic stream are fields
of an explicit state; a panic, `os.Exit` and running out of fuel are outcomes
distinct from a normal return.
-/

namespace Runtime

/-! ## Data model -/

/-- Modelled from the spec: the declaration of `Value` and of its variants is not
among the source files.  Section 3 gives the five shapes; `Char` carries a rune
(int32), `Int` a `big.Int`, `Float` a float64, `Struct` a tag and its ordered
fields, and a `*Thunk` is the address of a thunk record in the heap.  A nil
interface value is not one of the shapes. -/
inductive Value where
  | Char (Value : Int)
  | Int (Value : Int)
  | Float (Value : Float)
  | Struct (Index : Int) (Values : List Value)
  | Thunk (addr : Nat)

/-- Modelled from the spec: the constants `CodeValue` .. `CodeSwitch` that
`Reduce` switches on are declared outside the source files; these are the eight
instruction kinds of section 3. -/
inductive CodeKind where
  | CodeValue | CodeOperator | CodeMake | CodeVar | CodeGlobal | CodeAbst | CodeAppl | CodeSwitch
  deriving DecidableEq, Repr

/-- Modelled from the spec: the declaration of `Code` is not among the source
files.  `Reduce` reads the four fields `Kind`, `X`, `Value` and `Table` of an
instruction node. -/
inductive Code where
  | mk (Kind : CodeKind) (X : Int) (Value : Value) (Table : List Code)

/-- Field `code.Kind`. -/
def Code.Kind : Code → CodeKind
  | .mk k _ _ _ => k

/-- Field `code.X`: operator id, constructor tag, variable or global index, or
arity, depending on the kind. -/
def Code.X : Code → Int
  | .mk _ x _ _ => x

/-- Field `code.Value`: the literal of a `CodeValue` node. -/
def Code.Value : Code → Value
  | .mk _ _ v _ => v

/-- Field `code.Table`: the sub-instructions of a node. -/
def Code.Table : Code → List Code
  | .mk _ _ _ t => t

/-- Modelled from the spec: the declaration of `Thunk` is not among the source
files.  `Reduce` reads and writes the fields `Result`, `Code` and `Data`; a nil
`Result` or `Code` is `none`, a nil `Data` is the empty list. -/
structure Thunk where
  Result : Option Value
  Code : Option Code
  Data : List Value

/-- The mutable part of the process: the thunk records, the two counters of
`reduce.go`, the text written to the diagnostic stream, and the number of
`Struct` objects built so far: every `&Struct{...}` of the source builds a new
object, which is how a newly built struct differs from one that was there
before, such as an entry of `nullaryStructs`. -/
structure State where
  heap : List Thunk
  Reductions : Nat
  MaxStack : Nat
  stderr : List Int
  Structs : Nat

/-- The state after `n` more `Struct` objects have been built. -/
def State.built (st : State) (n : Nat) : State :=
  { st with Structs := st.Structs + n }

/-- The ways evaluation aborts: the five `panic` calls of the source, and the
run-time panics of the Go operations it uses. -/
inductive Panic where
  /-- The panic "not empty stack". -/
  | notEmptyStack
  /-- The panic "infinite reduction". -/
  | infiniteReduction
  /-- The panic "invalid arity". -/
  | invalidArity
  /-- The panic "not enough arguments on stack". -/
  | notEnoughArguments
  /-- The panic "wrong operator code". -/
  | wrongOperatorCode
  /-- The panic "unreachable". -/
  | unreachable
  /-- An index out of range on a slice or array. -/
  | indexOutOfRange
  /-- A failed type assertion. -/
  | typeAssertion
  /-- Use of a thunk address that is not allocated. -/
  | nilDereference
  /-- Making a slice of negative length. -/
  | makeslice
  /-- Division of a big integer by zero. -/
  | divisionByZero
  /-- Conversion of a NaN to a big float. -/
  | errNaN
  deriving DecidableEq, Repr

/-- What a call does: returns normally, panics, ends the process through
`os.Exit`, or is cut off by the fuel bound of the embedding. -/
inductive Outcome (α : Type) where
  | ok (a : α)
  | panic (p : Panic)
  | exit (status : Nat) (st : State)
  | outOfFuel

/-- Sequencing: anything but a normal return ends the computation. -/
def Outcome.bind {α β : Type} (x : Outcome α) (f : α → Outcome β) : Outcome β :=
  match x with
  | .ok a => f a
  | .panic p => .panic p
  | .exit c st => .exit c st
  | .outOfFuel => .outOfFuel

instance : Monad Outcome where
  pure := Outcome.ok
  bind := Outcome.bind

/-- Weak-head normal form: `*Char`, `*Int`, `*Float` or `*Struct`. -/
def Value.isWHNF : Value → Bool
  | .Thunk _ => false
  | _ => true

/-! ## Host library -/

/-- Conversion to int32 (two's complement wrap-around). -/
def int32 (x : Int) : Int := (x + 2 ^ 31) % 2 ^ 32 - 2 ^ 31

/-- Conversion to int64 (two's complement wrap-around). -/
def int64 (x : Int) : Int := (x + 2 ^ 63) % 2 ^ 64 - 2 ^ 63

/-- Host method `big.Int.Int64`: the low 64 bits of the magnitude, negated for a negative
number. -/
def bigInt64 (x : Int) : Int :=
  let v := int64 ((x.natAbs % 2 ^ 64 : Nat) : Int)
  if x < 0 then int64 (-v) else v

/-- Host method `big.Int.QuoRem`: truncated division, quotient and remainder; a zero divisor
panics. -/
def bigQuoRem (x y : Int) : Outcome (Int × Int) :=
  if y = 0 then .panic .divisionByZero else .ok (x.tdiv y, x.tmod y)

/-- Host method `big.Int.Div`: `QuoRem`, then the quotient is moved by one when the remainder
is negative. -/
def bigDiv (x y : Int) : Outcome Int := do
  let (q, r) ← bigQuoRem x y
  if r < 0 then
    if y < 0 then pure (q + 1) else pure (q - 1)
  else pure q

/-- Host method `big.Int.Mod`: `QuoRem`, then the divisor's magnitude is added to a negative
remainder. -/
def bigMod (x y : Int) : Outcome Int := do
  let (_, r) ← bigQuoRem x y
  if r < 0 then
    if y < 0 then pure (r - y) else pure (r + y)
  else pure r

/-- Host method `big.Int.Exp` with a nil modulus: `x ** y`, and 1 when `y <= 0`. -/
def bigExp (x y : Int) : Int :=
  if y ≤ 0 then 1 else x ^ y.toNat

/-- The decimal digit characters of a natural number, most significant first. -/
def natText (n : Nat) : List Int :=
  if n = 0 then [48] else (Nat.digits 10 n).reverse.map fun (d : Nat) => 48 + (d : Int)

/-- Host method `big.Int.Text(10)` as a sequence of runes: a `-` for a negative number, then
the decimal digits of the magnitude. -/
def bigText (x : Int) : List Int :=
  if x < 0 then 45 :: natText x.natAbs else natText x.natAbs

/-- Host method `strings.Builder.WriteRune`: a rune that is not a Unicode scalar value is
written as U+FFFD. -/
def writeRune (r : Int) : Int :=
  if r < 0 ∨ 0x10FFFF < r ∨ (0xD800 ≤ r ∧ r ≤ 0xDFFF) then 0xFFFD else r

/-- The space characters of `fmt` scanning. -/
def isSpace (r : Int) : Bool :=
  (0x09 ≤ r ∧ r ≤ 0x0D) ∨ r = 0x20 ∨ r = 0x85 ∨ r = 0xA0 ∨ r = 0x1680 ∨
  (0x2000 ≤ r ∧ r ≤ 0x200A) ∨ r = 0x2028 ∨ r = 0x2029 ∨ r = 0x202F ∨ r = 0x205F ∨ r = 0x3000

/-- The value of a character as a digit: `0-9`, then `a-z` and `A-Z` from ten;
anything else is no digit. -/
def digitVal (ch : Int) : Option Nat :=
  if 48 ≤ ch ∧ ch ≤ 57 then some (ch - 48).toNat
  else if 97 ≤ ch ∧ ch ≤ 122 then some (ch - 97 + 10).toNat
  else if 65 ≤ ch ∧ ch ≤ 90 then some (ch - 65 + 10).toNat
  else none

/-- The digit loop of `nat.scan`: the longest run of digits below the base is
accumulated; the result is the number and how many digits were read. -/
def scanDigits (b : Nat) : List Int → Nat → Nat → Nat × Nat
  | [], acc, count => (acc, count)
  | ch :: rest, acc, count =>
    match digitVal ch with
    | some d => if d < b then scanDigits b rest (acc * b + d) (count + 1) else (acc, count)
    | none => (acc, count)

/-- Host function `nat.scan` with base 0: a base prefix `0b`, `0o`, `0x` or a leading `0`
(octal) is recognised, then the digits are read; no digits gives 0.  The `_`
digit separators of the host library are outside this model. -/
def scanNat : List Int → Nat
  | 48 :: ch :: rest =>
    if ch = 98 ∨ ch = 66 then (scanDigits 2 rest 0 0).1
    else if ch = 111 ∨ ch = 79 then (scanDigits 8 rest 0 0).1
    else if ch = 120 ∨ ch = 88 then (scanDigits 16 rest 0 0).1
    else (scanDigits 8 (ch :: rest) 0 0).1
  | s => (scanDigits 10 s 0 0).1

/-- Host function `fmt.Sscan` into a zero `big.Int`: leading space is skipped, an optional sign
is read, then the number; on a failed scan the integer keeps the value 0. -/
def scanBigInt (s : List Int) : Int :=
  match s.dropWhile isSpace with
  | 45 :: rest => - (scanNat rest : Int)
  | 43 :: rest => (scanNat rest : Int)
  | rest => (scanNat rest : Int)

/-- Host expression `big.NewFloat(math.Floor(f)).Int`: NaN panics, an infinity leaves the zero
integer, any other float gives its floor. -/
def floatFloorInt (f : Float) : Outcome Int :=
  if f.isNaN then .panic .errNaN
  else match f.floor.toRatParts with
    | none => .ok 0
    | some (m, e) => if 0 ≤ e then .ok (m * 2 ^ e.toNat) else .ok (m / 2 ^ (-e).toNat)

/-- Host function `fmt.Sprint` of a float64, as runes (the host's default float formatting). -/
def floatText (f : Float) : List Int :=
  (toString f).toList.map fun c => (c.toNat : Int)

/-- Host function `fmt.Sscan` into a zero float64: leading space is skipped and a decimal
number `[sign] digits [. digits]` is read; on a failed scan the float keeps the
value 0. -/
def scanFloat (s : List Int) : Float :=
  let t := s.dropWhile isSpace
  let (neg, t) := match t with
    | 45 :: rest => (true, rest)
    | 43 :: rest => (false, rest)
    | rest => (false, rest)
  let (ip, n) := scanDigits 10 t 0 0
  let t := t.drop n
  let (fp, k) := match t with
    | 46 :: rest => scanDigits 10 rest 0 0
    | _ => (0, 0)
  let f := Float.ofScientific (ip * 10 ^ k + fp) true k
  if neg then -f else f

/-! ## Operators (`operators.go`) -/

def OpCharInt : Int := 0
def OpCharInc : Int := 1
def OpCharDec : Int := 2
def OpCharAdd : Int := 3
def OpCharSub : Int := 4
def OpCharEq : Int := 5
def OpCharNeq : Int := 6
def OpCharLess : Int := 7
def OpCharLessEq : Int := 8
def OpCharMore : Int := 9
def OpCharMoreEq : Int := 10
def OpIntChar : Int := 11
def OpIntFloat : Int := 12
def OpIntString : Int := 13
def OpIntNeg : Int := 14
def OpIntAbs : Int := 15
def OpIntInc : Int := 16
def OpIntDec : Int := 17
def OpIntAdd : Int := 18
def OpIntSub : Int := 19
def OpIntMul : Int := 20
def OpIntDiv : Int := 21
def OpIntMod : Int := 22
def OpIntExp : Int := 23
def OpIntEq : Int := 24
def OpIntNeq : Int := 25
def OpIntLess : Int := 26
def OpIntLessEq : Int := 27
def OpIntMore : Int := 28
def OpIntMoreEq : Int := 29
def OpFloatInt : Int := 30
def OpFloatString : Int := 31
def OpFloatNeg : Int := 32
def OpFloatAbs : Int := 33
def OpFloatInc : Int := 34
def OpFloatDec : Int := 35
def OpFloatAdd : Int := 36
def OpFloatSub : Int := 37
def OpFloatMul : Int := 38
def OpFloatDiv : Int := 39
def OpFloatMod : Int := 40
def OpFloatExp : Int := 41
def OpFloatEq : Int := 42
def OpFloatNeq : Int := 43
def OpFloatLess : Int := 44
def OpFloatLessEq : Int := 45
def OpFloatMore : Int := 46
def OpFloatMoreEq : Int := 47
def OpStringInt : Int := 48
def OpStringFloat : Int := 49
def OpError : Int := 50
def OpDump : Int := 51

/-- The table `operatorArity`, indexed by operator id. -/
def operatorArity : List Nat :=
  [1, 1, 1, 2, 2, 2, 2, 2, 2, 2, 2,
   1, 1, 1, 1, 1, 1, 1, 2, 2, 2, 2, 2, 2, 2, 2, 2, 2, 2, 2,
   1, 1, 1, 1, 1, 1, 2, 2, 2, 2, 2, 2, 2, 2, 2, 2, 2, 2,
   1, 1,
   1, 2]

/-- Modelled from the spec: the array `nullaryStructs` is declared outside the
source files; section 4.2 describes its first two entries, the zero-field structs
of tag 0 and tag 1 that the comparisons return. -/
def nullaryStructs : List Value := [.Struct 0 [], .Struct 1 []]

/-- The comparisons return `&nullaryStructs[0]` when the test holds and
`&nullaryStructs[1]` otherwise: an entry of the table, not a struct they build. -/
def boolStruct (b : Bool) : Value :=
  if b then nullaryStructs.get ⟨0, by decide⟩ else nullaryStructs.get ⟨1, by decide⟩

/-- Type assertion `x.(*Char)`, giving the rune. -/
def asChar : Value → Outcome Int
  | .Char c => .ok c
  | _ => .panic .typeAssertion

/-- Type assertion `x.(*Int)`, giving the integer. -/
def asInt : Value → Outcome Int
  | .Int i => .ok i
  | _ => .panic .typeAssertion

/-- Type assertion `x.(*Float)`, giving the float. -/
def asFloat : Value → Outcome Float
  | .Float f => .ok f
  | _ => .panic .typeAssertion

/-- Type assertion `x.(*Struct)`, giving tag and fields. -/
def asStruct : Value → Outcome (Int × List Value)
  | .Struct i vs => .ok (i, vs)
  | _ => .panic .typeAssertion

/-- Indexing a slice: out of range panics. -/
def index {α : Type} (xs : List α) (i : Int) : Outcome α :=
  if i < 0 then .panic .indexOutOfRange
  else match xs[i.toNat]? with
    | some x => .ok x
    | none => .panic .indexOutOfRange

/-- The loop of `accumString`, entered with the current cell `str` and the text
built so far: while the tag is not 0, field 1 is forced to a `Char` and written,
then field 0 is forced to the next cell. -/
def accumLoop (reduce : State → Value → Outcome (Value × State)) :
    Nat → State → Int → List Value → List Int → Outcome (List Int × State)
  | 0, _, _, _, _ => .outOfFuel
  | n + 1, st, strIndex, strValues, b =>
    if strIndex = 0 then .ok (b, st)
    else do
      let v1 ← index strValues 1
      let (r1, st1) ← reduce st v1
      let c ← asChar r1
      let v0 ← index strValues 0
      let (r0, st2) ← reduce st1 v0
      let (i, vs) ← asStruct r0
      accumLoop reduce n st2 i vs (b ++ [writeRune c])

/-- Function `accumString`: realises a list of characters to a host string,
forcing every cell through `Reduce`. -/
def accumString (reduce : State → Value → Outcome (Value × State)) (fuel : Nat)
    (st : State) (x : Value) : Outcome (List Int × State) := do
  let (i, vs) ← asStruct x
  accumLoop reduce fuel st i vs []

/-- The list of characters built by `OpIntString` and `OpFloatString`: from the
last rune to the first, a tag-1 struct whose fields are the list built so far and
the character. -/
def makeString (runes : List Int) : Value :=
  runes.foldr (fun r str => Value.Struct 1 [str, .Char r]) (.Struct 0 [])

/-- Function `operator1`: the unary primitives.  `reduce` is the engine that
`accumString` calls back into and `fuel` bounds the loop of `accumString`. -/
def operator1 (reduce : State → Value → Outcome (Value × State)) (fuel : Nat)
    (st : State) (code : Int) (x : Value) : Outcome (Value × State) :=
  if code = OpCharInt then do
    let c ← asChar x
    pure (.Int c, st)
  else if code = OpCharInc then do
    let c ← asChar x
    pure (.Char (int32 (c + 1)), st)
  else if code = OpCharDec then do
    let c ← asChar x
    pure (.Char (int32 (c - 1)), st)
  else if code = OpIntChar then do
    let i ← asInt x
    pure (.Char (int32 (bigInt64 i)), st)
  else if code = OpIntFloat then do
    let i ← asInt x
    pure (.Float (Float.ofInt i), st)
  else if code = OpIntString then do
    let i ← asInt x
    pure (makeString (bigText i), st.built (1 + (bigText i).length))
  else if code = OpIntNeg then do
    let i ← asInt x
    pure (.Int (-i), st)
  else if code = OpIntAbs then do
    let i ← asInt x
    pure (.Int |i|, st)
  else if code = OpIntInc then do
    let i ← asInt x
    pure (.Int (i + 1), st)
  else if code = OpIntDec then do
    let i ← asInt x
    pure (.Int (i - 1), st)
  else if code = OpFloatInt then do
    let f ← asFloat x
    let i ← floatFloorInt f
    pure (.Int i, st)
  else if code = OpFloatString then do
    let f ← asFloat x
    pure (makeString (floatText f), st.built (1 + (floatText f).length))
  else if code = OpFloatNeg then do
    let f ← asFloat x
    pure (.Float (-f), st)
  else if code = OpFloatAbs then do
    let f ← asFloat x
    pure (.Float f.abs, st)
  else if code = OpFloatInc then do
    let f ← asFloat x
    pure (.Float (f + 1), st)
  else if code = OpFloatDec then do
    let f ← asFloat x
    pure (.Float (f - 1), st)
  else if code = OpStringInt then do
    let (s, st1) ← accumString reduce fuel st x
    pure (.Int (scanBigInt s), st1)
  else if code = OpStringFloat then do
    let (s, st1) ← accumString reduce fuel st x
    pure (.Float (scanFloat s), st1)
  else if code = OpError then do
    let (s, st1) ← accumString reduce fuel st x
    .exit 1 { st1 with stderr := st1.stderr ++ [69, 82, 82, 79, 82, 58, 32] ++ s ++ [10] }
  else .panic .wrongOperatorCode

/-- Function `operator2`: the binary primitives; `x` is the top of the stack and
`y` the slot below it. -/
def operator2 (reduce : State → Value → Outcome (Value × State)) (fuel : Nat)
    (st : State) (code : Int) (x y : Value) : Outcome (Value × State) :=
  if code = OpCharAdd then do
    let d ← asInt y
    let c ← asChar x
    pure (.Char (int32 (c + int32 (bigInt64 d))), st)
  else if code = OpCharSub then do
    let d ← asInt y
    let c ← asChar x
    pure (.Char (int32 (c - int32 (bigInt64 d))), st)
  else if code = OpCharEq then do
    let a ← asChar x
    let b ← asChar y
    pure (boolStruct (a = b), st)
  else if code = OpCharNeq then do
    let a ← asChar x
    let b ← asChar y
    pure (boolStruct (a ≠ b), st)
  else if code = OpCharLess then do
    let a ← asChar x
    let b ← asChar y
    pure (boolStruct (a < b), st)
  else if code = OpCharLessEq then do
    let a ← asChar x
    let b ← asChar y
    pure (boolStruct (a ≤ b), st)
  else if code = OpCharMore then do
    let a ← asChar x
    let b ← asChar y
    pure (boolStruct (a > b), st)
  else if code = OpCharMoreEq then do
    let a ← asChar x
    let b ← asChar y
    pure (boolStruct (a ≥ b), st)
  else if code = OpIntAdd then do
    let a ← asInt x
    let b ← asInt y
    pure (.Int (a + b), st)
  else if code = OpIntSub then do
    let a ← asInt x
    let b ← asInt y
    pure (.Int (a - b), st)
  else if code = OpIntMul then do
    let a ← asInt x
    let b ← asInt y
    pure (.Int (a * b), st)
  else if code = OpIntDiv then do
    let a ← asInt x
    let b ← asInt y
    let q ← bigDiv a b
    pure (.Int q, st)
  else if code = OpIntMod then do
    let a ← asInt x
    let b ← asInt y
    let r ← bigMod a b
    pure (.Int r, st)
  else if code = OpIntExp then do
    let a ← asInt x
    let b ← asInt y
    pure (.Int (bigExp a b), st)
  else if code = OpIntEq then do
    let a ← asInt x
    let b ← asInt y
    pure (boolStruct (a = b), st)
  else if code = OpIntNeq then do
    let a ← asInt x
    let b ← asInt y
    pure (boolStruct (a ≠ b), st)
  else if code = OpIntLess then do
    let a ← asInt x
    let b ← asInt y
    pure (boolStruct (a < b), st)
  else if code = OpIntLessEq then do
    let a ← asInt x
    let b ← asInt y
    pure (boolStruct (a ≤ b), st)
  else if code = OpIntMore then do
    let a ← asInt x
    let b ← asInt y
    pure (boolStruct (a > b), st)
  else if code = OpIntMoreEq then do
    let a ← asInt x
    let b ← asInt y
    pure (boolStruct (a ≥ b), st)
  else if code = OpFloatAdd then do
    let xf ← asFloat x
    let yf ← asFloat y
    pure (.Float (xf + yf), st)
  else if code = OpFloatSub then do
    let xf ← asFloat x
    let yf ← asFloat y
    pure (.Float (xf - yf), st)
  else if code = OpFloatMul then do
    let xf ← asFloat x
    let yf ← asFloat y
    pure (.Float (xf * yf), st)
  else if code = OpFloatDiv then do
    let xf ← asFloat x
    let yf ← asFloat y
    pure (.Float (xf / yf), st)
  else if code = OpFloatMod then do
    let xf ← asFloat x
    let yf ← asFloat y
    pure (.Float (xf - yf * (xf / yf).floor), st)
  else if code = OpFloatExp then do
    let xf ← asFloat x
    let yf ← asFloat y
    pure (.Float (xf.pow yf), st)
  else if code = OpFloatEq then do
    let xf ← asFloat x
    let yf ← asFloat y
    pure (boolStruct (xf == yf), st)
  else if code = OpFloatNeq then do
    let xf ← asFloat x
    let yf ← asFloat y
    pure (boolStruct (xf != yf), st)
  else if code = OpFloatLess then do
    let xf ← asFloat x
    let yf ← asFloat y
    pure (boolStruct (xf < yf), st)
  else if code = OpFloatLessEq then do
    let xf ← asFloat x
    let yf ← asFloat y
    pure (boolStruct (xf ≤ yf), st)
  else if code = OpFloatMore then do
    let xf ← asFloat x
    let yf ← asFloat y
    pure (boolStruct (xf > yf), st)
  else if code = OpFloatMoreEq then do
    let xf ← asFloat x
    let yf ← asFloat y
    pure (boolStruct (xf ≥ yf), st)
  else if code = OpDump then do
    let (s, st1) ← accumString reduce fuel st x
    pure (y, { st1 with stderr := st1.stderr ++ s ++ [10] })
  else .panic .wrongOperatorCode

/-! ## The reduction engine (`reduce.go`) -/

/-- Where the flat loop of `Reduce` stands: at the label `beginning` with the
current `value`, or at the head of the `for` loop with the current `code` and
`data`. -/
inductive Ctl where
  | beginning (value : Value)
  | interp (code : Code) (data : List Value)

/-- The effect of one pass: control goes on (with the state and the locals
`stack` and `shares`), or `Reduce` executes a `return`. -/
inductive Step where
  | next (st : State) (stack : List Value) (shares : List Nat) (ctl : Ctl)
  | ret (result : Value) (st : State) (shares : List Nat)

/-- The state after the statement `Reductions++`. -/
def tick (st : State) : State := { st with Reductions := st.Reductions + 1 }

/-- The statement `if len(stack) > MaxStack { MaxStack = len(stack) }`. -/
def bumpMaxStack (st : State) (stack : List Value) : State :=
  if stack.length > st.MaxStack then { st with MaxStack := stack.length } else st

/-- Allocation `&Thunk{Code: code, Data: data}`: the new record is put at the end
of the heap; the result is the new state and the thunk's address. -/
def allocThunk (st : State) (code : Code) (data : List Value) : State × Nat :=
  ({ st with heap := st.heap ++ [{ Result := none, Code := some code, Data := data }] },
   st.heap.length)

/-- The variable lookup `data[int32(len(data)) - x - 1]`.  The int32 subtraction
is written over the integers: `x` is an int32 and a slice is shorter than 2^31,
so a wrapped difference is out of range exactly when the exact one is. -/
def lookupVar (data : List Value) (x : Int) : Outcome Value :=
  index data ((data.length : Int) - x - 1)

/-- The argument loop of the `CodeAppl` case, over the arguments in the order the
loop visits them (last argument first): a literal or a variable is pushed as its
value, anything else as a newly allocated thunk over the current `data`. -/
def pushArgs (data : List Value) : List Code → State → List Value → Outcome (State × List Value)
  | [], st, stack => .ok (st, stack)
  | c :: cs, st, stack =>
    match c.Kind with
    | .CodeValue => pushArgs data cs st (stack ++ [c.Value])
    | .CodeVar => do
      let v ← lookupVar data c.X
      pushArgs data cs st (stack ++ [v])
    | _ =>
      let (st1, a) := allocThunk st c data
      pushArgs data cs st1 (stack ++ [.Thunk a])

/-- One pass of the body of `Reduce`: from the label `beginning` up to the `for`
loop, or one iteration of the `for` loop.  `reduce` is the nested call of
`Reduce` (from the `CodeSwitch` case and from `accumString`). -/
def step (reduce : State → Value → Outcome (Value × State)) (fuel : Nat)
    (globals : List Value) (st : State) (stack : List Value) (shares : List Nat) :
    Ctl → Outcome Step
  | .beginning (.Thunk a) =>
    match st.heap[a]? with
    | none => .panic .nilDereference
    | some v =>
      match v.Result with
      | some r => .ok (.ret r st shares)
      | none =>
        match v.Code with
        | none => .panic .infiniteReduction
        | some code =>
          if stack.length = 0 then
            .ok (.next { st with heap := st.heap.set a { v with Code := none, Data := [] } }
              stack (shares ++ [a]) (.interp code v.Data))
          else .ok (.next st stack shares (.interp code v.Data))
  | .beginning v =>
    if stack.length > 0 then .panic .notEmptyStack else .ok (.ret v st shares)
  | .interp code data =>
    let st := tick st
    match code.Kind with
    | .CodeValue => .ok (.ret code.Value st shares)
    | .CodeOperator => do
      let arity ← index operatorArity code.X
      if arity = 1 then do
        let x ← index stack ((stack.length : Int) - 1)
        let (r, st1) ← operator1 reduce fuel st code.X x
        pure (.ret r st1 shares)
      else if arity = 2 then do
        let x ← index stack ((stack.length : Int) - 1)
        let y ← index stack ((stack.length : Int) - 2)
        let (r, st1) ← operator2 reduce fuel st code.X x y
        pure (.ret r st1 shares)
      else .panic .invalidArity
    | .CodeMake => .ok (.ret (.Struct code.X stack) (st.built 1) shares)
    | .CodeVar => do
      let value ← lookupVar data code.X
      pure (.next st stack shares (.beginning value))
    | .CodeGlobal => do
      let value ← index globals code.X
      pure (.next st stack shares (.beginning value))
    | .CodeAbst =>
      if (stack.length : Int) < code.X then .panic .notEnoughArguments
      else if code.X < 0 then .panic .makeslice
      else do
        let pop := stack.length - code.X.toNat
        let data1 := stack.drop pop
        let stack1 := stack.take pop
        let body ← index code.Table 0
        pure (.next (bumpMaxStack st stack1) stack1 shares (.interp body data1))
    | .CodeAppl => do
      let (st1, stack1) ← pushArgs data (code.Table.drop 1).reverse st stack
      let callee ← index code.Table 0
      pure (.next (bumpMaxStack st1 stack1) stack1 shares (.interp callee data))
    | .CodeSwitch => do
      let scrutinee ← index code.Table 0
      let (st1, a) := allocThunk st scrutinee data
      let (r, st2) ← reduce st1 (.Thunk a)
      let (strIndex, strValues) ← asStruct r
      let stack1 := stack ++ strValues
      let branch ← index code.Table (strIndex + 1)
      pure (.next (bumpMaxStack st2 stack1) stack1 shares (.interp branch data))

/-- Repetition of `step` until a `return`, for at most the given number of
passes. -/
def iter (stepf : State → List Value → List Nat → Ctl → Outcome Step) :
    Nat → State → List Value → List Nat → Ctl → Outcome (Value × State × List Nat)
  | 0, _, _, _, _ => .outOfFuel
  | n + 1, st, stack, shares, ctl =>
    match stepf st stack shares ctl with
    | .ok (.next st1 stack1 shares1 ctl1) => iter stepf n st1 stack1 shares1 ctl1
    | .ok (.ret r st1 shares1) => .ok (r, st1, shares1)
    | .panic p => .panic p
    | .exit c s => .exit c s
    | .outOfFuel => .outOfFuel

/-- The deferred function of `Reduce`, on a normal return: every thunk recorded
in `shares` gets `Result = result`. -/
def memoize (result : Value) : List Nat → State → State
  | [], st => st
  | a :: rest, st =>
    match st.heap[a]? with
    | some t => memoize result rest { st with heap := st.heap.set a { t with Result := some result } }
    | none => memoize result rest st

/-- Function `Reduce`.  The fuel bounds the passes of the flat loop and the depth
of nested calls; a nested call gets one unit less.  After a panic or an exit the
process ends, so the state they leave is not part of the outcome. -/
def Reduce (globals : List Value) : Nat → State → Value → Outcome (Value × State)
  | 0, _, _ => .outOfFuel
  | n + 1, st, value =>
    match iter (step (Reduce globals n) n globals) (n + 1) st [] [] (.beginning value) with
    | .ok (r, st1, shares) => .ok (r, memoize r shares st1)
    | .panic p => .panic p
    | .exit c s => .exit c s
    | .outOfFuel => .outOfFuel

/-! ## Notions used in the statements -/

/-- The digits of the decimal text of a natural number, most significant first. -/
def decimalDigits (n : Nat) : List Nat := if n = 0 then [0] else (Nat.digits 10 n).reverse

/-- The list-of-characters encoding of a text as the operators build it: one
tag-1 struct per rune, holding the rest of the list and the character, and a
tag-0 struct without fields at the end. -/
def IsCharList : List Int → Value → Prop
  | [], v => v = .Struct 0 []
  | r :: rs, v => ∃ tail, v = .Struct 1 [tail, .Char r] ∧ IsCharList rs tail

/-- The operand shape a unary operator of the Char and Int families expects. -/
def unaryOperandOk (code : Int) : Value → Bool
  | .Char _ => code = OpCharInt ∨ code = OpCharInc ∨ code = OpCharDec
  | .Int _ => code = OpIntChar ∨ code = OpIntFloat ∨ code = OpIntString ∨ code = OpIntNeg ∨
      code = OpIntAbs ∨ code = OpIntInc ∨ code = OpIntDec
  | _ => false

/-- The operand shapes a binary operator of the Char and Int families expects:
`x` is the first operand and `y` the second. -/
def binaryOperandsOk (code : Int) : Value → Value → Bool
  | .Char _, .Int _ => code = OpCharAdd ∨ code = OpCharSub
  | .Char _, .Char _ => code = OpCharEq ∨ code = OpCharNeq ∨ code = OpCharLess ∨
      code = OpCharLessEq ∨ code = OpCharMore ∨ code = OpCharMoreEq
  | .Int _, .Int _ => code = OpIntAdd ∨ code = OpIntSub ∨ code = OpIntMul ∨ code = OpIntDiv ∨
      code = OpIntMod ∨ code = OpIntExp ∨ code = OpIntEq ∨ code = OpIntNeq ∨ code = OpIntLess ∨
      code = OpIntLessEq ∨ code = OpIntMore ∨ code = OpIntMoreEq
  | _, _ => false

/-- A division or remainder whose divisor is the integer zero. -/
def dividesByZero (code : Int) : Value → Bool
  | .Int y => (code = OpIntDiv ∨ code = OpIntMod) ∧ y = 0
  | _ => false

/-- The sign of a remainder follows the divisor: the remainder is zero, or both
are positive, or both are negative. -/
def signFollows (r y : Int) : Prop :=
  r = 0 ∨ (0 < r ∧ 0 < y) ∨ (r < 0 ∧ y < 0)

/-- The state of a process that has not run anything yet, over a given heap. -/
def initState (heap : List Thunk) : State :=
  { heap := heap, Reductions := 0, MaxStack := 0, stderr := [], Structs := 0 }

/-- An unresolved thunk record. -/
def unresolved (code : Code) (data : List Value) : Thunk :=
  { Result := none, Code := some code, Data := data }

/-- A resolved thunk record: code and environment cleared, result set. -/
def resolved (result : Value) : Thunk :=
  { Result := some result, Code := none, Data := [] }

/-- Instruction `Value` with the given literal. -/
def Code.value (v : Runtime.Value) : Code := .mk .CodeValue 0 v []

/-- Instruction `Operator` with the given operator id. -/
def Code.operator (x : Int) : Code := .mk .CodeOperator x (.Int 0) []

/-- Instruction `Var` with the given index. -/
def Code.var (x : Int) : Code := .mk .CodeVar x (.Int 0) []

/-- Instruction `Application` of a callee to arguments. -/
def Code.appl (callee : Code) (args : List Code) : Code := .mk .CodeAppl 0 (.Int 0) (callee :: args)

/-- Instruction `Abstraction` of the given arity over a body. -/
def Code.abst (n : Int) (body : Code) : Code := .mk .CodeAbst n (.Int 0) [body]

/-- Instruction `Switch` over a scrutinee and branches. -/
def Code.switch (scrutinee : Code) (branches : List Code) : Code :=
  .mk .CodeSwitch 0 (.Int 0) (scrutinee :: branches)

/-- A chain of variable indirections ending in a literal: every thunk of the list
is unresolved, the code of each but the last is a `Var` whose lookup in the
thunk's own environment gives the next thunk of the list, and the code of the
last is the `Value` literal `v`. -/
def IsVarChain (heap : List Thunk) (v : Value) : List Nat → Prop
  | [] => False
  | [a] => ∃ code data, heap[a]? = some (unresolved code data) ∧ code.Kind = .CodeValue ∧
      code.Value = v
  | a :: b :: rest =>
    (∃ code data, heap[a]? = some (unresolved code data) ∧ code.Kind = .CodeVar ∧
      lookupVar data code.X = .ok (.Thunk b)) ∧ IsVarChain heap v (b :: rest)

/-- The state a pass hands on. -/
def Step.state : Step → State
  | .next st _ _ _ => st
  | .ret _ st _ => st

/-- The recorded thunks a pass hands on. -/
def Step.shares : Step → List Nat
  | .next _ _ shares _ => shares
  | .ret _ _ shares => shares

mutual
/-- A code whose literals are forced: every `Value` literal in it is in weak-head
normal form. -/
def Code.forcedOnly : Code → Bool
  | .mk k _ v t => (k != .CodeValue || v.isWHNF) && Code.forcedOnlyList t
/-- Every code of the list is `forcedOnly`. -/
def Code.forcedOnlyList : List Code → Bool
  | [] => true
  | c :: cs => c.forcedOnly && Code.forcedOnlyList cs
end

/-- A heap in which every cached `Result` is in weak-head normal form and every
thunk's code is `forcedOnly`. -/
def heapForced (heap : List Thunk) : Prop :=
  ∀ (a : Nat) (t : Thunk), heap[a]? = some t →
    (∀ r, t.Result = some r → r.isWHNF = true) ∧ (∀ c, t.Code = some c → c.forcedOnly = true)

/-- The code about to be interpreted, if any, is `forcedOnly`. -/
def Ctl.forcedOnly : Ctl → Bool
  | .beginning _ => true
  | .interp code _ => code.forcedOnly

/-- The second operand of `dump`, when the pass about to run is the operator
`OpDump`: the value just below the top of the stack, `stack[len(stack)-2]`, which
`operator2` returns as it is. -/
def Ctl.dumpOperand (stack : List Value) : Ctl → Option Value
  | .beginning _ => none
  | .interp code _ =>
    if code.Kind = .CodeOperator ∧ code.X = OpDump then
      match index stack ((stack.length : Int) - 2) with
      | .ok y => some y
      | _ => none
    else none

/-- What a pass from the control state `ctl` over `stack` hands on is in order:
the next code to interpret is `forcedOnly`, or the returned value is in weak-head
normal form or is the second operand of `dump`, returned as it was. -/
def Step.forced (ctl : Ctl) (stack : List Value) : Step → Prop
  | .next _ _ _ ctl1 => ctl1.forcedOnly = true
  | .ret r _ _ => r.isWHNF = true ∨ ctl.dumpOperand stack = some r

/-- The operand shapes a comparison operator of the Char and Int families
expects: two characters, or two integers. -/
def comparisonOperandsOk (code : Int) : Value → Value → Bool
  | .Char _, .Char _ => code = OpCharEq ∨ code = OpCharNeq ∨ code = OpCharLess ∨
      code = OpCharLessEq ∨ code = OpCharMore ∨ code = OpCharMoreEq
  | .Int _, .Int _ => code = OpIntEq ∨ code = OpIntNeq ∨ code = OpIntLess ∨
      code = OpIntLessEq ∨ code = OpIntMore ∨ code = OpIntMoreEq
  | _, _ => false

/-- Whether the argument loop of the `CodeAppl` case allocates a thunk for the
argument: it does unless the argument is a `Value` or a `Var`. -/
def Code.isThunked (c : Code) : Bool :=
  match c.Kind with
  | .CodeValue => false
  | .CodeVar => false
  | _ => true

/-- What the Application step pushes for the arguments `cs`, taken in the order
they are pushed, over the environment `data`: the literal for a `Value`, the
environment entry for a `Var`, and otherwise the address of a thunk that is new
(addresses from `base` on, one per such argument) and that the heap `heap1` holds
unresolved with the argument as code and `data` as environment. -/
def ArgsPushed (data : List Value) (heap1 : List Thunk) : Nat → List Code → List Value → Prop
  | _, [], [] => True
  | base, c :: cs, v :: vs =>
    match c.Kind with
    | .CodeValue => v = c.Value ∧ ArgsPushed data heap1 base cs vs
    | .CodeVar => lookupVar data c.X = .ok v ∧ ArgsPushed data heap1 base cs vs
    | _ => v = .Thunk base ∧ heap1[base]? = some (unresolved c data) ∧
        ArgsPushed data heap1 (base + 1) cs vs
  | _, _, _ => False

/-- A thunk that has not been forced: result absent, code present. -/
def Thunk.isUnresolved (t : Thunk) : Prop := t.Result = none ∧ t.Code ≠ none

/-- A thunk that has been forced and memoized: code and environment cleared,
result present. -/
def Thunk.isResolved (t : Thunk) : Prop := t.Result ≠ none ∧ t.Code = none ∧ t.Data = []

/-- A thunk that is being forced: code cleared, result not yet set. -/
def Thunk.inProgress (t : Thunk) : Prop := t.Result = none ∧ t.Code = none

/-- How one cell of the heap may differ between two states: a thunk that exists
is as it was, or it was unresolved and is now resolved; a thunk that did not
exist is new, and is unresolved or resolved. -/
def CellStep : Option Thunk → Option Thunk → Prop
  | some t, some t1 => t1 = t ∨ (t.isUnresolved ∧ t1.isResolved)
  | none, some t1 => t1.isUnresolved ∨ t1.isResolved
  | none, none => True
  | some _, none => False

/-- Every cell of the heap `h1` comes from the cell of `h` by `CellStep`. -/
def HeapStep (h h1 : List Thunk) : Prop := ∀ a : Nat, CellStep h[a]? h1[a]?

/-- The heap in the middle of a call that started from the heap `h0` and has
recorded the thunks `shares`: a recorded thunk was unresolved (or did not exist)
at the start and is now cleared with no result; every other cell comes from its
cell at the start by `CellStep`. -/
def MidStep (h0 : List Thunk) (shares : List Nat) (h : List Thunk) : Prop :=
  ∀ a : Nat,
    (a ∈ shares → (h0[a]? = none ∨ ∃ t, h0[a]? = some t ∧ t.isUnresolved) ∧
      h[a]? = some { Result := none, Code := none, Data := [] }) ∧
    (a ∉ shares → CellStep h0[a]? h[a]?)

/-- A sequence of calls of `Reduce`, each with its fuel and its input value, every
one started in the state the one before it has left. -/
def ReduceSeq (globals : List Value) : List (Nat × Value) → State → Outcome State
  | [], st => .ok st
  | (n, v) :: rest, st => (Reduce globals n st v).bind fun p => ReduceSeq globals rest p.2

/-- The same pass, with the thunks `shares0` recorded before it. -/
def Step.prepend (shares0 : List Nat) : Step → Step
  | .next st stack shares ctl => .next st stack (shares0 ++ shares) ctl
  | .ret r st shares => .ret r st (shares0 ++ shares)

/-- The configuration the flat loop is in after `k` passes none of which returns,
if it gets that far. -/
def passes (stepf : State → List Value → List Nat → Ctl → Outcome Step) :
    Nat → State → List Value → List Nat → Ctl → Option (State × List Value × List Nat × Ctl)
  | 0, st, stack, shares, ctl => some (st, stack, shares, ctl)
  | k + 1, st, stack, shares, ctl =>
    match stepf st stack shares ctl with
    | .ok (.next st1 stack1 shares1 ctl1) => passes stepf k st1 stack1 shares1 ctl1
    | _ => none

/-- One pass of the reference evaluator that never caches: as `step`, but an
unresolved thunk is never recorded or cleared. -/
def stepRef (reduce : State → Value → Outcome (Value × State)) (fuel : Nat)
    (globals : List Value) (st : State) (stack : List Value) (shares : List Nat) :
    Ctl → Outcome Step
  | .beginning (.Thunk a) =>
    match st.heap[a]? with
    | none => .panic .nilDereference
    | some v =>
      match v.Result with
      | some r => .ok (.ret r st shares)
      | none =>
        match v.Code with
        | none => .panic .infiniteReduction
        | some code => .ok (.next st stack shares (.interp code v.Data))
  | ctl => step reduce fuel globals st stack shares ctl

/-- The reference evaluator of the refinement claim: it follows the rules of
`Reduce`, nested calls included, but records no thunk and stores no result. -/
def ReduceRef (globals : List Value) : Nat → State → Value → Outcome (Value × State)
  | 0, _, _ => .outOfFuel
  | n + 1, st, value =>
    match iter (stepRef (ReduceRef globals n) n globals) (n + 1) st [] [] (.beginning value) with
    | .ok (r, st1, _) => .ok (r, st1)
    | .panic p => .panic p
    | .exit c s => .exit c s
    | .outOfFuel => .outOfFuel

/-! ## Theorems -/

/-! ### Sequencing -/

@[simp] theorem Outcome.pure_eq {α : Type} (a : α) : (pure a : Outcome α) = .ok a := rfl

@[simp] theorem Outcome.bind_eq {α β : Type} (x : Outcome α) (f : α → Outcome β) :
    (x >>= f) = x.bind f := rfl

@[simp] theorem Outcome.ok_bind {α β : Type} (a : α) (f : α → Outcome β) :
    (Outcome.ok a).bind f = f a := rfl

@[simp] theorem Outcome.panic_bind {α β : Type} (p : Panic) (f : α → Outcome β) :
    (Outcome.panic p : Outcome α).bind f = .panic p := rfl

@[simp] theorem Outcome.exit_bind {α β : Type} (c : Nat) (s : State) (f : α → Outcome β) :
    (Outcome.exit c s : Outcome α).bind f = .exit c s := rfl

@[simp] theorem Outcome.outOfFuel_bind {α β : Type} (f : α → Outcome β) :
    (Outcome.outOfFuel : Outcome α).bind f = .outOfFuel := rfl

/-- A sequence returns normally only if its first part does. -/
theorem Outcome.bind_eq_ok {α β : Type} {x : Outcome α} {f : α → Outcome β} {b : β}
    (h : x.bind f = .ok b) : ∃ a, x = .ok a ∧ f a = .ok b := by
  cases x with
  | ok a => exact ⟨a, rfl, h⟩
  | panic p => simp at h
  | exit c s => simp at h
  | outOfFuel => simp at h

/-! ### Integer division -/

/-- The truncated remainder is smaller in magnitude than a non-zero divisor. -/
theorem tmod_bounds (x y : Int) (hy : y ≠ 0) : -|y| < x.tmod y ∧ x.tmod y < |y| := by
  have key : ∀ a b : Int, 0 < b → -b < a.tmod b ∧ a.tmod b < b := by
    intro a b hb
    refine ⟨?_, Int.tmod_lt_of_pos a hb⟩
    obtain ⟨n, rfl⟩ := Int.eq_ofNat_of_zero_le (le_of_lt hb)
    cases a with
    | ofNat m =>
      have h1 : 0 ≤ (Int.ofNat m).tmod (n : Int) := Int.tmod_nonneg (n : Int) (Int.ofNat_nonneg m)
      omega
    | negSucc m =>
      have hn : 0 < n := by omega
      have h1 := Nat.mod_lt (m + 1) hn
      have h2 : (Int.negSucc m).tmod (n : Int) = -(((m + 1) % n : Nat) : Int) := rfl
      rw [h2]
      omega
  rcases lt_or_gt_of_ne hy with h | h
  · have := key x (-y) (by omega)
    rw [Int.tmod_neg] at this
    rw [abs_of_neg h]
    exact this
  · rw [abs_of_pos h]
    exact key x y h

/-- For a non-zero divisor `big.Int.Div` and `big.Int.Mod` return normally, and
their results satisfy the division identity with a remainder in `[0, |y|)`. -/
theorem bigDiv_bigMod_spec (x y : Int) (hy : y ≠ 0) :
    ∃ q r, bigDiv x y = .ok q ∧ bigMod x y = .ok r ∧ x = y * q + r ∧ 0 ≤ r ∧ r < |y| := by
  have hb := tmod_bounds x y hy
  have hd := Int.tmod_add_tdiv x y
  simp only [bigDiv, bigMod, bigQuoRem, if_neg hy, Outcome.bind_eq, Outcome.ok_bind,
    Outcome.pure_eq]
  rcases lt_or_gt_of_ne hy with h | h
  · rw [abs_of_neg h] at hb ⊢
    by_cases hr : x.tmod y < 0
    · refine ⟨x.tdiv y + 1, x.tmod y - y, by simp [hr, h], by simp [hr, h], ?_, ?_, ?_⟩
      · linarith
      · omega
      · omega
    · refine ⟨x.tdiv y, x.tmod y, by simp [hr], by simp [hr], ?_, ?_, ?_⟩
      · linarith
      · omega
      · omega
  · rw [abs_of_pos h] at hb ⊢
    have hny : ¬ y < 0 := by omega
    by_cases hr : x.tmod y < 0
    · refine ⟨x.tdiv y - 1, x.tmod y + y, by simp [hr, hny], by simp [hr, hny], ?_, ?_, ?_⟩
      · linarith
      · omega
      · omega
    · refine ⟨x.tdiv y, x.tmod y, by simp [hr], by simp [hr], ?_, ?_, ?_⟩
      · linarith
      · omega
      · omega

/-! ### Character lists and decimal text -/

/-- Function `Reduce` returns a value that is already in weak-head normal form as it is
and leaves the state alone. -/
theorem Reduce_whnf (globals : List Value) (k : Nat) (st : State) (v : Value)
    (hv : v.isWHNF = true) : Reduce globals (k + 1) st v = .ok (v, st) := by
  cases v with
  | Thunk a => simp [Value.isWHNF] at hv
  | _ => rfl

theorem writeRune_of_valid (r : Int) (h0 : 0 ≤ r) (h1 : r < 0xD800) : writeRune r = r := by
  unfold writeRune
  rw [if_neg]
  omega

/-- Realising the list built by `makeString`: every rune comes back, as
`WriteRune` writes it. -/
theorem accumLoop_makeString (globals : List Value) (k : Nat) (st : State) (runes : List Int) :
    ∀ (j : Nat) (b : List Int) (i : Int) (vs : List Value),
      makeString runes = .Struct i vs →
      accumLoop (Reduce globals (k + 1)) (j + 1 + runes.length) st i vs b
        = .ok (b ++ runes.map writeRune, st) := by
  induction runes with
  | nil =>
    intro j b i vs h
    simp only [makeString, List.foldr_nil, Value.Struct.injEq] at h
    obtain ⟨rfl, rfl⟩ := h
    show accumLoop _ (j + 1) st 0 [] b = _
    simp [accumLoop]
  | cons r rs ih =>
    intro j b i vs h
    simp only [makeString, List.foldr_cons, Value.Struct.injEq] at h
    obtain ⟨rfl, rfl⟩ := h
    have hm : ∃ i' vs', makeString rs = .Struct i' vs' := by
      cases rs with
      | nil => exact ⟨0, [], rfl⟩
      | cons a t => exact ⟨1, _, rfl⟩
    obtain ⟨i', vs', hm⟩ := hm
    have ih' := ih j (b ++ [writeRune r]) i' vs' hm
    show accumLoop _ ((j + 1 + rs.length) + 1) st _ _ b = _
    rw [accumLoop]
    have hm' : List.foldr (fun r str => Value.Struct 1 [str, Value.Char r]) (Value.Struct 0 []) rs
        = .Struct i' vs' := hm
    simp [index, Reduce_whnf, Value.isWHNF, asChar, asStruct, hm', ih']

theorem accumString_makeString (globals : List Value) (k j : Nat) (st : State) (runes : List Int) :
    accumString (Reduce globals (k + 1)) (j + 1 + runes.length) st (makeString runes)
      = .ok (runes.map writeRune, st) := by
  have hm : ∃ i vs, makeString runes = .Struct i vs := by
    cases runes with
    | nil => exact ⟨0, [], rfl⟩
    | cons a t => exact ⟨1, _, rfl⟩
  obtain ⟨i, vs, hm⟩ := hm
  have := accumLoop_makeString globals k st runes j [] i vs hm
  simp [accumString, hm, asStruct, this]

theorem digitVal_digit (d : Nat) (h : d < 10) : digitVal (48 + (d : Int)) = some d := by
  unfold digitVal
  have hc : 48 ≤ 48 + (d : Int) ∧ 48 + (d : Int) ≤ 57 := by omega
  rw [if_pos hc]
  simp

theorem scanDigits_digits (ds : List Nat) (h : ∀ d ∈ ds, d < 10) :
    ∀ acc c, scanDigits 10 (ds.map fun (d : Nat) => 48 + (d : Int)) acc c
      = (ds.foldl (fun a d => a * 10 + d) acc, c + ds.length) := by
  induction ds with
  | nil => intro acc c; simp [scanDigits]
  | cons d ds ih =>
    intro acc c
    have hd : d < 10 := h d (List.mem_cons_self _ _)
    have ih' := ih (fun x hx => h x (List.mem_cons_of_mem _ hx)) (acc * 10 + d) (c + 1)
    simp only [List.map_cons, scanDigits, digitVal_digit d hd, if_pos hd, ih', List.foldl_cons,
      List.length_cons]
    exact Prod.ext rfl (by simp only; omega)

theorem natText_eq (n : Nat) : natText n = (decimalDigits n).map fun (d : Nat) => 48 + (d : Int) := by
  unfold natText decimalDigits
  split <;> simp

theorem decimalDigits_lt (n : Nat) : ∀ d ∈ decimalDigits n, d < 10 := by
  intro d hd
  unfold decimalDigits at hd
  split at hd
  · simp at hd; omega
  · exact Nat.digits_lt_base (by norm_num) (List.mem_reverse.mp hd)

theorem decimalDigits_value (n : Nat) : (decimalDigits n).foldl (fun a d => a * 10 + d) 0 = n := by
  unfold decimalDigits
  split
  · subst_vars; rfl
  · rw [List.foldl_reverse]
    have h := Nat.ofDigits_digits 10 n
    rw [Nat.ofDigits_eq_foldr] at h
    simpa [mul_comm, add_comm] using h

theorem decimalDigits_head (n : Nat) :
    decimalDigits n = [0] ∨ ∃ d ds, decimalDigits n = d :: ds ∧ d ≠ 0 := by
  unfold decimalDigits
  split
  · exact Or.inl rfl
  · rename_i hn
    right
    have hne : Nat.digits 10 n ≠ [] := Nat.digits_ne_nil_iff_ne_zero.mpr hn
    have hl := Nat.getLast_digit_ne_zero 10 hn
    obtain ⟨l, a, hla⟩ : ∃ l a, Nat.digits 10 n = l ++ [a] :=
      ⟨_, _, (List.dropLast_append_getLast hne).symm⟩
    simp only [hla, List.getLast_append_singleton] at hl
    exact ⟨a, l.reverse, by simp [hla], hl⟩

theorem scanNat_natText (n : Nat) : scanNat (natText n) = n := by
  rw [natText_eq]
  have key : (scanDigits 10 ((decimalDigits n).map fun (d : Nat) => 48 + (d : Int)) 0 0).1 = n := by
    rw [scanDigits_digits _ (decimalDigits_lt n)]
    exact decimalDigits_value n
  rcases decimalDigits_head n with h | ⟨d, ds, h, hd⟩
  · have h0 : n = 0 := by
      have := decimalDigits_value n
      rw [h] at this
      simpa using this.symm
    subst h0
    rfl
  · rw [h] at key ⊢
    unfold scanNat
    split
    · rename_i ch rest heq
      simp only [List.map_cons, List.cons.injEq] at heq
      omega
    · exact key

theorem scanBigInt_bigText (x : Int) : scanBigInt (bigText x) = x := by
  have hhead : ∀ n : Nat, ∃ c cs, natText n = c :: cs ∧ 48 ≤ c ∧ c ≤ 57 := by
    intro n
    rw [natText_eq]
    rcases decimalDigits_head n with h | ⟨d, ds, h, _⟩
    · exact ⟨48, [], by rw [h]; rfl, by norm_num, by norm_num⟩
    · have := decimalDigits_lt n d (by rw [h]; exact List.mem_cons_self _ _)
      exact ⟨48 + d, _, by rw [h]; rfl, by omega, by omega⟩
  unfold bigText scanBigInt
  split_ifs with hx
  · have h1 : isSpace 45 = false := by decide
    have hdw : List.dropWhile isSpace (45 :: natText x.natAbs) = 45 :: natText x.natAbs := by
      simp [List.dropWhile_cons, h1]
    rw [hdw]
    simp only [scanNat_natText]
    omega
  · obtain ⟨c, cs, hc, h1, h2⟩ := hhead x.natAbs
    have hsp : isSpace c = false := by
      unfold isSpace
      simp only [decide_eq_false_iff_not]
      omega
    have hdw : List.dropWhile isSpace (natText x.natAbs) = natText x.natAbs := by
      rw [hc]; simp [List.dropWhile_cons, hsp]
    rw [hdw]
    split
    · rename_i rest heq
      rw [hc] at heq
      simp only [List.cons.injEq] at heq
      omega
    · rename_i rest heq
      rw [hc] at heq
      simp only [List.cons.injEq] at heq
      omega
    · rw [scanNat_natText]
      omega

/-! ### The passes of `Reduce`, case by case -/

section StepCases

variable (reduce : State → Value → Outcome (Value × State)) (fuel : Nat) (globals : List Value)
  (st : State) (stack : List Value) (shares : List Nat)

theorem step_value (code : Code) (data : List Value) (hk : code.Kind = .CodeValue) :
    step reduce fuel globals st stack shares (.interp code data)
      = .ok (.ret code.Value (tick st) shares) := by
  simp only [step, hk, tick]

theorem step_make (code : Code) (data : List Value) (hk : code.Kind = .CodeMake) :
    step reduce fuel globals st stack shares (.interp code data)
      = .ok (.ret (.Struct code.X stack) ((tick st).built 1) shares) := by
  simp only [step, hk, tick]

theorem step_var (code : Code) (data : List Value) (hk : code.Kind = .CodeVar) :
    step reduce fuel globals st stack shares (.interp code data)
      = (lookupVar data code.X).bind fun value =>
          .ok (.next (tick st) stack shares (.beginning value)) := by
  simp only [step, hk, tick]
  rfl

theorem step_global (code : Code) (data : List Value) (hk : code.Kind = .CodeGlobal) :
    step reduce fuel globals st stack shares (.interp code data)
      = (index globals code.X).bind fun value =>
          .ok (.next (tick st) stack shares (.beginning value)) := by
  simp only [step, hk, tick]
  rfl

theorem step_abst (code : Code) (data : List Value) (hk : code.Kind = .CodeAbst) :
    step reduce fuel globals st stack shares (.interp code data)
      = if (stack.length : Int) < code.X then .panic .notEnoughArguments
        else if code.X < 0 then .panic .makeslice
        else (index code.Table 0).bind fun body =>
          .ok (.next (bumpMaxStack (tick st) (stack.take (stack.length - code.X.toNat)))
            (stack.take (stack.length - code.X.toNat)) shares
            (.interp body (stack.drop (stack.length - code.X.toNat)))) := by
  simp only [step, hk, tick]
  rfl

theorem step_appl (code : Code) (data : List Value) (hk : code.Kind = .CodeAppl) :
    step reduce fuel globals st stack shares (.interp code data)
      = (pushArgs data (code.Table.drop 1).reverse (tick st) stack).bind fun p =>
          (index code.Table 0).bind fun callee =>
            .ok (.next (bumpMaxStack p.1 p.2) p.2 shares (.interp callee data)) := by
  simp only [step, hk, tick]
  rfl

theorem step_switch (code : Code) (data : List Value) (hk : code.Kind = .CodeSwitch) :
    step reduce fuel globals st stack shares (.interp code data)
      = (index code.Table 0).bind fun scrutinee =>
          (reduce (allocThunk (tick st) scrutinee data).1
              (.Thunk (allocThunk (tick st) scrutinee data).2)).bind fun p =>
            (asStruct p.1).bind fun s =>
              (index code.Table (s.1 + 1)).bind fun branch =>
                .ok (.next (bumpMaxStack p.2 (stack ++ s.2)) (stack ++ s.2) shares
                  (.interp branch data)) := by
  simp only [step, hk, tick]
  rfl

theorem step_operator (code : Code) (data : List Value) (hk : code.Kind = .CodeOperator) :
    step reduce fuel globals st stack shares (.interp code data)
      = (index operatorArity code.X).bind fun arity =>
          if arity = 1 then
            (index stack ((stack.length : Int) - 1)).bind fun x =>
              (operator1 reduce fuel (tick st) code.X x).bind fun p =>
                .ok (.ret p.1 p.2 shares)
          else if arity = 2 then
            (index stack ((stack.length : Int) - 1)).bind fun x =>
              (index stack ((stack.length : Int) - 2)).bind fun y =>
                (operator2 reduce fuel (tick st) code.X x y).bind fun p =>
                  .ok (.ret p.1 p.2 shares)
          else .panic .invalidArity := by
  simp only [step, hk, tick]
  rfl

theorem step_whnf (v : Value) (hv : v.isWHNF = true) :
    step reduce fuel globals st stack shares (.beginning v)
      = if stack.length > 0 then .panic .notEmptyStack else .ok (.ret v st shares) := by
  cases v with
  | Thunk a => simp [Value.isWHNF] at hv
  | _ => rfl

theorem step_thunk (a : Nat) :
    step reduce fuel globals st stack shares (.beginning (.Thunk a))
      = match st.heap[a]? with
        | none => .panic .nilDereference
        | some v =>
          match v.Result with
          | some r => .ok (.ret r st shares)
          | none =>
            match v.Code with
            | none => .panic .infiniteReduction
            | some code =>
              if stack.length = 0 then
                .ok (.next { st with heap := st.heap.set a { v with Code := none, Data := [] } }
                  stack (shares ++ [a]) (.interp code v.Data))
              else .ok (.next st stack shares (.interp code v.Data)) := by
  rfl

end StepCases

section IterCases

variable (stepf : State → List Value → List Nat → Ctl → Outcome Step)

theorem iter_next {st : State} {stack : List Value} {shares : List Nat} {ctl : Ctl}
    {st1 : State} {stack1 : List Value} {shares1 : List Nat} {ctl1 : Ctl} (n : Nat)
    (h : stepf st stack shares ctl = .ok (.next st1 stack1 shares1 ctl1)) :
    iter stepf (n + 1) st stack shares ctl = iter stepf n st1 stack1 shares1 ctl1 := by
  simp only [iter, h]

theorem iter_ret {st : State} {stack : List Value} {shares : List Nat} {ctl : Ctl}
    {st1 : State} {shares1 : List Nat} {r : Value} (n : Nat)
    (h : stepf st stack shares ctl = .ok (.ret r st1 shares1)) :
    iter stepf (n + 1) st stack shares ctl = .ok (r, st1, shares1) := by
  simp only [iter, h]

theorem iter_panic {st : State} {stack : List Value} {shares : List Nat} {ctl : Ctl}
    {p : Panic} (n : Nat) (h : stepf st stack shares ctl = .panic p) :
    iter stepf (n + 1) st stack shares ctl = .panic p := by
  simp only [iter, h]

end IterCases

theorem Reduce_succ (globals : List Value) (n : Nat) (st : State) (value : Value) :
    Reduce globals (n + 1) st value
      = (iter (step (Reduce globals n) n globals) (n + 1) st [] [] (.beginning value)).bind
          fun p => .ok (p.1, memoize p.1 p.2.2 p.2.1) := by
  rw [Reduce]
  cases iter (step (Reduce globals n) n globals) (n + 1) st [] [] (.beginning value) <;> rfl

/-! ### Heap lookups, the argument loop and the first pass -/

theorem step_cleared (reduce : State → Value → Outcome (Value × State)) (fuel : Nat)
    (globals : List Value) (st : State) (stack : List Value) (shares : List Nat) (a : Nat)
    (t : Thunk) (ht : st.heap[a]? = some t) (hr : t.Result = none) (hc : t.Code = none) :
    step reduce fuel globals st stack shares (.beginning (.Thunk a))
      = .panic .infiniteReduction := by
  simp [step, ht, hr, hc]

theorem pushArgs_outcome (data : List Value) : ∀ (args : List Code) (st : State)
    (stack : List Value),
    pushArgs data args st stack = .panic .indexOutOfRange ∨
    ∃ st1 stack1, pushArgs data args st stack = .ok (st1, stack1) ∧
      (∀ (a : Nat) (t : Thunk), st.heap[a]? = some t → st1.heap[a]? = some t) ∧
      st.heap.length ≤ st1.heap.length := by
  intro args
  induction args with
  | nil => intro st stack; exact Or.inr ⟨st, stack, rfl, fun _ _ h => h, le_refl _⟩
  | cons c cs ih =>
    intro st stack
    rw [pushArgs]
    split
    · exact ih _ _
    · unfold lookupVar index
      split
      · left; rfl
      · split
        · simp only [Outcome.bind_eq, Outcome.ok_bind]
          exact ih _ _
        · left; rfl
    · rcases ih (allocThunk st c data).1 (stack ++ [.Thunk (allocThunk st c data).2]) with h | h
      · left; exact h
      · obtain ⟨st1, stack1, h1, h2, h3⟩ := h
        refine Or.inr ⟨st1, stack1, h1, ?_, ?_⟩
        · intro a t hat
          apply h2
          simp only [allocThunk]
          rw [List.getElem?_append_left]
          · exact hat
          · exact (List.getElem?_eq_some_iff.mp hat).1
        · simp only [allocThunk, List.length_append, List.length_singleton] at h3
          omega

theorem getElem?_set_same {α : Type} (l : List α) (a : Nat) (t t1 : α) (h : l[a]? = some t) :
    (l.set a t1)[a]? = some t1 := by
  have hlt : a < l.length := (List.getElem?_eq_some_iff.mp h).1
  simp [List.getElem?_set, hlt]

theorem getElem?_set_other {α : Type} (l : List α) (a b : Nat) (t1 : α) (h : a ≠ b) :
    (l.set a t1)[b]? = l[b]? := by
  simp [List.getElem?_set, h]

/-- The first pass of `Reduce` on an unresolved thunk, entered with an empty
stack: the thunk is recorded and cleared, and its code is interpreted next. -/
theorem step_unresolved (reduce : State → Value → Outcome (Value × State)) (fuel : Nat)
    (globals : List Value) (st : State) (shares : List Nat) (a : Nat)
    (code : Code) (data : List Value) (ht : st.heap[a]? = some (unresolved code data)) :
    step reduce fuel globals st [] shares (.beginning (.Thunk a))
      = .ok (.next { st with heap := st.heap.set a { Result := none, Code := none, Data := [] } }
          [] (shares ++ [a]) (.interp code data)) := by
  simp [step, ht, unresolved]

/-! ### The deferred memoization -/

theorem memoize_fields (r : Value) : ∀ (l : List Nat) (st : State),
    (memoize r l st).Reductions = st.Reductions ∧ (memoize r l st).MaxStack = st.MaxStack ∧
    (memoize r l st).stderr = st.stderr ∧ (memoize r l st).heap.length = st.heap.length := by
  intro l
  induction l with
  | nil => intro st; exact ⟨rfl, rfl, rfl, rfl⟩
  | cons a l ih =>
    intro st
    rw [memoize]
    split
    · obtain ⟨h1, h2, h3, h4⟩ := ih { st with heap := st.heap.set a _ }
      exact ⟨h1, h2, h3, by rw [h4]; simp⟩
    · exact ih st

/-- After the deferred function has run, a thunk record is as before, except that
the records listed in `shares` have `Result = result`. -/
theorem memoize_heap (r : Value) : ∀ (l : List Nat) (st : State) (b : Nat),
    (memoize r l st).heap[b]?
      = (st.heap[b]?).map fun t => if b ∈ l then { t with Result := some r } else t := by
  intro l
  induction l with
  | nil => intro st b; simp [memoize]
  | cons a l ih =>
    intro st b
    rw [memoize]
    split
    · rename_i t ht
      rw [ih]
      by_cases hab : a = b
      · subst hab
        rw [getElem?_set_same _ _ _ _ ht, ht]
        by_cases hm : a ∈ l <;> simp [hm]
      · rw [getElem?_set_other _ _ _ _ hab]
        have : (b ∈ a :: l) ↔ b ∈ l := by simp [Ne.symm hab]
        simp only [this]
    · rename_i hnone
      rw [ih]
      by_cases hab : a = b
      · subst hab
        rw [hnone]
        rfl
      · have : (b ∈ a :: l) ↔ b ∈ l := by simp [Ne.symm hab]
        simp only [this]

/-! ### What the operators return -/

theorem makeString_isWHNF (runes : List Int) : (makeString runes).isWHNF = true := by
  cases runes <;> rfl

theorem boolStruct_isWHNF (b : Bool) : (boolStruct b).isWHNF = true := by
  cases b <;> rfl

/-- A normal return of `operator1` gives a value in weak-head normal form; the
state is the one it was given with the structs it built counted, or the one
`accumString` left. -/
theorem operator1_ok (reduce : State → Value → Outcome (Value × State)) (fuel : Nat)
    (st : State) (code : Int) (x r : Value) (st1 : State)
    (h : operator1 reduce fuel st code x = .ok (r, st1)) :
    r.isWHNF = true ∧ ((∃ n, st1 = st.built n) ∨ ∃ s, accumString reduce fuel st x = .ok (s, st1)) := by
  unfold operator1 at h
  by_cases h0 : code = OpCharInt
  · rw [if_pos h0] at h
    obtain ⟨a, -, h⟩ := Outcome.bind_eq_ok h
    cases h
    exact ⟨rfl, Or.inl ⟨0, rfl⟩⟩
  rw [if_neg h0] at h
  by_cases h1 : code = OpCharInc
  · rw [if_pos h1] at h
    obtain ⟨a, -, h⟩ := Outcome.bind_eq_ok h
    cases h
    exact ⟨rfl, Or.inl ⟨0, rfl⟩⟩
  rw [if_neg h1] at h
  by_cases h2 : code = OpCharDec
  · rw [if_pos h2] at h
    obtain ⟨a, -, h⟩ := Outcome.bind_eq_ok h
    cases h
    exact ⟨rfl, Or.inl ⟨0, rfl⟩⟩
  rw [if_neg h2] at h
  by_cases h3 : code = OpIntChar
  · rw [if_pos h3] at h
    obtain ⟨a, -, h⟩ := Outcome.bind_eq_ok h
    cases h
    exact ⟨rfl, Or.inl ⟨0, rfl⟩⟩
  rw [if_neg h3] at h
  by_cases h4 : code = OpIntFloat
  · rw [if_pos h4] at h
    obtain ⟨a, -, h⟩ := Outcome.bind_eq_ok h
    cases h
    exact ⟨rfl, Or.inl ⟨0, rfl⟩⟩
  rw [if_neg h4] at h
  by_cases h5 : code = OpIntString
  · rw [if_pos h5] at h
    obtain ⟨a, -, h⟩ := Outcome.bind_eq_ok h
    cases h
    exact ⟨makeString_isWHNF _, Or.inl ⟨_, rfl⟩⟩
  rw [if_neg h5] at h
  by_cases h6 : code = OpIntNeg
  · rw [if_pos h6] at h
    obtain ⟨a, -, h⟩ := Outcome.bind_eq_ok h
    cases h
    exact ⟨rfl, Or.inl ⟨0, rfl⟩⟩
  rw [if_neg h6] at h
  by_cases h7 : code = OpIntAbs
  · rw [if_pos h7] at h
    obtain ⟨a, -, h⟩ := Outcome.bind_eq_ok h
    cases h
    exact ⟨rfl, Or.inl ⟨0, rfl⟩⟩
  rw [if_neg h7] at h
  by_cases h8 : code = OpIntInc
  · rw [if_pos h8] at h
    obtain ⟨a, -, h⟩ := Outcome.bind_eq_ok h
    cases h
    exact ⟨rfl, Or.inl ⟨0, rfl⟩⟩
  rw [if_neg h8] at h
  by_cases h9 : code = OpIntDec
  · rw [if_pos h9] at h
    obtain ⟨a, -, h⟩ := Outcome.bind_eq_ok h
    cases h
    exact ⟨rfl, Or.inl ⟨0, rfl⟩⟩
  rw [if_neg h9] at h
  by_cases h10 : code = OpFloatInt
  · rw [if_pos h10] at h
    obtain ⟨a, -, h⟩ := Outcome.bind_eq_ok h
    obtain ⟨b, -, h⟩ := Outcome.bind_eq_ok h
    cases h
    exact ⟨rfl, Or.inl ⟨0, rfl⟩⟩
  rw [if_neg h10] at h
  by_cases h11 : code = OpFloatString
  · rw [if_pos h11] at h
    obtain ⟨a, -, h⟩ := Outcome.bind_eq_ok h
    cases h
    exact ⟨makeString_isWHNF _, Or.inl ⟨_, rfl⟩⟩
  rw [if_neg h11] at h
  by_cases h12 : code = OpFloatNeg
  · rw [if_pos h12] at h
    obtain ⟨a, -, h⟩ := Outcome.bind_eq_ok h
    cases h
    exact ⟨rfl, Or.inl ⟨0, rfl⟩⟩
  rw [if_neg h12] at h
  by_cases h13 : code = OpFloatAbs
  · rw [if_pos h13] at h
    obtain ⟨a, -, h⟩ := Outcome.bind_eq_ok h
    cases h
    exact ⟨rfl, Or.inl ⟨0, rfl⟩⟩
  rw [if_neg h13] at h
  by_cases h14 : code = OpFloatInc
  · rw [if_pos h14] at h
    obtain ⟨a, -, h⟩ := Outcome.bind_eq_ok h
    cases h
    exact ⟨rfl, Or.inl ⟨0, rfl⟩⟩
  rw [if_neg h14] at h
  by_cases h15 : code = OpFloatDec
  · rw [if_pos h15] at h
    obtain ⟨a, -, h⟩ := Outcome.bind_eq_ok h
    cases h
    exact ⟨rfl, Or.inl ⟨0, rfl⟩⟩
  rw [if_neg h15] at h
  by_cases h16 : code = OpStringInt
  · rw [if_pos h16] at h
    obtain ⟨⟨s, st2⟩, hs, h⟩ := Outcome.bind_eq_ok h
    cases h
    exact ⟨rfl, Or.inr ⟨s, hs⟩⟩
  rw [if_neg h16] at h
  by_cases h17 : code = OpStringFloat
  · rw [if_pos h17] at h
    obtain ⟨⟨s, st2⟩, hs, h⟩ := Outcome.bind_eq_ok h
    cases h
    exact ⟨rfl, Or.inr ⟨s, hs⟩⟩
  rw [if_neg h17] at h
  by_cases h18 : code = OpError
  · rw [if_pos h18] at h
    obtain ⟨⟨s, st2⟩, hs, h⟩ := Outcome.bind_eq_ok h
    cases h
  rw [if_neg h18] at h
  cases h

/-- A normal return of `operator2` gives a value in weak-head normal form and the
state it was given, except for `OpDump`, which gives its second operand and the
state `accumString` left with the text and a newline written. -/
theorem operator2_ok (reduce : State → Value → Outcome (Value × State)) (fuel : Nat)
    (st : State) (code : Int) (x y r : Value) (st1 : State)
    (h : operator2 reduce fuel st code x y = .ok (r, st1)) :
    (r.isWHNF = true ∧ st1 = st ∧ code ≠ OpDump) ∨
    (code = OpDump ∧ r = y ∧ ∃ s st2, accumString reduce fuel st x = .ok (s, st2) ∧
      st1 = { st2 with stderr := st2.stderr ++ s ++ [10] }) := by
  unfold operator2 at h
  by_cases h0 : code = OpCharAdd
  · rw [if_pos h0] at h
    obtain ⟨a, -, h⟩ := Outcome.bind_eq_ok h
    obtain ⟨b, -, h⟩ := Outcome.bind_eq_ok h
    cases h
    exact Or.inl ⟨rfl, rfl, by rw [h0]; decide⟩
  rw [if_neg h0] at h
  by_cases h1 : code = OpCharSub
  · rw [if_pos h1] at h
    obtain ⟨a, -, h⟩ := Outcome.bind_eq_ok h
    obtain ⟨b, -, h⟩ := Outcome.bind_eq_ok h
    cases h
    exact Or.inl ⟨rfl, rfl, by rw [h1]; decide⟩
  rw [if_neg h1] at h
  by_cases h2 : code = OpCharEq
  · rw [if_pos h2] at h
    obtain ⟨a, -, h⟩ := Outcome.bind_eq_ok h
    obtain ⟨b, -, h⟩ := Outcome.bind_eq_ok h
    cases h
    exact Or.inl ⟨boolStruct_isWHNF _, rfl, by rw [h2]; decide⟩
  rw [if_neg h2] at h
  by_cases h3 : code = OpCharNeq
  · rw [if_pos h3] at h
    obtain ⟨a, -, h⟩ := Outcome.bind_eq_ok h
    obtain ⟨b, -, h⟩ := Outcome.bind_eq_ok h
    cases h
    exact Or.inl ⟨boolStruct_isWHNF _, rfl, by rw [h3]; decide⟩
  rw [if_neg h3] at h
  by_cases h4 : code = OpCharLess
  · rw [if_pos h4] at h
    obtain ⟨a, -, h⟩ := Outcome.bind_eq_ok h
    obtain ⟨b, -, h⟩ := Outcome.bind_eq_ok h
    cases h
    exact Or.inl ⟨boolStruct_isWHNF _, rfl, by rw [h4]; decide⟩
  rw [if_neg h4] at h
  by_cases h5 : code = OpCharLessEq
  · rw [if_pos h5] at h
    obtain ⟨a, -, h⟩ := Outcome.bind_eq_ok h
    obtain ⟨b, -, h⟩ := Outcome.bind_eq_ok h
    cases h
    exact Or.inl ⟨boolStruct_isWHNF _, rfl, by rw [h5]; decide⟩
  rw [if_neg h5] at h
  by_cases h6 : code = OpCharMore
  · rw [if_pos h6] at h
    obtain ⟨a, -, h⟩ := Outcome.bind_eq_ok h
    obtain ⟨b, -, h⟩ := Outcome.bind_eq_ok h
    cases h
    exact Or.inl ⟨boolStruct_isWHNF _, rfl, by rw [h6]; decide⟩
  rw [if_neg h6] at h
  by_cases h7 : code = OpCharMoreEq
  · rw [if_pos h7] at h
    obtain ⟨a, -, h⟩ := Outcome.bind_eq_ok h
    obtain ⟨b, -, h⟩ := Outcome.bind_eq_ok h
    cases h
    exact Or.inl ⟨boolStruct_isWHNF _, rfl, by rw [h7]; decide⟩
  rw [if_neg h7] at h
  by_cases h8 : code = OpIntAdd
  · rw [if_pos h8] at h
    obtain ⟨a, -, h⟩ := Outcome.bind_eq_ok h
    obtain ⟨b, -, h⟩ := Outcome.bind_eq_ok h
    cases h
    exact Or.inl ⟨rfl, rfl, by rw [h8]; decide⟩
  rw [if_neg h8] at h
  by_cases h9 : code = OpIntSub
  · rw [if_pos h9] at h
    obtain ⟨a, -, h⟩ := Outcome.bind_eq_ok h
    obtain ⟨b, -, h⟩ := Outcome.bind_eq_ok h
    cases h
    exact Or.inl ⟨rfl, rfl, by rw [h9]; decide⟩
  rw [if_neg h9] at h
  by_cases h10 : code = OpIntMul
  · rw [if_pos h10] at h
    obtain ⟨a, -, h⟩ := Outcome.bind_eq_ok h
    obtain ⟨b, -, h⟩ := Outcome.bind_eq_ok h
    cases h
    exact Or.inl ⟨rfl, rfl, by rw [h10]; decide⟩
  rw [if_neg h10] at h
  by_cases h11 : code = OpIntDiv
  · rw [if_pos h11] at h
    obtain ⟨a, -, h⟩ := Outcome.bind_eq_ok h
    obtain ⟨b, -, h⟩ := Outcome.bind_eq_ok h
    obtain ⟨c, -, h⟩ := Outcome.bind_eq_ok h
    cases h
    exact Or.inl ⟨rfl, rfl, by rw [h11]; decide⟩
  rw [if_neg h11] at h
  by_cases h12 : code = OpIntMod
  · rw [if_pos h12] at h
    obtain ⟨a, -, h⟩ := Outcome.bind_eq_ok h
    obtain ⟨b, -, h⟩ := Outcome.bind_eq_ok h
    obtain ⟨c, -, h⟩ := Outcome.bind_eq_ok h
    cases h
    exact Or.inl ⟨rfl, rfl, by rw [h12]; decide⟩
  rw [if_neg h12] at h
  by_cases h13 : code = OpIntExp
  · rw [if_pos h13] at h
    obtain ⟨a, -, h⟩ := Outcome.bind_eq_ok h
    obtain ⟨b, -, h⟩ := Outcome.bind_eq_ok h
    cases h
    exact Or.inl ⟨rfl, rfl, by rw [h13]; decide⟩
  rw [if_neg h13] at h
  by_cases h14 : code = OpIntEq
  · rw [if_pos h14] at h
    obtain ⟨a, -, h⟩ := Outcome.bind_eq_ok h
    obtain ⟨b, -, h⟩ := Outcome.bind_eq_ok h
    cases h
    exact Or.inl ⟨boolStruct_isWHNF _, rfl, by rw [h14]; decide⟩
  rw [if_neg h14] at h
  by_cases h15 : code = OpIntNeq
  · rw [if_pos h15] at h
    obtain ⟨a, -, h⟩ := Outcome.bind_eq_ok h
    obtain ⟨b, -, h⟩ := Outcome.bind_eq_ok h
    cases h
    exact Or.inl ⟨boolStruct_isWHNF _, rfl, by rw [h15]; decide⟩
  rw [if_neg h15] at h
  by_cases h16 : code = OpIntLess
  · rw [if_pos h16] at h
    obtain ⟨a, -, h⟩ := Outcome.bind_eq_ok h
    obtain ⟨b, -, h⟩ := Outcome.bind_eq_ok h
    cases h
    exact Or.inl ⟨boolStruct_isWHNF _, rfl, by rw [h16]; decide⟩
  rw [if_neg h16] at h
  by_cases h17 : code = OpIntLessEq
  · rw [if_pos h17] at h
    obtain ⟨a, -, h⟩ := Outcome.bind_eq_ok h
    obtain ⟨b, -, h⟩ := Outcome.bind_eq_ok h
    cases h
    exact Or.inl ⟨boolStruct_isWHNF _, rfl, by rw [h17]; decide⟩
  rw [if_neg h17] at h
  by_cases h18 : code = OpIntMore
  · rw [if_pos h18] at h
    obtain ⟨a, -, h⟩ := Outcome.bind_eq_ok h
    obtain ⟨b, -, h⟩ := Outcome.bind_eq_ok h
    cases h
    exact Or.inl ⟨boolStruct_isWHNF _, rfl, by rw [h18]; decide⟩
  rw [if_neg h18] at h
  by_cases h19 : code = OpIntMoreEq
  · rw [if_pos h19] at h
    obtain ⟨a, -, h⟩ := Outcome.bind_eq_ok h
    obtain ⟨b, -, h⟩ := Outcome.bind_eq_ok h
    cases h
    exact Or.inl ⟨boolStruct_isWHNF _, rfl, by rw [h19]; decide⟩
  rw [if_neg h19] at h
  by_cases h20 : code = OpFloatAdd
  · rw [if_pos h20] at h
    obtain ⟨a, -, h⟩ := Outcome.bind_eq_ok h
    obtain ⟨b, -, h⟩ := Outcome.bind_eq_ok h
    cases h
    exact Or.inl ⟨rfl, rfl, by rw [h20]; decide⟩
  rw [if_neg h20] at h
  by_cases h21 : code = OpFloatSub
  · rw [if_pos h21] at h
    obtain ⟨a, -, h⟩ := Outcome.bind_eq_ok h
    obtain ⟨b, -, h⟩ := Outcome.bind_eq_ok h
    cases h
    exact Or.inl ⟨rfl, rfl, by rw [h21]; decide⟩
  rw [if_neg h21] at h
  by_cases h22 : code = OpFloatMul
  · rw [if_pos h22] at h
    obtain ⟨a, -, h⟩ := Outcome.bind_eq_ok h
    obtain ⟨b, -, h⟩ := Outcome.bind_eq_ok h
    cases h
    exact Or.inl ⟨rfl, rfl, by rw [h22]; decide⟩
  rw [if_neg h22] at h
  by_cases h23 : code = OpFloatDiv
  · rw [if_pos h23] at h
    obtain ⟨a, -, h⟩ := Outcome.bind_eq_ok h
    obtain ⟨b, -, h⟩ := Outcome.bind_eq_ok h
    cases h
    exact Or.inl ⟨rfl, rfl, by rw [h23]; decide⟩
  rw [if_neg h23] at h
  by_cases h24 : code = OpFloatMod
  · rw [if_pos h24] at h
    obtain ⟨a, -, h⟩ := Outcome.bind_eq_ok h
    obtain ⟨b, -, h⟩ := Outcome.bind_eq_ok h
    cases h
    exact Or.inl ⟨rfl, rfl, by rw [h24]; decide⟩
  rw [if_neg h24] at h
  by_cases h25 : code = OpFloatExp
  · rw [if_pos h25] at h
    obtain ⟨a, -, h⟩ := Outcome.bind_eq_ok h
    obtain ⟨b, -, h⟩ := Outcome.bind_eq_ok h
    cases h
    exact Or.inl ⟨rfl, rfl, by rw [h25]; decide⟩
  rw [if_neg h25] at h
  by_cases h26 : code = OpFloatEq
  · rw [if_pos h26] at h
    obtain ⟨a, -, h⟩ := Outcome.bind_eq_ok h
    obtain ⟨b, -, h⟩ := Outcome.bind_eq_ok h
    cases h
    exact Or.inl ⟨boolStruct_isWHNF _, rfl, by rw [h26]; decide⟩
  rw [if_neg h26] at h
  by_cases h27 : code = OpFloatNeq
  · rw [if_pos h27] at h
    obtain ⟨a, -, h⟩ := Outcome.bind_eq_ok h
    obtain ⟨b, -, h⟩ := Outcome.bind_eq_ok h
    cases h
    exact Or.inl ⟨boolStruct_isWHNF _, rfl, by rw [h27]; decide⟩
  rw [if_neg h27] at h
  by_cases h28 : code = OpFloatLess
  · rw [if_pos h28] at h
    obtain ⟨a, -, h⟩ := Outcome.bind_eq_ok h
    obtain ⟨b, -, h⟩ := Outcome.bind_eq_ok h
    cases h
    exact Or.inl ⟨boolStruct_isWHNF _, rfl, by rw [h28]; decide⟩
  rw [if_neg h28] at h
  by_cases h29 : code = OpFloatLessEq
  · rw [if_pos h29] at h
    obtain ⟨a, -, h⟩ := Outcome.bind_eq_ok h
    obtain ⟨b, -, h⟩ := Outcome.bind_eq_ok h
    cases h
    exact Or.inl ⟨boolStruct_isWHNF _, rfl, by rw [h29]; decide⟩
  rw [if_neg h29] at h
  by_cases h30 : code = OpFloatMore
  · rw [if_pos h30] at h
    obtain ⟨a, -, h⟩ := Outcome.bind_eq_ok h
    obtain ⟨b, -, h⟩ := Outcome.bind_eq_ok h
    cases h
    exact Or.inl ⟨boolStruct_isWHNF _, rfl, by rw [h30]; decide⟩
  rw [if_neg h30] at h
  by_cases h31 : code = OpFloatMoreEq
  · rw [if_pos h31] at h
    obtain ⟨a, -, h⟩ := Outcome.bind_eq_ok h
    obtain ⟨b, -, h⟩ := Outcome.bind_eq_ok h
    cases h
    exact Or.inl ⟨boolStruct_isWHNF _, rfl, by rw [h31]; decide⟩
  rw [if_neg h31] at h
  by_cases h32 : code = OpDump
  · rw [if_pos h32] at h
    obtain ⟨⟨s, st2⟩, hs, h⟩ := Outcome.bind_eq_ok h
    cases h
    exact Or.inr ⟨h32, rfl, s, st2, hs, rfl⟩
  rw [if_neg h32] at h
  cases h

/-! ### Properties carried through `accumString` and through the passes -/

/-- A relation between the state before and after that every call of the engine
establishes is established by the loop of `accumString`. -/
theorem accumLoop_rel (R : State → State → Prop) (hrefl : ∀ s, R s s)
    (htrans : ∀ a b c, R a b → R b c → R a c)
    (reduce : State → Value → Outcome (Value × State))
    (hred : ∀ st v r st1, reduce st v = .ok (r, st1) → R st st1) :
    ∀ (n : Nat) (st : State) (i : Int) (vs : List Value) (b s : List Int) (st1 : State),
      accumLoop reduce n st i vs b = .ok (s, st1) → R st st1 := by
  intro n
  induction n with
  | zero => intro st i vs b s st1 h; cases h
  | succ n ih =>
    intro st i vs b s st1 h
    rw [accumLoop] at h
    split_ifs at h with hi
    · cases h; exact hrefl _
    · obtain ⟨v1, -, h⟩ := Outcome.bind_eq_ok h
      obtain ⟨⟨r1, st2⟩, h1, h⟩ := Outcome.bind_eq_ok h
      obtain ⟨c, -, h⟩ := Outcome.bind_eq_ok h
      obtain ⟨v0, -, h⟩ := Outcome.bind_eq_ok h
      obtain ⟨⟨r0, st3⟩, h0, h⟩ := Outcome.bind_eq_ok h
      obtain ⟨⟨j, ws⟩, -, h⟩ := Outcome.bind_eq_ok h
      exact htrans _ _ _ (hred _ _ _ _ h1) (htrans _ _ _ (hred _ _ _ _ h0) (ih _ _ _ _ _ _ h))

theorem accumString_rel (R : State → State → Prop) (hrefl : ∀ s, R s s)
    (htrans : ∀ a b c, R a b → R b c → R a c)
    (reduce : State → Value → Outcome (Value × State))
    (hred : ∀ st v r st1, reduce st v = .ok (r, st1) → R st st1)
    (n : Nat) (st : State) (x : Value) (s : List Int) (st1 : State)
    (h : accumString reduce n st x = .ok (s, st1)) : R st st1 := by
  unfold accumString at h
  obtain ⟨⟨i, vs⟩, -, h⟩ := Outcome.bind_eq_ok h
  exact accumLoop_rel R hrefl htrans reduce hred _ _ _ _ _ _ _ h

theorem bumpMaxStack_heap (st : State) (stack : List Value) :
    (bumpMaxStack st stack).heap = st.heap := by
  unfold bumpMaxStack
  split <;> rfl

/-- One pass never shrinks the heap and never drops a recorded thunk. -/
theorem step_mono (reduce : State → Value → Outcome (Value × State))
    (hred : ∀ st v r st1, reduce st v = .ok (r, st1) → st.heap.length ≤ st1.heap.length)
    (fuel : Nat) (globals : List Value) (st : State) (stack : List Value) (shares : List Nat)
    (ctl : Ctl) (s : Step) (h : step reduce fuel globals st stack shares ctl = .ok s) :
    st.heap.length ≤ s.state.heap.length ∧ ∀ a ∈ shares, a ∈ s.shares := by
  have hacc : ∀ n st x t st1, accumString reduce n st x = .ok (t, st1) →
      st.heap.length ≤ st1.heap.length :=
    accumString_rel (fun a b => a.heap.length ≤ b.heap.length) (fun _ => le_refl _)
      (fun _ _ _ => le_trans) reduce hred
  cases ctl with
  | beginning v =>
    cases v with
    | Thunk a =>
      rw [step_thunk] at h
      split at h
      · cases h
      · split at h
        · cases h; exact ⟨le_refl _, fun _ h => h⟩
        · split at h
          · cases h
          · split_ifs at h
            · cases h
              exact ⟨by simp [Step.state], fun b hb => List.mem_append_left _ hb⟩
            · cases h; exact ⟨le_refl _, fun _ h => h⟩
    | Char c =>
      rw [step_whnf _ _ _ _ _ _ (.Char c) rfl] at h
      split_ifs at h
      cases h; exact ⟨le_refl _, fun _ h => h⟩
    | Int c =>
      rw [step_whnf _ _ _ _ _ _ (.Int c) rfl] at h
      split_ifs at h
      cases h; exact ⟨le_refl _, fun _ h => h⟩
    | Float c =>
      rw [step_whnf _ _ _ _ _ _ (.Float c) rfl] at h
      split_ifs at h
      cases h; exact ⟨le_refl _, fun _ h => h⟩
    | Struct i vs =>
      rw [step_whnf _ _ _ _ _ _ (.Struct i vs) rfl] at h
      split_ifs at h
      cases h; exact ⟨le_refl _, fun _ h => h⟩
  | interp code data =>
    cases hk : code.Kind with
    | CodeValue =>
      rw [step_value _ _ _ _ _ _ _ _ hk] at h
      cases h; exact ⟨le_refl _, fun _ h => h⟩
    | CodeOperator =>
      rw [step_operator _ _ _ _ _ _ _ _ hk] at h
      obtain ⟨arity, -, h⟩ := Outcome.bind_eq_ok h
      split_ifs at h
      · obtain ⟨x, -, h⟩ := Outcome.bind_eq_ok h
        obtain ⟨⟨r, st1⟩, hop, h⟩ := Outcome.bind_eq_ok h
        cases h
        refine ⟨?_, fun _ h => h⟩
        rcases (operator1_ok _ _ _ _ _ _ _ hop).2 with ⟨nb, e⟩ | ⟨t, ht⟩
        · simp [Step.state, e, tick, State.built]
        · have := hacc _ _ _ _ _ ht
          simpa [Step.state, tick] using this
      · obtain ⟨x, -, h⟩ := Outcome.bind_eq_ok h
        obtain ⟨y, -, h⟩ := Outcome.bind_eq_ok h
        obtain ⟨⟨r, st1⟩, hop, h⟩ := Outcome.bind_eq_ok h
        cases h
        refine ⟨?_, fun _ h => h⟩
        rcases operator2_ok _ _ _ _ _ _ _ _ hop with ⟨-, e, -⟩ | ⟨-, -, t, st2, ht, e⟩
        · simp [Step.state, e, tick]
        · have := hacc _ _ _ _ _ ht
          simpa [Step.state, e, tick] using this
    | CodeMake =>
      rw [step_make _ _ _ _ _ _ _ _ hk] at h
      cases h; exact ⟨le_refl _, fun _ h => h⟩
    | CodeVar =>
      rw [step_var _ _ _ _ _ _ _ _ hk] at h
      obtain ⟨v, -, h⟩ := Outcome.bind_eq_ok h
      cases h; exact ⟨le_refl _, fun _ h => h⟩
    | CodeGlobal =>
      rw [step_global _ _ _ _ _ _ _ _ hk] at h
      obtain ⟨v, -, h⟩ := Outcome.bind_eq_ok h
      cases h; exact ⟨le_refl _, fun _ h => h⟩
    | CodeAbst =>
      rw [step_abst _ _ _ _ _ _ _ _ hk] at h
      split_ifs at h
      obtain ⟨body, -, h⟩ := Outcome.bind_eq_ok h
      cases h
      exact ⟨by simp [Step.state, bumpMaxStack_heap, tick], fun _ h => h⟩
    | CodeAppl =>
      rw [step_appl _ _ _ _ _ _ _ _ hk] at h
      obtain ⟨⟨st1, stack1⟩, hp, h⟩ := Outcome.bind_eq_ok h
      obtain ⟨callee, -, h⟩ := Outcome.bind_eq_ok h
      cases h
      refine ⟨?_, fun _ h => h⟩
      rcases pushArgs_outcome data (code.Table.drop 1).reverse (tick st) stack with e | ⟨st2, stack2, e, -, hl⟩
      · rw [e] at hp; cases hp
      · rw [e] at hp
        cases hp
        simpa [Step.state, bumpMaxStack_heap, tick] using hl
    | CodeSwitch =>
      rw [step_switch _ _ _ _ _ _ _ _ hk] at h
      obtain ⟨scrutinee, -, h⟩ := Outcome.bind_eq_ok h
      obtain ⟨⟨r, st1⟩, hr, h⟩ := Outcome.bind_eq_ok h
      obtain ⟨⟨i, vs⟩, -, h⟩ := Outcome.bind_eq_ok h
      obtain ⟨branch, -, h⟩ := Outcome.bind_eq_ok h
      cases h
      refine ⟨?_, fun _ h => h⟩
      have := hred _ _ _ _ hr
      simp only [allocThunk, tick, List.length_append, List.length_singleton] at this
      simp only [Step.state, bumpMaxStack_heap]
      omega

theorem iter_mono (reduce : State → Value → Outcome (Value × State))
    (hred : ∀ st v r st1, reduce st v = .ok (r, st1) → st.heap.length ≤ st1.heap.length)
    (fuel : Nat) (globals : List Value) :
    ∀ (n : Nat) (st : State) (stack : List Value) (shares : List Nat) (ctl : Ctl)
      (r : Value) (st1 : State) (shares1 : List Nat),
      iter (step reduce fuel globals) n st stack shares ctl = .ok (r, st1, shares1) →
      st.heap.length ≤ st1.heap.length ∧ ∀ a ∈ shares, a ∈ shares1 := by
  intro n
  induction n with
  | zero => intro st stack shares ctl r st1 shares1 h; cases h
  | succ n ih =>
    intro st stack shares ctl r st1 shares1 h
    rw [iter] at h
    split at h
    · rename_i st2 stack2 shares2 ctl2 hs
      have h1 := step_mono reduce hred fuel globals st stack shares ctl _ hs
      have h2 := ih _ _ _ _ _ _ _ h
      exact ⟨le_trans h1.1 h2.1, fun a ha => h2.2 a (h1.2 a ha)⟩
    · rename_i r2 st2 shares2 hs
      have h1 := step_mono reduce hred fuel globals st stack shares ctl _ hs
      cases h
      exact h1
    · cases h
    · cases h
    · cases h

/-- A call of `Reduce` never shrinks the heap. -/
theorem Reduce_heap_length (globals : List Value) :
    ∀ (n : Nat) (st : State) (v r : Value) (st1 : State),
      Reduce globals n st v = .ok (r, st1) → st.heap.length ≤ st1.heap.length := by
  intro n
  induction n with
  | zero => intro st v r st1 h; cases h
  | succ n ih =>
    intro st v r st1 h
    rw [Reduce_succ] at h
    obtain ⟨⟨r2, st2, shares2⟩, hit, h⟩ := Outcome.bind_eq_ok h
    cases h
    have := (iter_mono _ ih n globals _ _ _ _ _ _ _ _ hit).1
    rw [(memoize_fields _ _ _).2.2.2]
    exact this

/-! ### Weak-head normal form of the result -/

theorem forcedOnlyList_iff (t : List Code) :
    Code.forcedOnlyList t = true ↔ ∀ c ∈ t, c.forcedOnly = true := by
  induction t with
  | nil => simp [Code.forcedOnlyList]
  | cons c cs ih => simp [Code.forcedOnlyList, ih]

theorem forcedOnly_value (code : Code) (h : code.forcedOnly = true) (hk : code.Kind = .CodeValue) :
    code.Value.isWHNF = true := by
  cases code with
  | mk k x v t =>
    simp only [Code.Kind] at hk
    subst hk
    simp only [Code.forcedOnly, Bool.and_eq_true, Bool.or_eq_true, bne_iff_ne, ne_eq] at h
    rcases h.1 with h1 | h1
    · exact absurd trivial h1
    · exact h1

theorem forcedOnly_table (code : Code) (h : code.forcedOnly = true) :
    ∀ c ∈ code.Table, c.forcedOnly = true := by
  cases code with
  | mk k x v t =>
    simp only [Code.forcedOnly, Bool.and_eq_true] at h
    exact (forcedOnlyList_iff t).mp h.2

theorem forcedOnly_index (code : Code) (h : code.forcedOnly = true) (i : Int) (c : Code)
    (hi : index code.Table i = .ok c) : c.forcedOnly = true := by
  unfold index at hi
  split_ifs at hi
  split at hi
  · rename_i x hx
    cases hi
    exact forcedOnly_table code h _ (List.getElem?_mem hx)
  · cases hi

theorem heapForced_set (heap : List Thunk) (a : Nat) (t : Thunk) (h : heapForced heap)
    (hr : ∀ r, t.Result = some r → r.isWHNF = true)
    (hc : ∀ c, t.Code = some c → c.forcedOnly = true) : heapForced (heap.set a t) := by
  intro b u hu
  by_cases hab : a = b
  · subst hab
    by_cases hlt : a < heap.length
    · rw [getElem?_set_same heap a _ t (List.getElem?_eq_getElem hlt)] at hu
      cases hu
      exact ⟨hr, hc⟩
    · rw [List.getElem?_eq_none (by simp only [List.length_set]; omega)] at hu
      cases hu
  · rw [getElem?_set_other heap a b t hab] at hu
    exact h b u hu

theorem heapForced_alloc (st : State) (code : Code) (data : List Value)
    (h : heapForced st.heap) (hc : code.forcedOnly = true) :
    heapForced (allocThunk st code data).1.heap := by
  intro b u hu
  simp only [allocThunk] at hu
  rw [List.getElem?_append] at hu
  split_ifs at hu with h1
  · exact h b u hu
  · have : b - st.heap.length = 0 := by
      by_contra hne
      rw [List.getElem?_eq_none (by simp; omega)] at hu
      cases hu
    rw [this] at hu
    simp only [List.getElem?_cons_zero, Option.some.injEq] at hu
    subst hu
    exact ⟨fun r hr => (by cases hr), fun c hc' => (by cases hc'; exact hc)⟩

theorem heapForced_memoize (r : Value) (hr : r.isWHNF = true) (l : List Nat) (st : State)
    (h : heapForced st.heap) : heapForced (memoize r l st).heap := by
  intro b u hu
  rw [memoize_heap] at hu
  cases hb : st.heap[b]? with
  | none => rw [hb] at hu; cases hu
  | some t =>
    rw [hb] at hu
    simp only [Option.map_some', Option.some.injEq] at hu
    have ht := h b t hb
    split_ifs at hu
    · subst hu
      exact ⟨fun r' hr' => (by cases hr'; exact hr), ht.2⟩
    · subst hu
      exact ht

theorem pushArgs_heapForced (data : List Value) : ∀ (args : List Code) (st : State)
    (stack : List Value) (st1 : State) (stack1 : List Value),
    (∀ c ∈ args, c.forcedOnly = true) → heapForced st.heap →
    pushArgs data args st stack = .ok (st1, stack1) → heapForced st1.heap := by
  intro args
  induction args with
  | nil => intro st stack st1 stack1 _ h hp; cases hp; exact h
  | cons c cs ih =>
    intro st stack st1 stack1 hargs h hp
    have hcs : ∀ c ∈ cs, c.forcedOnly = true := fun x hx => hargs x (List.mem_cons_of_mem _ hx)
    rw [pushArgs] at hp
    split at hp
    · exact ih _ _ _ _ hcs h hp
    · obtain ⟨v, -, hp⟩ := Outcome.bind_eq_ok hp
      exact ih _ _ _ _ hcs h hp
    · exact ih _ _ _ _ hcs (heapForced_alloc st c data h (hargs c (List.mem_cons_self _ _))) hp

theorem asChar_isWHNF (r : Value) (c : Int) (h : asChar r = .ok c) : r.isWHNF = true := by
  cases r <;> first | rfl | cases h

theorem asStruct_isWHNF (r : Value) (p : Int × List Value) (h : asStruct r = .ok p) :
    r.isWHNF = true := by
  cases r <;> first | rfl | cases h

/-- A relation between the state before and after that every call of the engine
returning a forced value establishes is established by the loop of `accumString`,
which asserts the type of every value the engine returns to it. -/
theorem accumLoop_rel_whnf (R : State → State → Prop) (hrefl : ∀ s, R s s)
    (htrans : ∀ a b c, R a b → R b c → R a c)
    (reduce : State → Value → Outcome (Value × State))
    (hred : ∀ st v r st1, reduce st v = .ok (r, st1) → r.isWHNF = true → R st st1) :
    ∀ (n : Nat) (st : State) (i : Int) (vs : List Value) (b s : List Int) (st1 : State),
      accumLoop reduce n st i vs b = .ok (s, st1) → R st st1 := by
  intro n
  induction n with
  | zero => intro st i vs b s st1 h; cases h
  | succ n ih =>
    intro st i vs b s st1 h
    rw [accumLoop] at h
    split_ifs at h with hi
    · cases h; exact hrefl _
    · obtain ⟨v1, -, h⟩ := Outcome.bind_eq_ok h
      obtain ⟨⟨r1, st2⟩, h1, h⟩ := Outcome.bind_eq_ok h
      obtain ⟨c, hc, h⟩ := Outcome.bind_eq_ok h
      obtain ⟨v0, -, h⟩ := Outcome.bind_eq_ok h
      obtain ⟨⟨r0, st3⟩, h0, h⟩ := Outcome.bind_eq_ok h
      obtain ⟨⟨j, ws⟩, hj, h⟩ := Outcome.bind_eq_ok h
      exact htrans _ _ _ (hred _ _ _ _ h1 (asChar_isWHNF _ _ hc))
        (htrans _ _ _ (hred _ _ _ _ h0 (asStruct_isWHNF _ _ hj)) (ih _ _ _ _ _ _ h))

theorem accumString_rel_whnf (R : State → State → Prop) (hrefl : ∀ s, R s s)
    (htrans : ∀ a b c, R a b → R b c → R a c)
    (reduce : State → Value → Outcome (Value × State))
    (hred : ∀ st v r st1, reduce st v = .ok (r, st1) → r.isWHNF = true → R st st1)
    (n : Nat) (st : State) (x : Value) (s : List Int) (st1 : State)
    (h : accumString reduce n st x = .ok (s, st1)) : R st st1 := by
  unfold accumString at h
  obtain ⟨⟨i, vs⟩, -, h⟩ := Outcome.bind_eq_ok h
  exact accumLoop_rel_whnf R hrefl htrans reduce hred _ _ _ _ _ _ _ h

/-- Over a forced heap and a `forcedOnly` code, one pass keeps the heap forced and
hands on a `forcedOnly` code, or returns a value that is in weak-head normal form
or is the second operand of `dump`.  The engine called back into is only asked to
keep the heap forced when it returns a forced value: its callers assert the type
of what it returns. -/
theorem step_forced (reduce : State → Value → Outcome (Value × State))
    (hred : ∀ st v r st1, heapForced st.heap → reduce st v = .ok (r, st1) →
      r.isWHNF = true → heapForced st1.heap)
    (fuel : Nat) (globals : List Value) (st : State) (stack : List Value) (shares : List Nat)
    (ctl : Ctl) (s : Step) (hheap : heapForced st.heap) (hctl : ctl.forcedOnly = true)
    (h : step reduce fuel globals st stack shares ctl = .ok s) :
    heapForced s.state.heap ∧ s.forced ctl stack := by
  have hacc : ∀ n st x t st1, accumString reduce n st x = .ok (t, st1) →
      heapForced st.heap → heapForced st1.heap :=
    accumString_rel_whnf (fun a b => heapForced a.heap → heapForced b.heap) (fun _ h => h)
      (fun _ _ _ h1 h2 h => h2 (h1 h)) reduce (fun _ _ _ _ h hw hh => hred _ _ _ _ hh h hw)
  cases ctl with
  | beginning v =>
    cases v with
    | Thunk a =>
      rw [step_thunk] at h
      split at h
      · cases h
      · rename_i t ht
        split at h
        · rename_i r hr
          cases h
          exact ⟨hheap, Or.inl ((hheap a t ht).1 r hr)⟩
        · split at h
          · cases h
          · rename_i code hcode
            split_ifs at h
            · cases h
              refine ⟨heapForced_set _ _ _ hheap ?_ ?_, (hheap a t ht).2 code hcode⟩
              · exact (hheap a t ht).1
              · intro c hc; cases hc
            · cases h
              exact ⟨hheap, (hheap a t ht).2 code hcode⟩
    | Char c =>
      rw [step_whnf _ _ _ _ _ _ (.Char c) rfl] at h
      split_ifs at h
      cases h; exact ⟨hheap, Or.inl rfl⟩
    | Int c =>
      rw [step_whnf _ _ _ _ _ _ (.Int c) rfl] at h
      split_ifs at h
      cases h; exact ⟨hheap, Or.inl rfl⟩
    | Float c =>
      rw [step_whnf _ _ _ _ _ _ (.Float c) rfl] at h
      split_ifs at h
      cases h; exact ⟨hheap, Or.inl rfl⟩
    | Struct i vs =>
      rw [step_whnf _ _ _ _ _ _ (.Struct i vs) rfl] at h
      split_ifs at h
      cases h; exact ⟨hheap, Or.inl rfl⟩
  | interp code data =>
    have hcode : code.forcedOnly = true := hctl
    cases hk : code.Kind with
    | CodeValue =>
      rw [step_value _ _ _ _ _ _ _ _ hk] at h
      cases h
      exact ⟨hheap, Or.inl (forcedOnly_value code hcode hk)⟩
    | CodeOperator =>
      rw [step_operator _ _ _ _ _ _ _ _ hk] at h
      obtain ⟨arity, -, h⟩ := Outcome.bind_eq_ok h
      split_ifs at h
      · obtain ⟨x, -, h⟩ := Outcome.bind_eq_ok h
        obtain ⟨⟨r, st1⟩, hop, h⟩ := Outcome.bind_eq_ok h
        cases h
        have hop' := operator1_ok _ _ _ _ _ _ _ hop
        refine ⟨?_, Or.inl hop'.1⟩
        rcases hop'.2 with ⟨nb, e⟩ | ⟨t, ht⟩
        · simp only [Step.state, e, tick, State.built]
          exact hheap
        · exact hacc _ _ _ _ _ ht hheap
      · obtain ⟨x, -, h⟩ := Outcome.bind_eq_ok h
        obtain ⟨y, hy, h⟩ := Outcome.bind_eq_ok h
        obtain ⟨⟨r, st1⟩, hop, h⟩ := Outcome.bind_eq_ok h
        cases h
        rcases operator2_ok _ _ _ _ _ _ _ _ hop with ⟨hw, e, -⟩ | ⟨hd, hr, s, st2, hs, e⟩
        · refine ⟨?_, Or.inl hw⟩
          simp only [Step.state, e, tick]
          exact hheap
        · refine ⟨?_, Or.inr ?_⟩
          · simp only [Step.state, e]
            exact hacc _ _ _ _ _ hs hheap
          · simp only [Ctl.dumpOperand, hk, hd, hy, hr, and_self, if_true]
    | CodeMake =>
      rw [step_make _ _ _ _ _ _ _ _ hk] at h
      cases h
      exact ⟨hheap, Or.inl rfl⟩
    | CodeVar =>
      rw [step_var _ _ _ _ _ _ _ _ hk] at h
      obtain ⟨v, -, h⟩ := Outcome.bind_eq_ok h
      cases h
      exact ⟨hheap, rfl⟩
    | CodeGlobal =>
      rw [step_global _ _ _ _ _ _ _ _ hk] at h
      obtain ⟨v, -, h⟩ := Outcome.bind_eq_ok h
      cases h
      exact ⟨hheap, rfl⟩
    | CodeAbst =>
      rw [step_abst _ _ _ _ _ _ _ _ hk] at h
      split_ifs at h
      obtain ⟨body, hb, h⟩ := Outcome.bind_eq_ok h
      cases h
      refine ⟨?_, forcedOnly_index code hcode 0 body hb⟩
      simp only [Step.state, bumpMaxStack_heap, tick]
      exact hheap
    | CodeAppl =>
      rw [step_appl _ _ _ _ _ _ _ _ hk] at h
      obtain ⟨⟨st1, stack1⟩, hp, h⟩ := Outcome.bind_eq_ok h
      obtain ⟨callee, hc, h⟩ := Outcome.bind_eq_ok h
      cases h
      refine ⟨?_, forcedOnly_index code hcode 0 callee hc⟩
      simp only [Step.state, bumpMaxStack_heap]
      refine pushArgs_heapForced data _ (tick st) stack st1 stack1 ?_ hheap hp
      intro c hc
      exact forcedOnly_table code hcode c (List.mem_of_mem_drop (List.mem_reverse.mp hc))
    | CodeSwitch =>
      rw [step_switch _ _ _ _ _ _ _ _ hk] at h
      obtain ⟨scrutinee, hs, h⟩ := Outcome.bind_eq_ok h
      obtain ⟨⟨r, st1⟩, hr, h⟩ := Outcome.bind_eq_ok h
      obtain ⟨⟨i, vs⟩, hi, h⟩ := Outcome.bind_eq_ok h
      obtain ⟨branch, hb, h⟩ := Outcome.bind_eq_ok h
      cases h
      refine ⟨?_, forcedOnly_index code hcode _ branch hb⟩
      simp only [Step.state, bumpMaxStack_heap]
      exact hred _ _ _ _
        (heapForced_alloc (tick st) scrutinee data hheap (forcedOnly_index code hcode 0 _ hs))
        hr (asStruct_isWHNF _ _ hi)

/-- Over a forced heap and a `forcedOnly` code, a run of the flat loop that returns
leaves the heap forced, and what it returns is in weak-head normal form or is the
second operand of a `dump` that the loop reached. -/
theorem iter_forced (reduce : State → Value → Outcome (Value × State))
    (hred : ∀ st v r st1, heapForced st.heap → reduce st v = .ok (r, st1) →
      r.isWHNF = true → heapForced st1.heap)
    (fuel : Nat) (globals : List Value) :
    ∀ (n : Nat) (st : State) (stack : List Value) (shares : List Nat) (ctl : Ctl)
      (r : Value) (st1 : State) (shares1 : List Nat),
      heapForced st.heap → ctl.forcedOnly = true →
      iter (step reduce fuel globals) n st stack shares ctl = .ok (r, st1, shares1) →
      heapForced st1.heap ∧
      (r.isWHNF = true ∨ ∃ k s stk sh c,
        passes (step reduce fuel globals) k st stack shares ctl = some (s, stk, sh, c) ∧
        c.dumpOperand stk = some r) := by
  intro n
  induction n with
  | zero => intro st stack shares ctl r st1 shares1 _ _ h; cases h
  | succ n ih =>
    intro st stack shares ctl r st1 shares1 hheap hctl h
    rw [iter] at h
    split at h
    · rename_i st2 stack2 shares2 ctl2 hs
      have h1 := step_forced reduce hred fuel globals st stack shares ctl _ hheap hctl hs
      obtain ⟨hh, hw | ⟨k, s, stk, sh, c, hp, hd⟩⟩ := ih _ _ _ _ _ _ _ h1.1 h1.2 h
      · exact ⟨hh, Or.inl hw⟩
      · refine ⟨hh, Or.inr ⟨k + 1, s, stk, sh, c, ?_, hd⟩⟩
        rw [passes, hs]
        exact hp
    · rename_i r2 st2 shares2 hs
      have h1 := step_forced reduce hred fuel globals st stack shares ctl _ hheap hctl hs
      cases h
      refine ⟨h1.1, ?_⟩
      rcases h1.2 with hw | hd
      · exact Or.inl hw
      · exact Or.inr ⟨0, st, stack, shares, ctl, rfl, hd⟩
    · cases h
    · cases h
    · cases h

/-- Over a forced heap, a call of `Reduce` that returns a forced value leaves the
heap forced. -/
theorem Reduce_forced (globals : List Value) :
    ∀ (n : Nat) (st : State) (v r : Value) (st1 : State),
      heapForced st.heap → Reduce globals n st v = .ok (r, st1) → r.isWHNF = true →
      heapForced st1.heap := by
  intro n
  induction n with
  | zero => intro st v r st1 _ h; cases h
  | succ n ih =>
    intro st v r st1 hheap h hw
    rw [Reduce_succ] at h
    obtain ⟨⟨r2, st2, shares2⟩, hit, h⟩ := Outcome.bind_eq_ok h
    cases h
    have h1 := iter_forced _ ih n globals _ _ _ _ (.beginning v) _ _ _ hheap rfl hit
    exact heapForced_memoize _ hw _ _ h1.1

/-- C1, as stated, fails: forcing a thunk whose code applies `dump` to the empty
string and to an argument that is not a literal or a variable returns the thunk
allocated for that argument, not a value in weak-head normal form. -/
theorem C1_counterexample :
    Reduce [] 3
        (initState [unresolved (Code.appl (Code.operator OpDump)
          [Code.value (.Struct 0 []), Code.appl (Code.value (.Int 5)) []]) []])
        (.Thunk 0)
      = .ok (.Thunk 1, State.mk
          [resolved (.Thunk 1), unresolved (Code.appl (Code.value (.Int 5)) []) []] 2 2 [10] 0) ∧
    (Value.Thunk 1).isWHNF = false := by
  exact ⟨rfl, rfl⟩

/-- C1, amended: over a heap in which every cached `Result` is a Char, Int, Float
or Struct and every thunk's code has only such values as `Value` literals, a call
of `Reduce` (for any global table, input value and fuel) that returns normally
returns a Char, Int, Float or Struct, never a Thunk, provided that whenever its
loop reaches the `dump` operator the second operand it finds on the stack is such
a value; the heap the call leaves has the same property.  This covers every
return path: an input that is already evaluated, a cached result, a `Value`
literal, the result of an operator (`dump`, which returns its second operand,
included) and the result of `Make`. -/
theorem C1_result_in_whnf (globals : List Value) (n : Nat) (st : State) (v r : Value)
    (st1 : State) (hheap : heapForced st.heap)
    (h : Reduce globals (n + 1) st v = .ok (r, st1))
    (hdump : ∀ (k : Nat) (s : State) (stack : List Value) (shares : List Nat) (ctl : Ctl)
      (y : Value),
      passes (step (Reduce globals n) n globals) k st [] [] (.beginning v)
        = some (s, stack, shares, ctl) →
      ctl.dumpOperand stack = some y → y.isWHNF = true) :
    r.isWHNF = true ∧ heapForced st1.heap := by
  have hw : r.isWHNF = true := by
    have h2 := h
    rw [Reduce_succ] at h2
    obtain ⟨⟨r2, st2, shares2⟩, hit, h2⟩ := Outcome.bind_eq_ok h2
    cases h2
    rcases (iter_forced _ (Reduce_forced globals n) n globals _ _ _ _ (.beginning v) _ _ _
      hheap rfl hit).2 with hw | ⟨k, s, stk, sh, c, hp, hd⟩
    · exact hw
    · exact hdump k s stk sh c _ hp hd
  exact ⟨hw, Reduce_forced globals (n + 1) st v r st1 hheap h hw⟩

/-- Witness for the amended C1: forcing `dump "x=5" 5` over a forced heap writes
the text and returns the second operand `Int 5`, a forced value. -/
theorem C1_result_in_whnf_witness :
    heapForced (initState [unresolved (Code.appl (Code.operator OpDump)
      [Code.value (makeString [120, 61, 53]), Code.value (.Int 5)]) []]).heap ∧
    Reduce [] (4 + 1) (initState [unresolved (Code.appl (Code.operator OpDump)
      [Code.value (makeString [120, 61, 53]), Code.value (.Int 5)]) []]) (.Thunk 0)
      = .ok (.Int 5, State.mk [resolved (.Int 5)] 2 2 [120, 61, 53, 10] 0) ∧
    (Value.Int 5).isWHNF = true ∧
    heapForced (State.mk [resolved (.Int 5)] 2 2 [120, 61, 53, 10] 0).heap :=
  have h : heapForced (initState [unresolved (Code.appl (Code.operator OpDump)
      [Code.value (makeString [120, 61, 53]), Code.value (.Int 5)]) []]).heap := by
    intro a t h
    cases a with
    | zero =>
      simp only [initState, List.getElem?_cons_zero, Option.some.injEq] at h
      subst h
      exact ⟨fun r hr => (by cases hr), fun c hc => (by cases hc; rfl)⟩
    | succ a => simp [initState] at h
  ⟨h, rfl, C1_result_in_whnf [] 4 _ (.Thunk 0) (.Int 5)
    (State.mk [resolved (.Int 5)] 2 2 [120, 61, 53, 10] 0) h rfl (by
      intro k s stack shares ctl y hp hd
      rcases k with _ | _ | _ | k
      · cases hp
        cases hd
      · cases hp
        cases hd
      · cases hp
        cases hd
        rfl
      · cases hp)⟩

/-! ### Sharing -/

/-- C2: sharing.  When `Reduce` of an unresolved thunk returns r, a second
`Reduce` of the same thunk in the resulting state returns r again, with any
positive fuel, and leaves the whole state, the counter `Reductions` included, as
it is: its first pass already returns the cached `Result` at the label
`beginning`, so no code is interpreted. -/
theorem C2_sharing (globals : List Value) (n : Nat) (st : State) (a : Nat) (code : Code)
    (data : List Value) (r : Value) (st1 : State)
    (ht : st.heap[a]? = some (unresolved code data))
    (h : Reduce globals n st (.Thunk a) = .ok (r, st1)) :
    (∀ m, Reduce globals (m + 1) st1 (.Thunk a) = .ok (r, st1)) ∧
    (∀ reduce fuel, step reduce fuel globals st1 [] [] (.beginning (.Thunk a))
      = .ok (.ret r st1 [])) ∧
    (∃ t, st1.heap[a]? = some t ∧ t.Result = some r) := by
  cases n with
  | zero => cases h
  | succ n =>
    rw [Reduce_succ, iter_next _ _ (step_unresolved _ _ _ _ _ a code data ht)] at h
    obtain ⟨⟨r2, st2, shares2⟩, hit, h⟩ := Outcome.bind_eq_ok h
    cases h
    have hmono := iter_mono _ (Reduce_heap_length globals n) n globals _ _ _ _ _ _ _ _ hit
    have hmem : a ∈ shares2 := hmono.2 a (by simp)
    have hlt : a < st2.heap.length := by
      have h1 : a < st.heap.length := (List.getElem?_eq_some_iff.mp ht).1
      have h2 := hmono.1
      simp only [List.length_set] at h2
      omega
    obtain ⟨t2, ht2⟩ : ∃ t2, st2.heap[a]? = some t2 := ⟨_, List.getElem?_eq_getElem hlt⟩
    have hres : (memoize r2 shares2 st2).heap[a]? = some { t2 with Result := some r2 } := by
      rw [memoize_heap, ht2]
      simp [hmem]
    have hstep : ∀ reduce fuel, step reduce fuel globals (memoize r2 shares2 st2) [] []
        (.beginning (.Thunk a)) = .ok (.ret r2 (memoize r2 shares2 st2) []) := by
      intro reduce fuel
      rw [step_thunk, hres]
    refine ⟨?_, hstep, _, hres, rfl⟩
    intro m
    rw [Reduce_succ, iter_ret _ _ (hstep _ _)]
    rfl

/-- Witness for C2: a thunk whose code is the literal 7 is forced, then forced
again. -/
theorem C2_sharing_witness :
    Reduce [] 2 (initState [unresolved (Code.value (.Int 7)) []]) (.Thunk 0)
      = .ok (.Int 7, State.mk [resolved (.Int 7)] 1 0 [] 0) ∧
    (∀ m, Reduce [] (m + 1) (State.mk [resolved (.Int 7)] 1 0 [] 0) (.Thunk 0)
      = .ok (.Int 7, State.mk [resolved (.Int 7)] 1 0 [] 0)) ∧
    (∀ reduce fuel, step reduce fuel [] (State.mk [resolved (.Int 7)] 1 0 [] 0) [] []
        (.beginning (.Thunk 0))
      = .ok (.ret (.Int 7) (State.mk [resolved (.Int 7)] 1 0 [] 0) [])) ∧
    (∃ t, (State.mk [resolved (.Int 7)] 1 0 [] 0).heap[0]? = some t ∧ t.Result = some (.Int 7)) :=
  ⟨rfl, C2_sharing [] 2 (initState [unresolved (Code.value (.Int 7)) []]) 0 (Code.value (.Int 7))
    [] (.Int 7) (State.mk [resolved (.Int 7)] 1 0 [] 0) rfl rfl⟩

/-! ### Chains of variable indirections -/

theorem IsVarChain_set (heap : List Thunk) (v : Value) (a : Nat) (t : Thunk) :
    ∀ l : List Nat, a ∉ l → IsVarChain heap v l → IsVarChain (heap.set a t) v l := by
  intro l
  induction l with
  | nil => intro _ h; exact h
  | cons b l ih =>
    intro hn h
    have hab : a ≠ b := fun e => hn (e ▸ List.mem_cons_self _ _)
    cases l with
    | nil =>
      obtain ⟨code, data, h1, h2, h3⟩ := h
      exact ⟨code, data, by rw [getElem?_set_other _ _ _ _ hab]; exact h1, h2, h3⟩
    | cons c l =>
      obtain ⟨⟨code, data, h1, h2, h3⟩, h4⟩ := h
      exact ⟨⟨code, data, by rw [getElem?_set_other _ _ _ _ hab]; exact h1, h2, h3⟩,
        ih (fun hm => hn (List.mem_cons_of_mem _ hm)) h4⟩

/-- A chain is determined by its first thunk. -/
theorem IsVarChain_det (heap : List Thunk) (v w : Value) (a : Nat) :
    ∀ l m : List Nat, IsVarChain heap v (a :: l) → IsVarChain heap w (a :: m) →
      l.length = m.length := by
  intro l
  induction l generalizing a with
  | nil =>
    intro m h1 h2
    cases m with
    | nil => rfl
    | cons c m =>
      obtain ⟨code, data, e1, k1, -⟩ := h1
      obtain ⟨⟨code2, data2, e2, k2, -⟩, -⟩ := h2
      rw [e1] at e2
      simp only [unresolved, Option.some.injEq, Thunk.mk.injEq, true_and] at e2
      obtain ⟨rfl, -⟩ := e2
      rw [k1] at k2
      cases k2
  | cons b l ih =>
    intro m h1 h2
    obtain ⟨⟨code, data, e1, k1, v1⟩, h1⟩ := h1
    cases m with
    | nil =>
      obtain ⟨code2, data2, e2, k2, -⟩ := h2
      rw [e1] at e2
      simp only [unresolved, Option.some.injEq, Thunk.mk.injEq, true_and] at e2
      obtain ⟨rfl, -⟩ := e2
      rw [k1] at k2
      cases k2
    | cons c m =>
      obtain ⟨⟨code2, data2, e2, k2, v2⟩, h2⟩ := h2
      rw [e1] at e2
      simp only [unresolved, Option.some.injEq, Thunk.mk.injEq, true_and] at e2
      obtain ⟨rfl, rfl⟩ := e2
      rw [v1] at v2
      simp only [Outcome.ok.injEq, Value.Thunk.injEq] at v2
      subst v2
      simp only [List.length_cons, add_left_inj]
      exact ih b m h1 h2

theorem IsVarChain_suffix (heap : List Thunk) (v : Value) :
    ∀ (l : List Nat) (a : Nat) (m : List Nat), IsVarChain heap v (l ++ a :: m) →
      IsVarChain heap v (a :: m) := by
  intro l
  induction l with
  | nil => intro a m h; exact h
  | cons b l ih =>
    intro a m h
    cases l with
    | nil => exact h.2
    | cons c l => exact ih a m h.2

/-- The thunks of a chain are distinct. -/
theorem IsVarChain_nodup (heap : List Thunk) (v : Value) :
    ∀ l : List Nat, IsVarChain heap v l → l.Nodup := by
  intro l
  induction l with
  | nil => intro h; exact List.nodup_nil
  | cons a l ih =>
    intro h
    have htail : l ≠ [] → IsVarChain heap v l := by
      intro hne
      cases l with
      | nil => exact absurd rfl hne
      | cons b l => exact h.2
    refine List.nodup_cons.mpr ⟨?_, ?_⟩
    · intro hm
      obtain ⟨l1, l2, rfl⟩ := List.append_of_mem hm
      have hs := IsVarChain_suffix heap v (a :: l1) a l2 h
      have := IsVarChain_det heap v v a (l1 ++ a :: l2) l2 h hs
      simp at this
      omega
    · cases l with
      | nil => exact List.nodup_nil
      | cons b l => exact ih h.2

/-- Forcing the first thunk of a chain walks the whole chain in the flat loop:
each thunk is recorded and cleared, and the literal at the end is returned. -/
theorem iter_chain (reduce : State → Value → Outcome (Value × State)) (fuel : Nat)
    (globals : List Value) (v : Value) :
    ∀ (l : List Nat) (a : Nat) (st : State) (shares : List Nat) (n : Nat),
      IsVarChain st.heap v (a :: l) → (a :: l).Nodup →
      ∃ st1, iter (step reduce fuel globals) (n + 2 * (l.length + 1)) st [] shares
            (.beginning (.Thunk a)) = .ok (v, st1, shares ++ a :: l) ∧
        st1.Reductions = st.Reductions + (l.length + 1) ∧
        (∀ b ∈ a :: l, st1.heap[b]? = some { Result := none, Code := none, Data := [] }) ∧
        (∀ b, b ∉ a :: l → st1.heap[b]? = st.heap[b]?) := by
  intro l
  induction l with
  | nil =>
    intro a st shares n h _
    obtain ⟨code, data, ht, hk, hv⟩ := h
    refine ⟨tick { st with heap := st.heap.set a { Result := none, Code := none, Data := [] } },
      ?_, rfl, ?_, ?_⟩
    · show iter _ (n + 1 + 1) _ _ _ _ = _
      rw [iter_next _ _ (step_unresolved _ _ _ _ _ a code data ht),
        iter_ret _ _ (step_value _ _ _ _ _ _ code data hk), hv]
    · intro b hb
      simp only [List.mem_singleton] at hb
      subst hb
      exact getElem?_set_same _ _ _ _ ht
    · intro b hb
      simp only [List.mem_singleton] at hb
      exact getElem?_set_other _ _ _ _ (Ne.symm hb)
  | cons c l ih =>
    intro a st shares n h hnd
    obtain ⟨⟨code, data, ht, hk, hv⟩, hrest⟩ := h
    have hnd' := List.nodup_cons.mp hnd
    have hchain : IsVarChain
        (tick { st with heap := st.heap.set a { Result := none, Code := none, Data := [] } }).heap
        v (c :: l) := IsVarChain_set _ _ _ _ _ hnd'.1 hrest
    obtain ⟨st1, h1, h2, h3, h4⟩ := ih c _ (shares ++ [a]) n hchain hnd'.2
    refine ⟨st1, ?_, ?_, ?_, ?_⟩
    · show iter _ ((n + 2 * (l.length + 1)) + 1 + 1) _ _ _ _ = _
      rw [iter_next _ _ (step_unresolved _ _ _ _ _ a code data ht),
        iter_next _ _ (by rw [step_var _ _ _ _ _ _ _ _ hk, hv]; rfl), h1]
      simp
    · rw [h2]
      simp only [tick, List.length_cons]
      omega
    · intro b hb
      rcases List.mem_cons.mp hb with rfl | hb
      · rw [h4 b hnd'.1]
        exact getElem?_set_same _ _ _ _ ht
      · exact h3 b hb
    · intro b hb
      have hba : b ≠ a := fun e => hb (e ▸ List.mem_cons_self _ _)
      rw [h4 b (fun hm => hb (List.mem_cons_of_mem _ hm))]
      exact getElem?_set_other _ _ _ _ (Ne.symm hba)

/-- C3: transitive memoization.  For every chain of N >= 1 unresolved thunks in
which each thunk but the last has a `Var` code referring to the next one in its
environment and the last has the `Value` literal v as code, one `Reduce` of the
first thunk returns v and leaves every thunk of the chain resolved with
`Result = v`, code and environment cleared; the other thunks are untouched and
the counter has advanced by N. -/
theorem C3_transitive_memoization (globals : List Value) (st : State) (v : Value) (a : Nat)
    (l : List Nat) (k : Nat) (h : IsVarChain st.heap v (a :: l)) :
    ∃ st1, Reduce globals (k + 2 * (l.length + 1)) st (.Thunk a) = .ok (v, st1) ∧
      (∀ b ∈ a :: l, st1.heap[b]? = some (resolved v)) ∧
      (∀ b, b ∉ a :: l → st1.heap[b]? = st.heap[b]?) ∧
      st1.Reductions = st.Reductions + (l.length + 1) := by
  have hnd := IsVarChain_nodup _ _ _ h
  obtain ⟨st1, h1, h2, h3, h4⟩ :=
    iter_chain (Reduce globals (k + 2 * l.length + 1)) (k + 2 * l.length + 1) globals v l a st []
      k h hnd
  refine ⟨memoize v (a :: l) st1, ?_, ?_, ?_, ?_⟩
  · show Reduce globals ((k + 2 * l.length + 1) + 1) st _ = _
    rw [Reduce_succ]
    have : k + 2 * l.length + 1 + 1 = k + 2 * (l.length + 1) := by omega
    rw [this, h1]
    simp
  · intro b hb
    rw [memoize_heap, h3 b hb]
    simp [hb, resolved]
  · intro b hb
    rw [memoize_heap, h4 b hb]
    cases st.heap[b]? <;> simp [hb]
  · rw [(memoize_fields v _ st1).1, h2]

/-- Witness for C3: a chain of three thunks ending in the literal 9. -/
theorem C3_transitive_memoization_witness :
    IsVarChain (initState [unresolved (Code.var 0) [.Thunk 1], unresolved (Code.var 0) [.Thunk 2],
      unresolved (Code.value (.Int 9)) []]).heap (.Int 9) [0, 1, 2] ∧
    ∃ st1, Reduce [] (0 + 2 * (([1, 2] : List Nat).length + 1))
        (initState [unresolved (Code.var 0) [.Thunk 1], unresolved (Code.var 0) [.Thunk 2],
          unresolved (Code.value (.Int 9)) []]) (.Thunk 0) = .ok (.Int 9, st1) ∧
      (∀ b ∈ [0, 1, 2], st1.heap[b]? = some (resolved (.Int 9))) ∧
      (∀ b, b ∉ [0, 1, 2] → st1.heap[b]? =
        (initState [unresolved (Code.var 0) [.Thunk 1], unresolved (Code.var 0) [.Thunk 2],
          unresolved (Code.value (.Int 9)) []]).heap[b]?) ∧
      st1.Reductions = (initState [unresolved (Code.var 0) [.Thunk 1],
        unresolved (Code.var 0) [.Thunk 2], unresolved (Code.value (.Int 9)) []]).Reductions
          + (([1, 2] : List Nat).length + 1) :=
  have h : IsVarChain (initState [unresolved (Code.var 0) [.Thunk 1],
      unresolved (Code.var 0) [.Thunk 2], unresolved (Code.value (.Int 9)) []]).heap (.Int 9)
      [0, 1, 2] :=
    ⟨⟨Code.var 0, [.Thunk 1], rfl, rfl, rfl⟩, ⟨Code.var 0, [.Thunk 2], rfl, rfl, rfl⟩,
      ⟨Code.value (.Int 9), [], rfl, rfl, rfl⟩⟩
  ⟨h, C3_transitive_memoization [] _ (.Int 9) 0 [1, 2] 0 h⟩

/-! ### The reentrancy guard -/

/-- C4: reentrancy guard.  Forcing a thunk whose code is cleared and whose result
is not set panics with "infinite reduction".  Forcing an unresolved thunk whose
code is a Var that resolves to the thunk itself, or an Application whose callee
is such a Var, or a Switch whose scrutinee is such a Var, panics with "infinite
reduction" for every amount of fuel from a small bound on (for the Application
the panic may instead be the index panic of an argument that is a Var out of
range, raised before the callee is reached). -/
theorem C4_reentrancy_guard (globals : List Value) (st : State) (a k : Nat) :
    (∀ t : Thunk, st.heap[a]? = some t → t.Result = none → t.Code = none →
      Reduce globals (k + 1) st (.Thunk a) = .panic .infiniteReduction) ∧
    (∀ code data, st.heap[a]? = some (unresolved code data) → code.Kind = .CodeVar →
      lookupVar data code.X = .ok (.Thunk a) →
      Reduce globals (k + 3) st (.Thunk a) = .panic .infiniteReduction) ∧
    (∀ code data callee, st.heap[a]? = some (unresolved code data) → code.Kind = .CodeAppl →
      code.Table[0]? = some callee → callee.Kind = .CodeVar →
      lookupVar data callee.X = .ok (.Thunk a) →
      Reduce globals (k + 4) st (.Thunk a) = .panic .infiniteReduction ∨
      Reduce globals (k + 4) st (.Thunk a) = .panic .indexOutOfRange) ∧
    (∀ code data scrutinee, st.heap[a]? = some (unresolved code data) →
      code.Kind = .CodeSwitch → code.Table[0]? = some scrutinee → scrutinee.Kind = .CodeVar →
      lookupVar data scrutinee.X = .ok (.Thunk a) →
      Reduce globals (k + 4) st (.Thunk a) = .panic .infiniteReduction) := by
  refine ⟨?_, ?_, ?_, ?_⟩
  · intro t ht hr hc
    rw [Reduce_succ, iter_panic _ _ (step_cleared _ _ _ _ _ _ a t ht hr hc)]
    rfl
  · intro code data ht hk hv
    have hset := getElem?_set_same st.heap a _ { Result := none, Code := none, Data := [] } ht
    rw [Reduce_succ, iter_next _ _ (step_unresolved _ _ _ _ _ a code data ht),
      iter_next _ (k + 1) (by rw [step_var _ _ _ _ _ _ _ _ hk, hv]; rfl),
      iter_panic _ k (step_cleared _ _ _ _ _ _ a _ hset rfl rfl)]
    rfl
  · intro code data callee ht hk h0 hck hv
    have hset := getElem?_set_same st.heap a _ { Result := none, Code := none, Data := [] } ht
    have hidx : index code.Table 0 = .ok callee := by simp [index, h0]
    rw [Reduce_succ, iter_next _ _ (step_unresolved _ _ _ _ _ a code data ht)]
    rcases pushArgs_outcome data (code.Table.drop 1).reverse
      (tick { st with heap := st.heap.set a { Result := none, Code := none, Data := [] } })
      [] with hp | hp
    · right
      rw [iter_panic _ _ (by rw [step_appl _ _ _ _ _ _ _ _ hk, hp]; rfl)]
      rfl
    · left
      obtain ⟨st1, stack1, hp, hkeep, -⟩ := hp
      have h1 : (bumpMaxStack st1 stack1).heap[a]? = some { Result := none, Code := none, Data := [] } := by
        have := hkeep a _ hset
        unfold bumpMaxStack
        split <;> exact this
      rw [iter_next _ (k + 2) (by rw [step_appl _ _ _ _ _ _ _ _ hk, hp, Outcome.ok_bind, hidx]; rfl),
        iter_next _ (k + 1) (by rw [step_var _ _ _ _ _ _ _ _ hck, hv]; rfl),
        iter_panic _ k (step_cleared _ _ _ _ _ _ a _ (by exact h1) rfl rfl)]
      rfl
  · intro code data scrutinee ht hk h0 hck hv
    have hset := getElem?_set_same st.heap a _ { Result := none, Code := none, Data := [] } ht
    have hlt : a < st.heap.length := (List.getElem?_eq_some_iff.mp ht).1
    have hidx : index code.Table 0 = .ok scrutinee := by simp [index, h0]
    rw [Reduce_succ, iter_next _ _ (step_unresolved _ _ _ _ _ a code data ht)]
    have hnested : Reduce globals (k + 3)
        (allocThunk (tick { st with heap := st.heap.set a { Result := none, Code := none, Data := [] } })
          scrutinee data).1
        (.Thunk (allocThunk (tick { st with heap := st.heap.set a { Result := none, Code := none, Data := [] } })
          scrutinee data).2) = .panic .infiniteReduction := by
      have hu : (allocThunk (tick { st with heap := st.heap.set a { Result := none, Code := none, Data := [] } })
          scrutinee data).1.heap[(allocThunk (tick { st with heap := st.heap.set a { Result := none, Code := none, Data := [] } })
          scrutinee data).2]? = some (unresolved scrutinee data) := by
        simp [allocThunk, tick, unresolved]
      rw [Reduce_succ, iter_next _ _ (step_unresolved _ _ _ _ _ _ scrutinee data hu),
        iter_next _ (k + 1) (by rw [step_var _ _ _ _ _ _ _ _ hck, hv]; rfl),
        iter_panic _ k (step_cleared _ _ _ _ _ _ a { Result := none, Code := none, Data := [] } ?_ rfl rfl)]
      · rfl
      · simp [allocThunk, tick, List.getElem?_set, List.getElem?_append, hlt]
    rw [iter_panic _ _ (by rw [step_switch _ _ _ _ _ _ _ _ hk, hidx, Outcome.ok_bind, hnested]; rfl)]
    rfl

/-- Witness for C4: a cleared thunk, and thunks whose Var, Application callee or
Switch scrutinee is the thunk itself. -/
theorem C4_reentrancy_guard_witness :
    Reduce [] 1 (initState [{ Result := none, Code := none, Data := [] }]) (.Thunk 0)
      = .panic .infiniteReduction ∧
    Reduce [] 3 (initState [unresolved (Code.var 0) [.Thunk 0]]) (.Thunk 0)
      = .panic .infiniteReduction ∧
    (Reduce [] 4 (initState [unresolved (Code.appl (Code.var 0) [Code.value (.Int 1)])
        [.Thunk 0]]) (.Thunk 0) = .panic .infiniteReduction ∨
      Reduce [] 4 (initState [unresolved (Code.appl (Code.var 0) [Code.value (.Int 1)])
        [.Thunk 0]]) (.Thunk 0) = .panic .indexOutOfRange) ∧
    Reduce [] 4 (initState [unresolved (Code.switch (Code.var 0) []) [.Thunk 0]]) (.Thunk 0)
      = .panic .infiniteReduction :=
  ⟨(C4_reentrancy_guard [] _ 0 0).1 _ rfl rfl rfl,
   (C4_reentrancy_guard [] _ 0 0).2.1 (Code.var 0) [.Thunk 0] rfl rfl rfl,
   (C4_reentrancy_guard [] _ 0 0).2.2.1 (Code.appl (Code.var 0) [Code.value (.Int 1)])
     [.Thunk 0] (Code.var 0) rfl rfl rfl rfl rfl,
   (C4_reentrancy_guard [] _ 0 0).2.2.2 (Code.switch (Code.var 0) []) [.Thunk 0] (Code.var 0)
     rfl rfl rfl rfl rfl⟩

/-! ### Returns over a stack that is not empty -/

/-- C5, evaluated on the code: forcing `Application(Value 7, [Value 1])` returns
`Int 7` (and memoizes it) although the argument 1 is still on the stack, and
forcing `Application(Operator OpIntNeg, [Value 5, Value 1])` returns `Int (-5)`
although the argument 1 is still on the stack; neither aborts.  This holds for
every amount of fuel from 3 on. -/
theorem C5_returns_over_pending_arguments (k : Nat) :
    Reduce [] (k + 3)
        (initState [unresolved (Code.appl (Code.value (.Int 7)) [Code.value (.Int 1)]) []])
        (.Thunk 0)
      = .ok (.Int 7, State.mk [resolved (.Int 7)] 2 1 [] 0) ∧
    Reduce [] (k + 3)
        (initState [unresolved
          (Code.appl (Code.operator OpIntNeg) [Code.value (.Int 5), Code.value (.Int 1)]) []])
        (.Thunk 0)
      = .ok (.Int (-5), State.mk [resolved (.Int (-5))] 2 2 [] 0) := by
  exact ⟨rfl, rfl⟩

/-! ### Division, remainder and totality of the operators -/

/-- C6: Euclidean division law.  For every integer x and every non-zero integer
y, `operator2` returns normally for `OpIntDiv` and for `OpIntMod` with integers q
and r such that x = y*q + r and 0 <= r < |y|; the state is left as it was. -/
theorem C6_euclidean_division_law (reduce : State → Value → Outcome (Value × State))
    (fuel : Nat) (st : State) (x y : Int) (hy : y ≠ 0) :
    ∃ q r, operator2 reduce fuel st OpIntDiv (.Int x) (.Int y) = .ok (.Int q, st) ∧
      operator2 reduce fuel st OpIntMod (.Int x) (.Int y) = .ok (.Int r, st) ∧
      x = y * q + r ∧ 0 ≤ r ∧ r < |y| := by
  obtain ⟨q, r, hq, hr, h1, h2, h3⟩ := bigDiv_bigMod_spec x y hy
  refine ⟨q, r, ?_, ?_, h1, h2, h3⟩
  · simp [operator2, OpIntDiv, OpCharAdd, OpCharSub, OpCharEq, OpCharNeq, OpCharLess, OpCharLessEq,
      OpCharMore, OpCharMoreEq, OpIntAdd, OpIntSub, OpIntMul, asInt, hq]
  · simp [operator2, OpIntMod, OpIntDiv, OpCharAdd, OpCharSub, OpCharEq, OpCharNeq, OpCharLess,
      OpCharLessEq, OpCharMore, OpCharMoreEq, OpIntAdd, OpIntSub, OpIntMul, asInt, hr]

/-- Witness for C6 at x = -7, y = 2. -/
theorem C6_euclidean_division_law_witness :
    (2 : Int) ≠ 0 ∧ ∃ q r, operator2 (Reduce [] 0) 0 (initState []) OpIntDiv (.Int (-7)) (.Int 2)
        = .ok (.Int q, initState []) ∧
      operator2 (Reduce [] 0) 0 (initState []) OpIntMod (.Int (-7)) (.Int 2)
        = .ok (.Int r, initState []) ∧
      (-7 : Int) = 2 * q + r ∧ 0 ≤ r ∧ r < |(2 : Int)| :=
  ⟨by decide, C6_euclidean_division_law (Reduce [] 0) 0 (initState []) (-7) 2 (by decide)⟩

/-- C7, as stated, fails: for x = 1 and y = -2 `OpIntMod` returns 1, which is
neither zero nor of the sign of the divisor. -/
theorem C7_counterexample :
    operator2 (Reduce [] 0) 0 (initState []) OpIntMod (.Int 1) (.Int (-2))
      = .ok (.Int 1, initState []) ∧ ¬ signFollows 1 (-2) := by
  refine ⟨by rfl, ?_⟩
  unfold signFollows
  omega

/-- C7, amended: for every integer x and every non-zero integer y, `OpIntMod`
returns a remainder r with 0 <= r < |y|, so the remainder is never negative,
whatever the sign of the divisor; its sign follows the divisor exactly when it is
zero or the divisor is positive. -/
theorem C7_remainder_nonnegative (reduce : State → Value → Outcome (Value × State))
    (fuel : Nat) (st : State) (x y : Int) (hy : y ≠ 0) :
    ∃ r, operator2 reduce fuel st OpIntMod (.Int x) (.Int y) = .ok (.Int r, st) ∧
      0 ≤ r ∧ r < |y| ∧ (signFollows r y ↔ (r = 0 ∨ 0 < y)) := by
  obtain ⟨q, r, _, hr, _, h2, h3⟩ := bigDiv_bigMod_spec x y hy
  refine ⟨r, ?_, h2, h3, ?_⟩
  · simp [operator2, OpIntMod, OpIntDiv, OpCharAdd, OpCharSub, OpCharEq, OpCharNeq, OpCharLess,
      OpCharLessEq, OpCharMore, OpCharMoreEq, OpIntAdd, OpIntSub, OpIntMul, asInt, hr]
  · unfold signFollows
    omega

/-- Witness for the amended C7 at x = 1, y = -2. -/
theorem C7_remainder_nonnegative_witness :
    (-2 : Int) ≠ 0 ∧ ∃ r, operator2 (Reduce [] 0) 0 (initState []) OpIntMod (.Int 1) (.Int (-2))
        = .ok (.Int r, initState []) ∧
      0 ≤ r ∧ r < |(-2 : Int)| ∧ (signFollows r (-2) ↔ (r = 0 ∨ (0 : Int) < -2)) :=
  ⟨by decide, C7_remainder_nonnegative (Reduce [] 0) 0 (initState []) 1 (-2) (by decide)⟩

/-- C8, as stated, fails: `OpIntDiv` applied to the integers 1 and 0 panics with a
division by zero instead of returning a value. -/
theorem C8_counterexample :
    binaryOperandsOk OpIntDiv (.Int 1) (.Int 0) = true ∧
    operator2 (Reduce [] 0) 0 (initState []) OpIntDiv (.Int 1) (.Int 0)
      = .panic .divisionByZero := by
  exact ⟨by decide, by rfl⟩

/-- C8, amended: for every operator id of the Char and Int families and every
operand (pair) of the shapes that operator expects, `operator1` / `operator2`
returns a value and leaves the state alone (but for the count of the structs
that `OpIntString` builds), except that `OpIntDiv` and `OpIntMod` with the
divisor zero abort with a division by zero; `OpIntExp` returns for every pair of
integers. -/
theorem C8_total_except_zero_divisor (reduce : State → Value → Outcome (Value × State))
    (fuel : Nat) (st : State) :
    (∀ code x, unaryOperandOk code x = true →
      ∃ v n, operator1 reduce fuel st code x = .ok (v, st.built n)) ∧
    (∀ code x y, binaryOperandsOk code x y = true → dividesByZero code y = false →
      ∃ v, operator2 reduce fuel st code x y = .ok (v, st)) ∧
    (∀ code x y, binaryOperandsOk code x y = true → dividesByZero code y = true →
      operator2 reduce fuel st code x y = .panic .divisionByZero) ∧
    (∀ a b : Int, operator2 reduce fuel st OpIntExp (.Int a) (.Int b)
      = .ok (.Int (bigExp a b), st)) := by
  refine ⟨?_, ?_, ?_, ?_⟩
  · intro code x h
    cases x with
    | Char c =>
      simp only [unaryOperandOk, decide_eq_true_eq] at h
      rcases h with rfl | rfl | rfl <;> exact ⟨_, 0, rfl⟩
    | Int i =>
      simp only [unaryOperandOk, decide_eq_true_eq] at h
      rcases h with rfl | rfl | rfl | rfl | rfl | rfl | rfl <;>
        first | exact ⟨_, 0, rfl⟩ | exact ⟨_, _, rfl⟩
    | Float f => simp [unaryOperandOk] at h
    | Struct i vs => simp [unaryOperandOk] at h
    | Thunk a => simp [unaryOperandOk] at h
  · intro code x y h hz
    cases x with
    | Char c =>
      cases y with
      | Char d =>
        simp only [binaryOperandsOk, decide_eq_true_eq] at h
        rcases h with rfl | rfl | rfl | rfl | rfl | rfl <;>
          simp [operator2, asChar, OpCharAdd, OpCharSub, OpCharEq, OpCharNeq, OpCharLess,
            OpCharLessEq, OpCharMore, OpCharMoreEq]
      | Int d =>
        simp only [binaryOperandsOk, decide_eq_true_eq] at h
        rcases h with rfl | rfl <;>
          simp [operator2, asChar, asInt, OpCharAdd, OpCharSub]
      | Float f => simp [binaryOperandsOk] at h
      | Struct i vs => simp [binaryOperandsOk] at h
      | Thunk a => simp [binaryOperandsOk] at h
    | Int a =>
      cases y with
      | Int b =>
        simp only [binaryOperandsOk, decide_eq_true_eq] at h
        rcases h with rfl | rfl | rfl | rfl | rfl | rfl | rfl | rfl | rfl | rfl | rfl | rfl
        case inr.inr.inr.inl =>
          have hb : b ≠ 0 := by simpa [dividesByZero] using hz
          obtain ⟨q, r, hq, -, -⟩ := bigDiv_bigMod_spec a b hb
          simp [operator2, asInt, hq, OpCharAdd, OpCharSub, OpCharEq, OpCharNeq, OpCharLess,
            OpCharLessEq, OpCharMore, OpCharMoreEq, OpIntAdd, OpIntSub, OpIntMul, OpIntDiv]
        case inr.inr.inr.inr.inl =>
          have hb : b ≠ 0 := by simpa [dividesByZero] using hz
          obtain ⟨q, r, -, hr, -⟩ := bigDiv_bigMod_spec a b hb
          simp [operator2, asInt, hr, OpCharAdd, OpCharSub, OpCharEq, OpCharNeq, OpCharLess,
            OpCharLessEq, OpCharMore, OpCharMoreEq, OpIntAdd, OpIntSub, OpIntMul, OpIntDiv,
            OpIntMod]
        all_goals
          simp [operator2, asInt, OpCharAdd, OpCharSub, OpCharEq, OpCharNeq, OpCharLess,
            OpCharLessEq, OpCharMore, OpCharMoreEq, OpIntAdd, OpIntSub, OpIntMul, OpIntDiv,
            OpIntMod, OpIntExp, OpIntEq, OpIntNeq, OpIntLess, OpIntLessEq, OpIntMore, OpIntMoreEq]
      | Char d => simp [binaryOperandsOk] at h
      | Float f => simp [binaryOperandsOk] at h
      | Struct i vs => simp [binaryOperandsOk] at h
      | Thunk a => simp [binaryOperandsOk] at h
    | Float f => simp [binaryOperandsOk] at h
    | Struct i vs => simp [binaryOperandsOk] at h
    | Thunk a => simp [binaryOperandsOk] at h
  · intro code x y h hz
    cases y with
    | Int b =>
      simp only [dividesByZero, Bool.decide_and, Bool.and_eq_true, decide_eq_true_eq] at hz
      obtain ⟨hc, rfl⟩ := hz
      cases x with
      | Int a =>
        rcases hc with rfl | rfl <;>
          simp [operator2, asInt, bigDiv, bigMod, bigQuoRem, OpCharAdd, OpCharSub, OpCharEq,
            OpCharNeq, OpCharLess, OpCharLessEq, OpCharMore, OpCharMoreEq, OpIntAdd, OpIntSub,
            OpIntMul, OpIntDiv, OpIntMod]
      | Char d => rcases hc with rfl | rfl <;> simp [binaryOperandsOk, OpIntDiv, OpIntMod, OpCharAdd, OpCharSub] at h
      | Float f => simp [binaryOperandsOk] at h
      | Struct i vs => simp [binaryOperandsOk] at h
      | Thunk a => simp [binaryOperandsOk] at h
    | Char d => simp [dividesByZero] at hz
    | Float f => simp [dividesByZero] at hz
    | Struct i vs => simp [dividesByZero] at hz
    | Thunk a => simp [dividesByZero] at hz
  · intro a b
    simp [operator2, asInt, OpCharAdd, OpCharSub, OpCharEq, OpCharNeq, OpCharLess,
      OpCharLessEq, OpCharMore, OpCharMoreEq, OpIntAdd, OpIntSub, OpIntMul, OpIntDiv,
      OpIntMod, OpIntExp]

/-- Witness for the amended C8: the quotient of 7 by 2 is returned, the quotient
of 7 by 0 panics. -/
theorem C8_total_except_zero_divisor_witness :
    (∃ v, operator2 (Reduce [] 0) 0 (initState []) OpIntDiv (.Int 7) (.Int 2)
      = .ok (v, initState [])) ∧
    operator2 (Reduce [] 0) 0 (initState []) OpIntDiv (.Int 7) (.Int 0)
      = .panic .divisionByZero :=
  ⟨(C8_total_except_zero_divisor (Reduce [] 0) 0 (initState [])).2.1 OpIntDiv (.Int 7) (.Int 2)
      (by decide) (by decide),
   (C8_total_except_zero_divisor (Reduce [] 0) 0 (initState [])).2.2.1 OpIntDiv (.Int 7) (.Int 0)
      (by decide) (by decide)⟩

/-! ### Integers and their decimal text -/

theorem bigText_runes (x : Int) : ∀ r ∈ bigText x, 45 ≤ r ∧ r ≤ 57 := by
  have hnat : ∀ n : Nat, ∀ r ∈ natText n, 45 ≤ r ∧ r ≤ 57 := by
    intro n r hr
    rw [natText_eq] at hr
    obtain ⟨d, hd, rfl⟩ := List.mem_map.mp hr
    have := decimalDigits_lt n d hd
    omega
  intro r hr
  unfold bigText at hr
  split at hr
  · rcases List.mem_cons.mp hr with rfl | h
    · omega
    · exact hnat _ r h
  · exact hnat _ r hr

theorem map_writeRune_bigText (x : Int) : (bigText x).map writeRune = bigText x := by
  have h : ∀ r ∈ bigText x, writeRune r = id r := by
    intro r hr
    have := bigText_runes x r hr
    exact writeRune_of_valid r (by omega) (by omega)
  rw [List.map_congr_left h, List.map_id]

theorem operator1_OpIntString (reduce : State → Value → Outcome (Value × State)) (fuel : Nat)
    (st : State) (n : Int) :
    operator1 reduce fuel st OpIntString (.Int n)
      = .ok (makeString (bigText n), st.built (1 + (bigText n).length)) := by
  simp [operator1, asInt, OpCharInt, OpCharInc, OpCharDec, OpIntChar, OpIntFloat, OpIntString]

theorem IsCharList_makeString (runes : List Int) : IsCharList runes (makeString runes) := by
  induction runes with
  | nil => rfl
  | cons r rs ih => exact ⟨makeString rs, rfl, ih⟩

/-- C9: integer/string round trip.  For every integer n, `OpIntString` returns a
character list, and `OpStringInt` applied to that list returns `Int n`.
`OpIntString` builds one struct per character and one for the end of the list
and leaves the rest of the state as it was; `OpStringInt` leaves the state as it
was.  The fuel is any amount above the length of the text. -/
theorem C9_int_string_round_trip (globals : List Value) (k j : Nat) (st : State) (n : Int) :
    ∃ s, operator1 (Reduce globals (k + 1)) (j + 1 + (bigText n).length) st OpIntString (.Int n)
        = .ok (s, st.built (1 + (bigText n).length)) ∧
      operator1 (Reduce globals (k + 1)) (j + 1 + (bigText n).length)
          (st.built (1 + (bigText n).length)) OpStringInt s
        = .ok (.Int n, st.built (1 + (bigText n).length)) := by
  refine ⟨makeString (bigText n), operator1_OpIntString _ _ _ _, ?_⟩
  simp [operator1, OpCharInt, OpCharInc, OpCharDec, OpIntChar, OpIntFloat, OpIntString,
    OpIntNeg, OpIntAbs, OpIntInc, OpIntDec, OpFloatInt, OpFloatString, OpFloatNeg, OpFloatAbs,
    OpFloatInc, OpFloatDec, OpStringInt, accumString_makeString, map_writeRune_bigText,
    scanBigInt_bigText]

/-- C10: integer rendering.  For every integer n, `OpIntString` returns a list with
one tag-1 cell per character that ends in a tag-0 struct, and `accumString`
realises it to the text of n: a `-` exactly when n is negative, followed by the
decimal digits of |n|, most significant first (their positional value is |n|, and
there is no leading zero except for the text of 0). -/
theorem C10_integer_rendering (globals : List Value) (k j : Nat) (st : State) (n : Int) :
    ∃ (v : Value) (text : List Int) (ds : List Nat),
      operator1 (Reduce globals (k + 1)) (j + 1 + text.length) st OpIntString (.Int n)
        = .ok (v, st.built (1 + text.length)) ∧
      IsCharList text v ∧
      accumString (Reduce globals (k + 1)) (j + 1 + text.length) st v = .ok (text, st) ∧
      text = (if n < 0 then [45] else []) ++ ds.map (fun (d : Nat) => 48 + (d : Int)) ∧
      (∀ d ∈ ds, d < 10) ∧
      ds.foldl (fun a d => a * 10 + d) 0 = n.natAbs ∧
      (ds = [0] ∨ ∃ d rest, ds = d :: rest ∧ d ≠ 0) := by
  refine ⟨makeString (bigText n), bigText n, decimalDigits n.natAbs,
    operator1_OpIntString _ _ _ _, IsCharList_makeString _, ?_, ?_,
    decimalDigits_lt _, decimalDigits_value _, decimalDigits_head _⟩
  · rw [accumString_makeString, map_writeRune_bigText]
  · unfold bigText
    split <;> simp [natText_eq]

/-! ### The layout of string cells -/

theorem operator1_OpFloatString (reduce : State → Value → Outcome (Value × State)) (fuel : Nat)
    (st : State) (f : Float) :
    operator1 reduce fuel st OpFloatString (.Float f)
      = .ok (makeString (floatText f), st.built (1 + (floatText f).length)) := by
  simp [operator1, asFloat, OpCharInt, OpCharInc, OpCharDec, OpIntChar, OpIntFloat, OpIntString,
    OpIntNeg, OpIntAbs, OpIntInc, OpIntDec, OpFloatInt, OpFloatString]

/-- C11, as stated, fails: the cell `OpIntString` builds for the text "7" has the
rest of the list as field 0 and the character as field 1, and `accumString`
applied to a list laid out as (character, rest), cons 'a' (cons 'b' nil), panics
on a failed type assertion instead of giving "ab". -/
theorem C11_counterexample :
    operator1 (Reduce [] 1) 2 (initState []) OpIntString (.Int 7)
      = .ok (.Struct 1 [.Struct 0 [], .Char 55], (initState []).built 2) ∧
    accumString (Reduce [] 1) 3 (initState [])
        (.Struct 1 [.Char 97, .Struct 1 [.Char 98, .Struct 0 []]])
      = .panic .typeAssertion := by
  refine ⟨?_, rfl⟩
  have h : bigText 7 = [55] := by
    simp [bigText, natText]
  rw [operator1_OpIntString, h]
  rfl

/-- C11, amended: in the list-of-characters encoding a tag-1 cell's ordered fields
are (rest of the list, character): field 0 is the tail and field 1 is the
character.  Every list built by `OpIntString` and by `OpFloatString` has this
layout, `accumString` realises every such list to its text, and it realises
cons 'a' (cons 'b' nil) in this layout to "ab". -/
theorem C11_cell_layout (globals : List Value) (k j : Nat) (st : State) :
    (∀ n : Int, ∃ v, operator1 (Reduce globals (k + 1)) j st OpIntString (.Int n)
        = .ok (v, st.built (1 + (bigText n).length)) ∧ IsCharList (bigText n) v) ∧
    (∀ f : Float, ∃ v, operator1 (Reduce globals (k + 1)) j st OpFloatString (.Float f)
        = .ok (v, st.built (1 + (floatText f).length)) ∧ IsCharList (floatText f) v) ∧
    (∀ (runes : List Int) (v : Value), IsCharList runes v →
      accumString (Reduce globals (k + 1)) (j + 1 + runes.length) st v
        = .ok (runes.map writeRune, st)) ∧
    accumString (Reduce globals (k + 1)) (j + 3) st
        (.Struct 1 [.Struct 1 [.Struct 0 [], .Char 98], .Char 97])
      = .ok ([97, 98], st) := by
  have hmk : ∀ (runes : List Int) (v : Value), IsCharList runes v → v = makeString runes := by
    intro runes
    induction runes with
    | nil => intro v h; exact h
    | cons r rs ih =>
      intro v h
      obtain ⟨tail, rfl, ht⟩ := h
      rw [ih tail ht]
      rfl
  refine ⟨?_, ?_, ?_, ?_⟩
  · intro n
    exact ⟨_, operator1_OpIntString _ _ _ _, IsCharList_makeString _⟩
  · intro f
    exact ⟨_, operator1_OpFloatString _ _ _ _, IsCharList_makeString _⟩
  · intro runes v h
    rw [hmk runes v h]
    exact accumString_makeString globals k j st runes
  · exact accumString_makeString globals k j st [97, 98]

/-- Witness for the amended C11: the list cons 'h' (cons 'i' nil) in the layout
(rest, character) is realised to "hi". -/
theorem C11_cell_layout_witness :
    IsCharList [104, 105] (.Struct 1 [.Struct 1 [.Struct 0 [], .Char 105], .Char 104]) ∧
    accumString (Reduce [] (0 + 1)) (0 + 1 + ([104, 105] : List Int).length) (initState [])
        (.Struct 1 [.Struct 1 [.Struct 0 [], .Char 105], .Char 104])
      = .ok (([104, 105] : List Int).map writeRune, initState []) :=
  ⟨⟨_, rfl, _, rfl, rfl⟩,
   (C11_cell_layout [] 0 0 (initState [])).2.2.1 [104, 105] _ ⟨_, rfl, _, rfl, rfl⟩⟩

/-! ### The comparison sentinels -/

/-- C12: boolean sentinels.  For every comparison operator of the Char and Int
families and every pair of operands of the shapes it expects, `operator2` returns
entry 0 or entry 1 of the shared table `nullaryStructs` and leaves the state as
it was, the count of structs built included: the struct it returns is not a newly
built one.  Applied again to the same operands, in any state, it returns the same
entry, again with nothing built.  By contrast a struct that is built, even one
equal to that entry, is counted: `Make` with the tag of the entry, over an empty
stack, returns an equal struct and advances the count by one. -/
theorem C12_boolean_sentinels (reduce : State → Value → Outcome (Value × State))
    (fuel : Nat) (st : State) (code : Int) (x y : Value)
    (h : comparisonOperandsOk code x y = true) :
    ∃ (i : Nat) (r : Value), (i = 0 ∨ i = 1) ∧ nullaryStructs[i]? = some r ∧
      operator2 reduce fuel st code x y = .ok (r, st) ∧
      (∀ (reduce1 : State → Value → Outcome (Value × State)) (fuel1 : Nat) (st1 : State),
        operator2 reduce1 fuel1 st1 code x y = .ok (r, st1)) ∧
      (∀ (globals : List Value) (shares : List Nat) (data : List Value),
        step reduce fuel globals st [] shares (.interp (.mk .CodeMake (i : Int) (.Int 0) []) data)
          = .ok (.ret r ((tick st).built 1) shares) ∧
        ((tick st).built 1).Structs = st.Structs + 1) := by
  have hb : ∀ b : Bool, ∃ (i : Nat), (i = 0 ∨ i = 1) ∧ nullaryStructs[i]? = some (boolStruct b) ∧
      boolStruct b = .Struct (i : Int) [] := by
    intro b
    cases b
    · exact ⟨1, Or.inr rfl, rfl, rfl⟩
    · exact ⟨0, Or.inl rfl, rfl, rfl⟩
  have key : ∃ b : Bool, ∀ (reduce1 : State → Value → Outcome (Value × State)) (fuel1 : Nat)
      (st1 : State), operator2 reduce1 fuel1 st1 code x y = .ok (boolStruct b, st1) := by
    cases x with
    | Char c =>
      cases y with
      | Char d =>
        simp only [comparisonOperandsOk, decide_eq_true_eq] at h
        rcases h with rfl | rfl | rfl | rfl | rfl | rfl
        · exact ⟨decide (c = d), fun _ _ _ => by
            simp [operator2, asChar, OpCharAdd, OpCharSub, OpCharEq]⟩
        · exact ⟨decide (c ≠ d), fun _ _ _ => by
            simp [operator2, asChar, OpCharAdd, OpCharSub, OpCharEq, OpCharNeq]⟩
        · exact ⟨decide (c < d), fun _ _ _ => by
            simp [operator2, asChar, OpCharAdd, OpCharSub, OpCharEq, OpCharNeq, OpCharLess]⟩
        · exact ⟨decide (c ≤ d), fun _ _ _ => by
            simp [operator2, asChar, OpCharAdd, OpCharSub, OpCharEq, OpCharNeq, OpCharLess,
              OpCharLessEq]⟩
        · exact ⟨decide (c > d), fun _ _ _ => by
            simp [operator2, asChar, OpCharAdd, OpCharSub, OpCharEq, OpCharNeq, OpCharLess,
              OpCharLessEq, OpCharMore]⟩
        · exact ⟨decide (c ≥ d), fun _ _ _ => by
            simp [operator2, asChar, OpCharAdd, OpCharSub, OpCharEq, OpCharNeq, OpCharLess,
              OpCharLessEq, OpCharMore, OpCharMoreEq]⟩
      | Int d => simp [comparisonOperandsOk] at h
      | Float f => simp [comparisonOperandsOk] at h
      | Struct i vs => simp [comparisonOperandsOk] at h
      | Thunk a => simp [comparisonOperandsOk] at h
    | Int c =>
      cases y with
      | Int d =>
        simp only [comparisonOperandsOk, decide_eq_true_eq] at h
        rcases h with rfl | rfl | rfl | rfl | rfl | rfl
        · exact ⟨decide (c = d), fun _ _ _ => by
            simp [operator2, asInt, OpCharAdd, OpCharSub, OpCharEq, OpCharNeq, OpCharLess,
              OpCharLessEq, OpCharMore, OpCharMoreEq, OpIntAdd, OpIntSub, OpIntMul, OpIntDiv,
              OpIntMod, OpIntExp, OpIntEq]⟩
        · exact ⟨decide (c ≠ d), fun _ _ _ => by
            simp [operator2, asInt, OpCharAdd, OpCharSub, OpCharEq, OpCharNeq, OpCharLess,
              OpCharLessEq, OpCharMore, OpCharMoreEq, OpIntAdd, OpIntSub, OpIntMul, OpIntDiv,
              OpIntMod, OpIntExp, OpIntEq, OpIntNeq]⟩
        · exact ⟨decide (c < d), fun _ _ _ => by
            simp [operator2, asInt, OpCharAdd, OpCharSub, OpCharEq, OpCharNeq, OpCharLess,
              OpCharLessEq, OpCharMore, OpCharMoreEq, OpIntAdd, OpIntSub, OpIntMul, OpIntDiv,
              OpIntMod, OpIntExp, OpIntEq, OpIntNeq, OpIntLess]⟩
        · exact ⟨decide (c ≤ d), fun _ _ _ => by
            simp [operator2, asInt, OpCharAdd, OpCharSub, OpCharEq, OpCharNeq, OpCharLess,
              OpCharLessEq, OpCharMore, OpCharMoreEq, OpIntAdd, OpIntSub, OpIntMul, OpIntDiv,
              OpIntMod, OpIntExp, OpIntEq, OpIntNeq, OpIntLess, OpIntLessEq]⟩
        · exact ⟨decide (c > d), fun _ _ _ => by
            simp [operator2, asInt, OpCharAdd, OpCharSub, OpCharEq, OpCharNeq, OpCharLess,
              OpCharLessEq, OpCharMore, OpCharMoreEq, OpIntAdd, OpIntSub, OpIntMul, OpIntDiv,
              OpIntMod, OpIntExp, OpIntEq, OpIntNeq, OpIntLess, OpIntLessEq, OpIntMore]⟩
        · exact ⟨decide (c ≥ d), fun _ _ _ => by
            simp [operator2, asInt, OpCharAdd, OpCharSub, OpCharEq, OpCharNeq, OpCharLess,
              OpCharLessEq, OpCharMore, OpCharMoreEq, OpIntAdd, OpIntSub, OpIntMul, OpIntDiv,
              OpIntMod, OpIntExp, OpIntEq, OpIntNeq, OpIntLess, OpIntLessEq, OpIntMore,
              OpIntMoreEq]⟩
      | Char d => simp [comparisonOperandsOk] at h
      | Float f => simp [comparisonOperandsOk] at h
      | Struct i vs => simp [comparisonOperandsOk] at h
      | Thunk a => simp [comparisonOperandsOk] at h
    | Float f => simp [comparisonOperandsOk] at h
    | Struct i vs => simp [comparisonOperandsOk] at h
    | Thunk a => simp [comparisonOperandsOk] at h
  obtain ⟨b, hop⟩ := key
  obtain ⟨i, hi, hn, hv⟩ := hb b
  refine ⟨i, boolStruct b, hi, hn, hop reduce fuel st, hop, ?_⟩
  intro globals shares data
  rw [step_make reduce fuel globals st [] shares (.mk .CodeMake (i : Int) (.Int 0) []) data rfl, hv]
  exact ⟨rfl, rfl⟩

/-- Witness for C12: the comparison 3 < 4 returns entry 0 of the table and builds
nothing; `Make 0` returns an equal struct, a newly built one. -/
theorem C12_boolean_sentinels_witness :
    comparisonOperandsOk OpIntLess (.Int 3) (.Int 4) = true ∧
    operator2 (Reduce [] 0) 0 (initState []) OpIntLess (.Int 3) (.Int 4)
      = .ok (.Struct 0 [], initState []) ∧
    nullaryStructs[0]? = some (.Struct 0 []) ∧
    step (Reduce [] 0) 0 [] (initState []) [] [] (.interp (.mk .CodeMake 0 (.Int 0) []) [])
      = .ok (.ret (.Struct 0 []) (State.mk [] 1 0 [] 1) []) ∧
    ∃ (i : Nat) (r : Value), (i = 0 ∨ i = 1) ∧ nullaryStructs[i]? = some r ∧
      operator2 (Reduce [] 0) 0 (initState []) OpIntLess (.Int 3) (.Int 4)
        = .ok (r, initState []) ∧
      (∀ (reduce1 : State → Value → Outcome (Value × State)) (fuel1 : Nat) (st1 : State),
        operator2 reduce1 fuel1 st1 OpIntLess (.Int 3) (.Int 4) = .ok (r, st1)) ∧
      (∀ (globals : List Value) (shares : List Nat) (data : List Value),
        step (Reduce [] 0) 0 globals (initState []) [] shares
            (.interp (.mk .CodeMake (i : Int) (.Int 0) []) data)
          = .ok (.ret r ((tick (initState [])).built 1) shares) ∧
        ((tick (initState [])).built 1).Structs = (initState []).Structs + 1) :=
  ⟨by decide, rfl, rfl, rfl,
    C12_boolean_sentinels (Reduce [] 0) 0 (initState []) OpIntLess (.Int 3) (.Int 4) (by decide)⟩

/-! ### Applications of literals -/

/-- The argument loop over literals allocates nothing and pushes the literals in
the order it visits them. -/
theorem pushArgs_values (data : List Value) : ∀ (cs : List Code) (st : State)
    (stack : List Value), (∀ c ∈ cs, c.Kind = .CodeValue) →
    pushArgs data cs st stack = .ok (st, stack ++ cs.map Code.Value) := by
  intro cs
  induction cs with
  | nil => intro st stack _; simp [pushArgs]
  | cons c cs ih =>
    intro st stack h
    rw [pushArgs]
    simp only [h c (List.mem_cons_self _ _)]
    rw [ih _ _ (fun x hx => h x (List.mem_cons_of_mem _ hx))]
    simp

theorem operator2_OpIntAdd (reduce : State → Value → Outcome (Value × State)) (fuel : Nat)
    (st : State) (a b : Int) :
    operator2 reduce fuel st OpIntAdd (.Int a) (.Int b) = .ok (.Int (a + b), st) := by
  simp [operator2, asInt, OpCharAdd, OpCharSub, OpCharEq, OpCharNeq, OpCharLess,
    OpCharLessEq, OpCharMore, OpCharMoreEq, OpIntAdd]

/-- C13: exact integer addition through the engine.  For all integers a and b,
forcing an unresolved thunk whose code is Application(Operator OpIntAdd,
[Value (Int a), Value (Int b)]) returns Int (a + b), the sum over the unbounded
integers, for every fuel from 3 on, and leaves the thunk resolved with it. -/
theorem C13_exact_integer_addition (globals : List Value) (st : State) (addr k : Nat)
    (code op c1 c2 : Code) (data : List Value) (a b : Int)
    (ht : st.heap[addr]? = some (unresolved code data))
    (hk : code.Kind = .CodeAppl) (htab : code.Table = [op, c1, c2])
    (hop : op.Kind = .CodeOperator) (hx : op.X = OpIntAdd)
    (h1 : c1.Kind = .CodeValue) (hv1 : c1.Value = .Int a)
    (h2 : c2.Kind = .CodeValue) (hv2 : c2.Value = .Int b) :
    ∃ st1, Reduce globals (k + 3) st (.Thunk addr) = .ok (.Int (a + b), st1) ∧
      st1.heap[addr]? = some (resolved (.Int (a + b))) := by
  have hset := getElem?_set_same st.heap addr _ { Result := none, Code := none, Data := [] } ht
  have hpush : pushArgs data (code.Table.drop 1).reverse
      (tick { st with heap := st.heap.set addr { Result := none, Code := none, Data := [] } }) []
      = .ok (tick { st with heap := st.heap.set addr { Result := none, Code := none, Data := [] } },
          [.Int b, .Int a]) := by
    rw [htab, pushArgs_values]
    · simp [hv1, hv2]
    · intro c hc
      simp only [List.drop_succ_cons, List.drop_zero, List.reverse_cons, List.reverse_nil,
        List.nil_append, List.singleton_append, List.mem_cons, List.mem_singleton,
        List.not_mem_nil, or_false] at hc
      rcases hc with rfl | rfl
      · exact h2
      · exact h1
  have hcallee : index code.Table 0 = .ok op := by rw [htab]; rfl
  refine ⟨memoize (.Int (a + b)) [addr] (tick (bumpMaxStack
    (tick { st with heap := st.heap.set addr { Result := none, Code := none, Data := [] } })
    [.Int b, .Int a])), ?_, ?_⟩
  · rw [Reduce_succ, iter_next _ _ (step_unresolved _ _ _ _ _ addr code data ht),
      iter_next _ _ (by rw [step_appl _ _ _ _ _ _ _ _ hk, hpush, Outcome.ok_bind, hcallee]; rfl),
      iter_ret _ _ (by
        rw [step_operator _ _ _ _ _ _ _ _ hop, hx]
        have harity : index operatorArity OpIntAdd = .ok 2 := rfl
        have hx1 : index [Value.Int b, Value.Int a] (((([Value.Int b, Value.Int a] : List Value).length
            : Nat) : Int) - 1) = .ok (.Int a) := rfl
        have hy1 : index [Value.Int b, Value.Int a] (((([Value.Int b, Value.Int a] : List Value).length
            : Nat) : Int) - 2) = .ok (.Int b) := rfl
        rw [harity, Outcome.ok_bind, if_neg (by decide), if_pos rfl, hx1, Outcome.ok_bind, hy1,
          Outcome.ok_bind, operator2_OpIntAdd]
        rfl)]
    rfl
  · rw [memoize_heap]
    simp [bumpMaxStack_heap, tick, hset, resolved]

/-- Witness for C13: the sum of 2 and 3 is 5. -/
theorem C13_exact_integer_addition_witness :
    ∃ st1, Reduce [] (0 + 3)
        (initState [unresolved (Code.appl (Code.operator OpIntAdd)
          [Code.value (.Int 2), Code.value (.Int 3)]) []]) (.Thunk 0)
        = .ok (.Int (2 + 3), st1) ∧
      st1.heap[0]? = some (resolved (.Int (2 + 3))) :=
  C13_exact_integer_addition [] _ 0 0 _ (Code.operator OpIntAdd) (Code.value (.Int 2))
    (Code.value (.Int 3)) [] 2 3 rfl rfl rfl rfl rfl rfl rfl rfl rfl

/-! ### The trace primitive -/

theorem operator2_OpDump (reduce : State → Value → Outcome (Value × State)) (fuel : Nat)
    (st : State) (x y : Value) :
    operator2 reduce fuel st OpDump x y
      = (accumString reduce fuel st x).bind fun p =>
          .ok (y, { p.2 with stderr := p.2.stderr ++ p.1 ++ [10] }) := by
  unfold operator2
  simp only [OpDump, OpCharAdd, OpCharSub, OpCharEq, OpCharNeq, OpCharLess,
    OpCharLessEq, OpCharMore, OpCharMoreEq, OpIntAdd, OpIntSub, OpIntMul, OpIntDiv,
    OpIntMod, OpIntExp, OpIntEq, OpIntNeq, OpIntLess, OpIntLessEq, OpIntMore, OpIntMoreEq,
    OpFloatAdd, OpFloatSub, OpFloatMul, OpFloatDiv, OpFloatMod, OpFloatExp, OpFloatEq,
    OpFloatNeq, OpFloatLess, OpFloatLessEq, OpFloatMore, OpFloatMoreEq]
  rfl

/-- C14: dump is a transparent trace.  For every first operand x that
`accumString` realises to a text s (reaching the state st1) and every second
operand y, `operator2` with `OpDump` returns y itself and appends exactly s and a
newline to the diagnostic stream of st1, changing nothing else. -/
theorem C14_dump_transparent (reduce : State → Value → Outcome (Value × State)) (fuel : Nat)
    (st st1 : State) (x y : Value) (s : List Int)
    (h : accumString reduce fuel st x = .ok (s, st1)) :
    operator2 reduce fuel st OpDump x y
      = .ok (y, { st1 with stderr := st1.stderr ++ s ++ [10] }) := by
  rw [operator2_OpDump, h]
  rfl

/-- Witness for C14: with x the list of characters of "x=5" and y = Int 5, dump
writes "x=5" and a newline and evaluates to Int 5. -/
theorem C14_dump_transparent_witness :
    accumString (Reduce [] 1) 4 (initState []) (makeString [120, 61, 53])
      = .ok ([120, 61, 53], initState []) ∧
    operator2 (Reduce [] 1) 4 (initState []) OpDump (makeString [120, 61, 53]) (.Int 5)
      = .ok (.Int 5, State.mk [] 0 0 [120, 61, 53, 10] 0) :=
  ⟨rfl, C14_dump_transparent (Reduce [] 1) 4 (initState []) (initState [])
    (makeString [120, 61, 53]) (.Int 5) [120, 61, 53] rfl⟩

/-! ### Single assignment of thunks -/

theorem CellStep_refl (o : Option Thunk) : CellStep o o := by
  cases o with
  | none => trivial
  | some t => exact Or.inl rfl

theorem CellStep_trans {o o1 o2 : Option Thunk} (h1 : CellStep o o1) (h2 : CellStep o1 o2) :
    CellStep o o2 := by
  cases o with
  | none =>
    cases o1 with
    | none => exact h2
    | some t1 =>
      cases o2 with
      | none => exact h2.elim
      | some t2 =>
        rcases h2 with rfl | ⟨hu, hr⟩
        · exact h1
        · exact Or.inr hr
  | some t =>
    cases o1 with
    | none => exact h1.elim
    | some t1 =>
      cases o2 with
      | none => exact h2.elim
      | some t2 =>
        rcases h1 with rfl | ⟨hu, hr⟩
        · exact h2
        · rcases h2 with rfl | ⟨hu2, hr2⟩
          · exact Or.inr ⟨hu, hr⟩
          · exact absurd hu2.1 hr.1

theorem HeapStep_refl (h : List Thunk) : HeapStep h h := fun _ => CellStep_refl _

theorem HeapStep_trans {h h1 h2 : List Thunk} (a1 : HeapStep h h1) (a2 : HeapStep h1 h2) :
    HeapStep h h2 := fun a => CellStep_trans (a1 a) (a2 a)

/-- An allocation is a step of the heap. -/
theorem HeapStep_alloc (st : State) (code : Code) (data : List Value) :
    HeapStep st.heap (allocThunk st code data).1.heap := by
  intro a
  simp only [allocThunk]
  rcases Nat.lt_trichotomy a st.heap.length with h | h | h
  · rw [List.getElem?_append_left h, List.getElem?_eq_getElem h]
    exact Or.inl rfl
  · subst h
    rw [List.getElem?_eq_none (le_refl _), List.getElem?_append_right (le_refl _)]
    simp only [Nat.sub_self, List.getElem?_cons_zero]
    exact Or.inl ⟨rfl, by simp⟩
  · rw [List.getElem?_eq_none (le_of_lt h), List.getElem?_eq_none (by simp; omega)]
    trivial

theorem pushArgs_heapStep (data : List Value) : ∀ (args : List Code) (st : State)
    (stack : List Value) (st1 : State) (stack1 : List Value),
    pushArgs data args st stack = .ok (st1, stack1) → HeapStep st.heap st1.heap := by
  intro args
  induction args with
  | nil => intro st stack st1 stack1 hp; cases hp; exact HeapStep_refl _
  | cons c cs ih =>
    intro st stack st1 stack1 hp
    rw [pushArgs] at hp
    split at hp
    · exact ih _ _ _ _ hp
    · obtain ⟨v, -, hp⟩ := Outcome.bind_eq_ok hp
      exact ih _ _ _ _ hp
    · exact HeapStep_trans (HeapStep_alloc st c data) (ih _ _ _ _ hp)

/-- A step of the whole heap keeps the middle of a call in order: it cannot touch
a recorded thunk. -/
theorem MidStep_heapStep {h0 h h1 : List Thunk} {shares : List Nat}
    (hm : MidStep h0 shares h) (hs : HeapStep h h1) : MidStep h0 shares h1 := by
  intro a
  refine ⟨fun ha => ⟨((hm a).1 ha).1, ?_⟩, fun ha => CellStep_trans ((hm a).2 ha) (hs a)⟩
  have h1' := ((hm a).1 ha).2
  have h2 := hs a
  rw [h1'] at h2
  cases hb : h1[a]? with
  | none => rw [hb] at h2; exact h2.elim
  | some t1 =>
    rw [hb] at h2
    rcases h2 with rfl | ⟨hu, -⟩
    · rfl
    · exact absurd rfl hu.2

/-- Recording and clearing an unresolved thunk keeps the middle of a call in
order. -/
theorem MidStep_clear {h0 h : List Thunk} {shares : List Nat} (hm : MidStep h0 shares h)
    (a : Nat) (v : Thunk) (code : Code) (hv : h[a]? = some v) (hr : v.Result = none)
    (hc : v.Code = some code) :
    MidStep h0 (shares ++ [a]) (h.set a { v with Code := none, Data := [] }) := by
  have hnot : a ∉ shares := by
    intro ha
    have := ((hm a).1 ha).2
    rw [hv] at this
    cases this
    cases hc
  have hu : v.isUnresolved := ⟨hr, by rw [hc]; simp⟩
  intro b
  by_cases hab : a = b
  · subst hab
    refine ⟨fun _ => ⟨?_, ?_⟩, fun hb => absurd (List.mem_append_right _ (List.mem_singleton.mpr rfl)) hb⟩
    · have := (hm a).2 hnot
      rw [hv] at this
      cases h0a : h0[a]? with
      | none => exact Or.inl rfl
      | some t =>
        rw [h0a] at this
        rcases this with e | ⟨hu0, hr0⟩
        · exact Or.inr ⟨t, rfl, e ▸ hu⟩
        · exact absurd hr hr0.1
    · rw [getElem?_set_same h a v _ hv, hr]
  · rw [getElem?_set_other h a b _ hab]
    have hiff : b ∈ shares ++ [a] ↔ b ∈ shares := by
      simp [List.mem_append, Ne.symm hab]
    refine ⟨fun hb => (hm b).1 (hiff.mp hb), fun hb => (hm b).2 (fun hb' => hb (hiff.mpr hb'))⟩

/-- One pass keeps the middle of a call in order, when the nested calls are steps
of the heap. -/
theorem step_midStep (reduce : State → Value → Outcome (Value × State))
    (hred : ∀ st v r st1, reduce st v = .ok (r, st1) → HeapStep st.heap st1.heap)
    (fuel : Nat) (globals : List Value) (h0 : List Thunk) (st : State) (stack : List Value)
    (shares : List Nat) (ctl : Ctl) (s : Step) (hm : MidStep h0 shares st.heap)
    (h : step reduce fuel globals st stack shares ctl = .ok s) :
    MidStep h0 s.shares s.state.heap := by
  have hacc : ∀ n st x t st1, accumString reduce n st x = .ok (t, st1) →
      HeapStep st.heap st1.heap :=
    accumString_rel (fun a b => HeapStep a.heap b.heap) (fun _ => HeapStep_refl _)
      (fun _ _ _ => HeapStep_trans) reduce hred
  cases ctl with
  | beginning v =>
    cases v with
    | Thunk a =>
      rw [step_thunk] at h
      split at h
      · cases h
      · rename_i t ht
        split at h
        · cases h; exact hm
        · rename_i hr
          split at h
          · cases h
          · rename_i code hcode
            split_ifs at h
            · cases h
              exact MidStep_clear hm a t code ht hr hcode
            · cases h; exact hm
    | Char c =>
      rw [step_whnf _ _ _ _ _ _ (.Char c) rfl] at h
      split_ifs at h
      cases h; exact hm
    | Int c =>
      rw [step_whnf _ _ _ _ _ _ (.Int c) rfl] at h
      split_ifs at h
      cases h; exact hm
    | Float c =>
      rw [step_whnf _ _ _ _ _ _ (.Float c) rfl] at h
      split_ifs at h
      cases h; exact hm
    | Struct i vs =>
      rw [step_whnf _ _ _ _ _ _ (.Struct i vs) rfl] at h
      split_ifs at h
      cases h; exact hm
  | interp code data =>
    cases hk : code.Kind with
    | CodeValue =>
      rw [step_value _ _ _ _ _ _ _ _ hk] at h
      cases h; exact hm
    | CodeOperator =>
      rw [step_operator _ _ _ _ _ _ _ _ hk] at h
      obtain ⟨arity, -, h⟩ := Outcome.bind_eq_ok h
      split_ifs at h
      · obtain ⟨x, -, h⟩ := Outcome.bind_eq_ok h
        obtain ⟨⟨r, st1⟩, hop, h⟩ := Outcome.bind_eq_ok h
        cases h
        rcases (operator1_ok _ _ _ _ _ _ _ hop).2 with ⟨nb, e⟩ | ⟨t, ht⟩
        · simp only [Step.state, Step.shares, e, State.built]
          exact hm
        · have hs : HeapStep st.heap st1.heap := hacc _ (tick st) _ _ _ ht
          exact MidStep_heapStep hm hs
      · obtain ⟨x, -, h⟩ := Outcome.bind_eq_ok h
        obtain ⟨y, -, h⟩ := Outcome.bind_eq_ok h
        obtain ⟨⟨r, st1⟩, hop, h⟩ := Outcome.bind_eq_ok h
        cases h
        rcases operator2_ok _ _ _ _ _ _ _ _ hop with ⟨-, e, -⟩ | ⟨-, -, t, st2, ht, e⟩
        · simp only [Step.state, Step.shares, e]
          exact hm
        · have hs : HeapStep st.heap st2.heap := hacc _ (tick st) _ _ _ ht
          simp only [Step.state, Step.shares, e]
          exact MidStep_heapStep hm hs
    | CodeMake =>
      rw [step_make _ _ _ _ _ _ _ _ hk] at h
      cases h; exact hm
    | CodeVar =>
      rw [step_var _ _ _ _ _ _ _ _ hk] at h
      obtain ⟨v, -, h⟩ := Outcome.bind_eq_ok h
      cases h; exact hm
    | CodeGlobal =>
      rw [step_global _ _ _ _ _ _ _ _ hk] at h
      obtain ⟨v, -, h⟩ := Outcome.bind_eq_ok h
      cases h; exact hm
    | CodeAbst =>
      rw [step_abst _ _ _ _ _ _ _ _ hk] at h
      split_ifs at h
      obtain ⟨body, -, h⟩ := Outcome.bind_eq_ok h
      cases h
      simp only [Step.state, Step.shares, bumpMaxStack_heap]
      exact hm
    | CodeAppl =>
      rw [step_appl _ _ _ _ _ _ _ _ hk] at h
      obtain ⟨⟨st1, stack1⟩, hp, h⟩ := Outcome.bind_eq_ok h
      obtain ⟨callee, -, h⟩ := Outcome.bind_eq_ok h
      cases h
      simp only [Step.state, Step.shares, bumpMaxStack_heap]
      exact MidStep_heapStep hm (pushArgs_heapStep data _ (tick st) stack st1 stack1 hp)
    | CodeSwitch =>
      rw [step_switch _ _ _ _ _ _ _ _ hk] at h
      obtain ⟨scrutinee, -, h⟩ := Outcome.bind_eq_ok h
      obtain ⟨⟨r, st1⟩, hr, h⟩ := Outcome.bind_eq_ok h
      obtain ⟨⟨i, vs⟩, -, h⟩ := Outcome.bind_eq_ok h
      obtain ⟨branch, -, h⟩ := Outcome.bind_eq_ok h
      cases h
      simp only [Step.state, Step.shares, bumpMaxStack_heap]
      exact MidStep_heapStep hm
        (HeapStep_trans (HeapStep_alloc (tick st) scrutinee data) (hred _ _ _ _ hr))

theorem iter_midStep (reduce : State → Value → Outcome (Value × State))
    (hred : ∀ st v r st1, reduce st v = .ok (r, st1) → HeapStep st.heap st1.heap)
    (fuel : Nat) (globals : List Value) (h0 : List Thunk) :
    ∀ (n : Nat) (st : State) (stack : List Value) (shares : List Nat) (ctl : Ctl)
      (r : Value) (st1 : State) (shares1 : List Nat),
      MidStep h0 shares st.heap →
      iter (step reduce fuel globals) n st stack shares ctl = .ok (r, st1, shares1) →
      MidStep h0 shares1 st1.heap := by
  intro n
  induction n with
  | zero => intro st stack shares ctl r st1 shares1 _ h; cases h
  | succ n ih =>
    intro st stack shares ctl r st1 shares1 hm h
    rw [iter] at h
    split at h
    · rename_i st2 stack2 shares2 ctl2 hs
      exact ih _ _ _ _ _ _ _ (step_midStep reduce hred fuel globals h0 st stack shares ctl _ hm hs) h
    · rename_i r2 st2 shares2 hs
      have h1 := step_midStep reduce hred fuel globals h0 st stack shares ctl _ hm hs
      cases h
      exact h1
    · cases h
    · cases h
    · cases h

/-- The deferred loop turns the middle of a call into a step of the heap: every
recorded thunk, cleared and without result, gets its result. -/
theorem MidStep_memoize (h0 : List Thunk) (shares : List Nat) (st : State) (r : Value)
    (hm : MidStep h0 shares st.heap) : HeapStep h0 (memoize r shares st).heap := by
  intro a
  rw [memoize_heap]
  by_cases ha : a ∈ shares
  · obtain ⟨h1, h2⟩ := (hm a).1 ha
    rw [h2]
    simp only [Option.map_some', ha, if_true]
    rcases h1 with e | ⟨t, e, hu⟩
    · rw [e]
      exact Or.inr ⟨(by simp), rfl, rfl⟩
    · rw [e]
      exact Or.inr ⟨hu, (by simp), rfl, rfl⟩
  · have := (hm a).2 ha
    cases hb : st.heap[a]? with
    | none => rw [hb] at this; simpa using this
    | some t => rw [hb] at this; simpa [ha] using this

theorem MidStep_start (h : List Thunk) : MidStep h [] h := by
  intro a
  exact ⟨fun ha => (by cases ha), fun _ => CellStep_refl _⟩

/-- Across a call of `Reduce` that returns, every cell of the heap takes a
`CellStep`. -/
theorem Reduce_heapStep (globals : List Value) :
    ∀ (n : Nat) (st : State) (v r : Value) (st1 : State),
      Reduce globals n st v = .ok (r, st1) → HeapStep st.heap st1.heap := by
  intro n
  induction n with
  | zero => intro st v r st1 h; cases h
  | succ n ih =>
    intro st v r st1 h
    rw [Reduce_succ] at h
    obtain ⟨⟨r2, st2, shares2⟩, hit, h⟩ := Outcome.bind_eq_ok h
    cases h
    exact MidStep_memoize _ _ _ _
      (iter_midStep _ ih n globals st.heap _ _ _ _ _ _ _ _ (MidStep_start _) hit)

theorem ReduceSeq_heapStep (globals : List Value) :
    ∀ (calls : List (Nat × Value)) (st st1 : State),
      ReduceSeq globals calls st = .ok st1 → HeapStep st.heap st1.heap := by
  intro calls
  induction calls with
  | nil => intro st st1 h; cases h; exact HeapStep_refl _
  | cons c calls ih =>
    intro st st1 h
    obtain ⟨n, v⟩ := c
    rw [ReduceSeq] at h
    obtain ⟨⟨r, st2⟩, h1, h2⟩ := Outcome.bind_eq_ok h
    exact HeapStep_trans (Reduce_heapStep globals n st v r st2 h1) (ih _ _ h2)

/-- C15, as stated, fails in its last clause: the call of `Reduce` that the Switch
case makes while thunk 0 is being forced returns normally and leaves thunk 0 with
Code cleared and Result unset (the enclosing call sets its Result later). -/
theorem C15_counterexample :
    Reduce [] 3
        (initState [unresolved (Code.switch (Code.value (.Struct 0 [])) [Code.value (.Int 7)])
          []]) (.Thunk 0)
      = .ok (.Int 7, State.mk [resolved (.Int 7), resolved (.Struct 0 [])] 3 0 [] 0) ∧
    allocThunk (tick (State.mk [Thunk.mk none none []] 0 0 [] 0)) (Code.value (.Struct 0 [])) []
      = (State.mk [Thunk.mk none none [], unresolved (Code.value (.Struct 0 [])) []] 1 0 [] 0,
          1) ∧
    Reduce [] 2
        (State.mk [Thunk.mk none none [], unresolved (Code.value (.Struct 0 [])) []] 1 0 [] 0)
        (.Thunk 1)
      = .ok (.Struct 0 [],
          State.mk [Thunk.mk none none [], resolved (.Struct 0 [])] 2 0 [] 0) ∧
    (Thunk.mk none none []).inProgress := by
  exact ⟨rfl, rfl, rfl, rfl, rfl⟩

/-- C15, amended: single-assignment thunks.  Across any sequence of calls of
`Reduce` that return normally, every thunk that existed before is as it was, or
it was unresolved and is now resolved with Code and Data cleared and Result set,
and every new thunk is unresolved or resolved; so a resolved thunk is never
changed, and a thunk left with Code cleared and Result unset was already so
before the calls (it is one an enclosing call is still forcing): calls started
when no thunk is in that condition leave none.  Inside a call, the thunks the
deferred loop sets are exactly thunks that were unresolved (or new) and have been
cleared and have no Result yet. -/
theorem C15_single_assignment (globals : List Value) (calls : List (Nat × Value))
    (st st1 : State) (h : ReduceSeq globals calls st = .ok st1) :
    HeapStep st.heap st1.heap ∧
    (∀ (a : Nat) (t : Thunk), st.heap[a]? = some t → t.Result ≠ none →
      st1.heap[a]? = some t) ∧
    (∀ (a : Nat) (t1 : Thunk), st1.heap[a]? = some t1 → t1.inProgress →
      st.heap[a]? = some t1) ∧
    ((∀ (a : Nat) (t : Thunk), st.heap[a]? = some t → ¬ t.inProgress) →
      ∀ (a : Nat) (t1 : Thunk), st1.heap[a]? = some t1 → ¬ t1.inProgress) ∧
    (∀ (n : Nat) (s s1 : State) (v r : Value) (shares : List Nat),
      iter (step (Reduce globals n) n globals) (n + 1) s [] [] (.beginning v)
        = .ok (r, s1, shares) →
      ∀ a ∈ shares, s1.heap[a]? = some { Result := none, Code := none, Data := [] } ∧
        (s.heap[a]? = none ∨ ∃ t, s.heap[a]? = some t ∧ t.isUnresolved)) := by
  have hs := ReduceSeq_heapStep globals calls st st1 h
  have hprog : ∀ (a : Nat) (t1 : Thunk), st1.heap[a]? = some t1 → t1.inProgress →
      st.heap[a]? = some t1 := by
    intro a t1 h1 hp
    have := hs a
    rw [h1] at this
    cases h0 : st.heap[a]? with
    | none =>
      rw [h0] at this
      rcases this with hu | hr
      · exact absurd hp.2 hu.2
      · exact absurd hp.1 hr.1
    | some t =>
      rw [h0] at this
      rcases this with e | ⟨-, hr⟩
      · rw [e]
      · exact absurd hp.1 hr.1
  refine ⟨hs, ?_, hprog, ?_, ?_⟩
  · intro a t h0 hr
    have := hs a
    rw [h0] at this
    cases h1 : st1.heap[a]? with
    | none => rw [h1] at this; exact this.elim
    | some t1 =>
      rw [h1] at this
      rcases this with e | ⟨hu, -⟩
      · rw [e]
      · exact absurd hu.1 hr
  · intro hno a t1 h1 hp
    exact hno a t1 (hprog a t1 h1 hp) hp
  · intro n s s1 v r shares hit a ha
    have hm := iter_midStep _ (Reduce_heapStep globals n) n globals s.heap _ _ _ _ _ _ _ _
      (MidStep_start _) hit
    exact ⟨((hm a).1 ha).2, ((hm a).1 ha).1⟩

/-- Witness for the amended C15: a thunk is forced twice. -/
theorem C15_single_assignment_witness :
    ReduceSeq [] [(2, .Thunk 0), (1, .Thunk 0)] (initState [unresolved (Code.value (.Int 7)) []])
      = .ok (State.mk [resolved (.Int 7)] 1 0 [] 0) ∧
    HeapStep (initState [unresolved (Code.value (.Int 7)) []]).heap
      (State.mk [resolved (.Int 7)] 1 0 [] 0).heap :=
  ⟨rfl, (C15_single_assignment [] [(2, .Thunk 0), (1, .Thunk 0)]
    (initState [unresolved (Code.value (.Int 7)) []]) (State.mk [resolved (.Int 7)] 1 0 [] 0)
    rfl).1⟩

/-! ### Soundness of the memoization -/

/-- A pass does not look at the recorded thunks: with more of them recorded
before, it does the same and hands them on. -/
theorem step_prepend (reduce : State → Value → Outcome (Value × State)) (fuel : Nat)
    (globals : List Value) (st : State) (stack : List Value) (shares0 shares : List Nat)
    (ctl : Ctl) :
    step reduce fuel globals st stack (shares0 ++ shares) ctl
      = (step reduce fuel globals st stack shares ctl).bind fun s => .ok (s.prepend shares0) := by
  cases ctl with
  | beginning v =>
    cases v with
    | Thunk a =>
      rw [step_thunk, step_thunk]
      cases st.heap[a]? with
      | none => rfl
      | some t =>
        cases hr : t.Result with
        | some r => simp only [hr]; rfl
        | none =>
          cases hc : t.Code with
          | none => simp only [hr, hc]; rfl
          | some code =>
            simp only [hr, hc]
            split_ifs
            · simp [Step.prepend, List.append_assoc]
            · rfl
    | Char c =>
      rw [step_whnf _ _ _ _ _ _ (.Char c) rfl, step_whnf _ _ _ _ _ _ (.Char c) rfl]
      split_ifs <;> rfl
    | Int c =>
      rw [step_whnf _ _ _ _ _ _ (.Int c) rfl, step_whnf _ _ _ _ _ _ (.Int c) rfl]
      split_ifs <;> rfl
    | Float c =>
      rw [step_whnf _ _ _ _ _ _ (.Float c) rfl, step_whnf _ _ _ _ _ _ (.Float c) rfl]
      split_ifs <;> rfl
    | Struct i vs =>
      rw [step_whnf _ _ _ _ _ _ (.Struct i vs) rfl, step_whnf _ _ _ _ _ _ (.Struct i vs) rfl]
      split_ifs <;> rfl
  | interp code data =>
    cases hk : code.Kind with
    | CodeValue =>
      rw [step_value _ _ _ _ _ _ _ _ hk, step_value _ _ _ _ _ _ _ _ hk]
      rfl
    | CodeOperator =>
      rw [step_operator _ _ _ _ _ _ _ _ hk, step_operator _ _ _ _ _ _ _ _ hk]
      cases index operatorArity code.X with
      | ok arity =>
        simp only [Outcome.ok_bind]
        split_ifs
        · cases index stack ((stack.length : Int) - 1) with
          | ok x =>
            simp only [Outcome.ok_bind]
            cases operator1 reduce fuel (tick st) code.X x <;> rfl
          | _ => rfl
        · cases index stack ((stack.length : Int) - 1) with
          | ok x =>
            simp only [Outcome.ok_bind]
            cases index stack ((stack.length : Int) - 2) with
            | ok y =>
              simp only [Outcome.ok_bind]
              cases operator2 reduce fuel (tick st) code.X x y <;> rfl
            | _ => rfl
          | _ => rfl
        · rfl
      | _ => rfl
    | CodeMake =>
      rw [step_make _ _ _ _ _ _ _ _ hk, step_make _ _ _ _ _ _ _ _ hk]
      rfl
    | CodeVar =>
      rw [step_var _ _ _ _ _ _ _ _ hk, step_var _ _ _ _ _ _ _ _ hk]
      cases lookupVar data code.X <;> rfl
    | CodeGlobal =>
      rw [step_global _ _ _ _ _ _ _ _ hk, step_global _ _ _ _ _ _ _ _ hk]
      cases index globals code.X <;> rfl
    | CodeAbst =>
      rw [step_abst _ _ _ _ _ _ _ _ hk, step_abst _ _ _ _ _ _ _ _ hk]
      split_ifs
      · rfl
      · rfl
      · cases index code.Table 0 <;> rfl
    | CodeAppl =>
      rw [step_appl _ _ _ _ _ _ _ _ hk, step_appl _ _ _ _ _ _ _ _ hk]
      cases pushArgs data (code.Table.drop 1).reverse (tick st) stack with
      | ok p =>
        simp only [Outcome.ok_bind]
        cases index code.Table 0 <;> rfl
      | _ => rfl
    | CodeSwitch =>
      rw [step_switch _ _ _ _ _ _ _ _ hk, step_switch _ _ _ _ _ _ _ _ hk]
      cases index code.Table 0 with
      | ok scrutinee =>
        simp only [Outcome.ok_bind]
        cases reduce (allocThunk (tick st) scrutinee data).1
            (.Thunk (allocThunk (tick st) scrutinee data).2) with
        | ok p =>
          simp only [Outcome.ok_bind]
          cases asStruct p.1 with
          | ok s =>
            simp only [Outcome.ok_bind]
            cases index code.Table (s.1 + 1) <;> rfl
          | _ => rfl
        | _ => rfl
      | _ => rfl

theorem iter_prepend (reduce : State → Value → Outcome (Value × State)) (fuel : Nat)
    (globals : List Value) (shares0 : List Nat) :
    ∀ (n : Nat) (st : State) (stack : List Value) (shares : List Nat) (ctl : Ctl),
      iter (step reduce fuel globals) n st stack (shares0 ++ shares) ctl
        = (iter (step reduce fuel globals) n st stack shares ctl).bind
            fun p => .ok (p.1, p.2.1, shares0 ++ p.2.2) := by
  intro n
  induction n with
  | zero => intro st stack shares ctl; rfl
  | succ n ih =>
    intro st stack shares ctl
    rw [iter, iter, step_prepend]
    cases step reduce fuel globals st stack shares ctl with
    | ok s =>
      cases s with
      | next st1 stack1 shares1 ctl1 =>
        simp only [Outcome.ok_bind, Step.prepend]
        exact ih _ _ _ _
      | ret r st1 shares1 => rfl
    | _ => rfl

/-- More fuel does not change what the flat loop returns. -/
theorem iter_fuel_mono (stepf : State → List Value → List Nat → Ctl → Outcome Step) :
    ∀ (n m : Nat) (st : State) (stack : List Value) (shares : List Nat) (ctl : Ctl)
      (x : Value × State × List Nat),
      iter stepf n st stack shares ctl = .ok x → iter stepf (n + m) st stack shares ctl = .ok x := by
  intro n
  induction n with
  | zero => intro m st stack shares ctl x h; cases h
  | succ n ih =>
    intro m st stack shares ctl x h
    have e : n + 1 + m = (n + m) + 1 := by omega
    rw [e]
    cases hs : stepf st stack shares ctl with
    | ok s =>
      cases s with
      | next st1 stack1 shares1 ctl1 =>
        rw [iter_next _ _ hs] at h ⊢
        exact ih _ _ _ _ _ _ h
      | ret r st1 shares1 =>
        rw [iter_ret _ _ hs] at h ⊢
        exact h
    | panic p => rw [iter_panic _ _ hs] at h; cases h
    | exit c s => simp only [iter, hs] at h; cases h
    | outOfFuel => simp only [iter, hs] at h; cases h

/-- A configuration the loop passes through returns what the loop returns, with
the fuel that is left. -/
theorem iter_passes (stepf : State → List Value → List Nat → Ctl → Outcome Step) :
    ∀ (k n : Nat) (st : State) (stack : List Value) (shares : List Nat) (ctl : Ctl)
      (c : State × List Value × List Nat × Ctl) (x : Value × State × List Nat),
      passes stepf k st stack shares ctl = some c →
      iter stepf n st stack shares ctl = .ok x →
      k < n ∧ iter stepf (n - k) c.1 c.2.1 c.2.2.1 c.2.2.2 = .ok x := by
  intro k
  induction k with
  | zero =>
    intro n st stack shares ctl c x hp hi
    cases hp
    cases n with
    | zero => cases hi
    | succ n => exact ⟨Nat.succ_pos _, hi⟩
  | succ k ih =>
    intro n st stack shares ctl c x hp hi
    cases n with
    | zero => cases hi
    | succ n =>
      rw [passes] at hp
      rw [iter] at hi
      split at hp
      · rename_i st1 stack1 shares1 ctl1 hs
        simp only [hs] at hi
        obtain ⟨h1, h2⟩ := ih n _ _ _ _ c x hp hi
        refine ⟨by omega, ?_⟩
        have e : n + 1 - (k + 1) = n - k := by omega
        rw [e]
        exact h2
      · cases hp

/-- A pass leaves the list of recorded thunks as it is, unless it enters an
unresolved thunk over an empty stack: then, and only then, it records that
thunk. -/
theorem step_shares (reduce : State → Value → Outcome (Value × State)) (fuel : Nat)
    (globals : List Value) (st : State) (stack : List Value) (shares : List Nat) (ctl : Ctl)
    (s : Step) (h : step reduce fuel globals st stack shares ctl = .ok s) :
    s.shares = shares ∨
    (stack = [] ∧ ∃ a code data, ctl = .beginning (.Thunk a) ∧
      st.heap[a]? = some (unresolved code data) ∧ s.shares = shares ++ [a]) := by
  cases ctl with
  | beginning v =>
    cases v with
    | Thunk a =>
      rw [step_thunk] at h
      split at h
      · cases h
      · rename_i t ht
        split at h
        · cases h; exact Or.inl rfl
        · rename_i hr
          split at h
          · cases h
          · rename_i code hcode
            split_ifs at h with hl
            · cases h
              refine Or.inr ⟨List.length_eq_zero.mp hl, a, code, t.Data, rfl, ?_, rfl⟩
              rw [ht]
              cases t
              simp only at hr hcode
              simp only [unresolved, hr, hcode]
            · cases h; exact Or.inl rfl
    | Char c =>
      rw [step_whnf _ _ _ _ _ _ (.Char c) rfl] at h
      split_ifs at h
      cases h; exact Or.inl rfl
    | Int c =>
      rw [step_whnf _ _ _ _ _ _ (.Int c) rfl] at h
      split_ifs at h
      cases h; exact Or.inl rfl
    | Float c =>
      rw [step_whnf _ _ _ _ _ _ (.Float c) rfl] at h
      split_ifs at h
      cases h; exact Or.inl rfl
    | Struct i vs =>
      rw [step_whnf _ _ _ _ _ _ (.Struct i vs) rfl] at h
      split_ifs at h
      cases h; exact Or.inl rfl
  | interp code data =>
    cases hk : code.Kind with
    | CodeValue =>
      rw [step_value _ _ _ _ _ _ _ _ hk] at h
      cases h; exact Or.inl rfl
    | CodeOperator =>
      rw [step_operator _ _ _ _ _ _ _ _ hk] at h
      obtain ⟨arity, -, h⟩ := Outcome.bind_eq_ok h
      split_ifs at h
      · obtain ⟨x, -, h⟩ := Outcome.bind_eq_ok h
        obtain ⟨⟨r, st1⟩, hop, h⟩ := Outcome.bind_eq_ok h
        cases h; exact Or.inl rfl
      · obtain ⟨x, -, h⟩ := Outcome.bind_eq_ok h
        obtain ⟨y, -, h⟩ := Outcome.bind_eq_ok h
        obtain ⟨⟨r, st1⟩, hop, h⟩ := Outcome.bind_eq_ok h
        cases h; exact Or.inl rfl
    | CodeMake =>
      rw [step_make _ _ _ _ _ _ _ _ hk] at h
      cases h; exact Or.inl rfl
    | CodeVar =>
      rw [step_var _ _ _ _ _ _ _ _ hk] at h
      obtain ⟨v, -, h⟩ := Outcome.bind_eq_ok h
      cases h; exact Or.inl rfl
    | CodeGlobal =>
      rw [step_global _ _ _ _ _ _ _ _ hk] at h
      obtain ⟨v, -, h⟩ := Outcome.bind_eq_ok h
      cases h; exact Or.inl rfl
    | CodeAbst =>
      rw [step_abst _ _ _ _ _ _ _ _ hk] at h
      split_ifs at h
      obtain ⟨body, -, h⟩ := Outcome.bind_eq_ok h
      cases h; exact Or.inl rfl
    | CodeAppl =>
      rw [step_appl _ _ _ _ _ _ _ _ hk] at h
      obtain ⟨⟨st1, stack1⟩, hp, h⟩ := Outcome.bind_eq_ok h
      obtain ⟨callee, -, h⟩ := Outcome.bind_eq_ok h
      cases h; exact Or.inl rfl
    | CodeSwitch =>
      rw [step_switch _ _ _ _ _ _ _ _ hk] at h
      obtain ⟨scrutinee, -, h⟩ := Outcome.bind_eq_ok h
      obtain ⟨⟨r, st1⟩, hr, h⟩ := Outcome.bind_eq_ok h
      obtain ⟨⟨i, vs⟩, -, h⟩ := Outcome.bind_eq_ok h
      obtain ⟨branch, -, h⟩ := Outcome.bind_eq_ok h
      cases h; exact Or.inl rfl

/-- Every thunk in the list a run of the flat loop ends with was in the list at
the start, or was recorded by a pass that found it unresolved with the stack
empty. -/
theorem iter_recorded (reduce : State → Value → Outcome (Value × State)) (fuel : Nat)
    (globals : List Value) :
    ∀ (n : Nat) (st : State) (stack : List Value) (shares : List Nat) (ctl : Ctl)
      (r : Value) (st1 : State) (shares1 : List Nat),
      iter (step reduce fuel globals) n st stack shares ctl = .ok (r, st1, shares1) →
      ∀ a ∈ shares1, a ∈ shares ∨ ∃ k s sh code data,
        passes (step reduce fuel globals) k st stack shares ctl
          = some (s, [], sh, .beginning (.Thunk a)) ∧
        s.heap[a]? = some (unresolved code data) := by
  intro n
  induction n with
  | zero => intro st stack shares ctl r st1 shares1 h; cases h
  | succ n ih =>
    intro st stack shares ctl r st1 shares1 h a ha
    have hrec : ∀ s : Step, step reduce fuel globals st stack shares ctl = .ok s →
        a ∈ s.shares → a ∈ shares ∨ ∃ k s sh code data,
          passes (step reduce fuel globals) k st stack shares ctl
            = some (s, [], sh, .beginning (.Thunk a)) ∧
          s.heap[a]? = some (unresolved code data) := by
      intro s hs hmem
      rcases step_shares reduce fuel globals st stack shares ctl s hs with e |
        ⟨hst, a0, code, data, hc, hh, e⟩
      · rw [e] at hmem; exact Or.inl hmem
      · rw [e] at hmem
        rcases List.mem_append.mp hmem with hm | hm
        · exact Or.inl hm
        · have h0 : a = a0 := by simpa using hm
          subst h0
          subst hst
          subst hc
          exact Or.inr ⟨0, st, shares, code, data, rfl, hh⟩
    rw [iter] at h
    split at h
    · rename_i st2 stack2 shares2 ctl2 hs
      rcases ih _ _ _ _ _ _ _ h a ha with hm | ⟨k, s, sh, code, data, hp, hh⟩
      · exact hrec _ hs hm
      · refine Or.inr ⟨k + 1, s, sh, code, data, ?_, hh⟩
        rw [passes, hs]
        exact hp
    · rename_i r2 st2 shares2 hs
      cases h
      exact hrec _ hs ha
    · cases h
    · cases h
    · cases h

/-- A thunk that a returning call of `Reduce` reaches unresolved over an empty
stack is recorded; forcing it on its own from that state, with the same fuel,
returns the value the call returns, whatever thunks the call had recorded before,
and that value is the `Result` the call leaves in it. -/
theorem recorded_thunk_alone (globals : List Value) (n : Nat) (st : State) (v r : Value)
    (st1 : State) (h : Reduce globals (n + 1) st v = .ok (r, st1))
    (k : Nat) (s : State) (shares : List Nat) (a : Nat) (code : Code) (data : List Value)
    (hp : passes (step (Reduce globals n) n globals) k st [] [] (.beginning v)
      = some (s, [], shares, .beginning (.Thunk a)))
    (ht : s.heap[a]? = some (unresolved code data)) :
    step (Reduce globals n) n globals s [] shares (.beginning (.Thunk a))
      = .ok (.next { s with heap := s.heap.set a { Result := none, Code := none, Data := [] } }
          [] (shares ++ [a]) (.interp code data)) ∧
    (∃ s2, Reduce globals (n + 1) s (.Thunk a) = .ok (r, s2)) ∧
    (∃ t, st1.heap[a]? = some t ∧ t.Result = some r) := by
  rw [Reduce_succ] at h
  obtain ⟨⟨r2, st2, shares2⟩, hit, h⟩ := Outcome.bind_eq_ok h
  cases h
  obtain ⟨hk, hrest⟩ := iter_passes _ k (n + 1) _ _ _ _ _ _ hp hit
  simp only at hrest
  have hpre := iter_prepend (Reduce globals n) n globals shares (n + 1 - k) s [] []
    (.beginning (.Thunk a))
  rw [List.append_nil, hrest] at hpre
  obtain ⟨⟨r3, st3, suf⟩, hfresh, he⟩ := Outcome.bind_eq_ok hpre.symm
  simp only [Outcome.ok.injEq, Prod.mk.injEq] at he
  obtain ⟨rfl, rfl, rfl⟩ := he
  have hfull := iter_fuel_mono _ (n + 1 - k) k _ _ _ _ _ hfresh
  have e : n + 1 - k + k = n + 1 := by omega
  rw [e] at hfull
  have hmono : s.heap.length ≤ st3.heap.length ∧ a ∈ suf := by
    have h1 : n + 1 - k = (n - k) + 1 := by omega
    rw [h1, iter_next _ _ (step_unresolved _ _ _ _ _ a code data ht)] at hfresh
    have := iter_mono _ (Reduce_heap_length globals n) n globals _ _ _ _ _ _ _ _ hfresh
    exact ⟨by simpa using this.1, this.2 a (by simp)⟩
  refine ⟨step_unresolved _ _ _ _ _ a code data ht, ⟨memoize r3 suf st3, ?_⟩, ?_⟩
  · rw [Reduce_succ, hfull]
    rfl
  · have hlt : a < st3.heap.length :=
      lt_of_lt_of_le (List.getElem?_eq_some_iff.mp ht).1 hmono.1
    refine ⟨{ st3.heap[a] with Result := some r3 }, ?_, rfl⟩
    rw [memoize_heap, List.getElem?_eq_getElem hlt]
    simp [hmono.2]

/-- Memoization of the recorded thunks.  A call of `Reduce` that returns r runs the
flat loop to some list of recorded thunks and sets the `Result` of each to r.
Every thunk of that list was recorded by a pass that found it unresolved with the
stack empty, and forcing it on its own from the state of that pass, with the same
fuel, returns r as well. -/
theorem Reduce_recorded_sound (globals : List Value) (n : Nat) (st : State) (v r : Value)
    (st1 : State) (h : Reduce globals (n + 1) st v = .ok (r, st1)) :
    ∃ (shares : List Nat) (s1 : State),
      iter (step (Reduce globals n) n globals) (n + 1) st [] [] (.beginning v)
        = .ok (r, s1, shares) ∧
      st1 = memoize r shares s1 ∧
      ∀ a ∈ shares, ∃ k s sh code data,
        passes (step (Reduce globals n) n globals) k st [] [] (.beginning v)
          = some (s, [], sh, .beginning (.Thunk a)) ∧
        s.heap[a]? = some (unresolved code data) ∧
        (∃ s2, Reduce globals (n + 1) s (.Thunk a) = .ok (r, s2)) ∧
        (∃ t, st1.heap[a]? = some t ∧ t.Result = some r) := by
  have h2 := h
  rw [Reduce_succ] at h2
  obtain ⟨⟨r2, s1, shares⟩, hit, h2⟩ := Outcome.bind_eq_ok h2
  cases h2
  refine ⟨shares, s1, hit, rfl, ?_⟩
  intro a ha
  rcases iter_recorded _ n globals _ _ _ _ _ _ _ _ hit a ha with hm |
    ⟨k, s, sh, code, data, hp, hh⟩
  · cases hm
  · have := recorded_thunk_alone globals n st v r2 _ h k s sh a code data hp hh
    exact ⟨k, s, sh, code, data, hp, hh, this.2.1, this.2.2⟩

/-- C16: the code departs from the claim where a cached `Result` is returned over
a pending argument.  Thunk 0 inspects thunk 1, a constructor, which caches
`Struct 0 []` in it, and then applies thunk 1 to the argument 1: `Reduce` returns
the cached `Struct 0 []`, while the reference evaluator that follows the same
rules and never caches runs the constructor over the argument and returns
`Struct 0 [1]`.  The engine itself returns `Struct 0 [1]` for the application when
thunk 1 has no cached result yet, and `Struct 0 []` once it has; and when the
same struct is reached as a plain value over the pending argument, it aborts with
"not empty stack": the return of a cached `Result` misses that check. -/
theorem C16_cached_result_over_pending_argument :
    Reduce [] 6
        (initState
          [unresolved (Code.switch (Code.var 0)
            [Code.appl (Code.var 0) [Code.value (.Int 1)]]) [.Thunk 1],
           unresolved (.mk .CodeMake 0 (.Int 0) []) []])
        (.Thunk 0)
      = .ok (.Struct 0 [],
          State.mk [resolved (.Struct 0 []), resolved (.Struct 0 []), resolved (.Struct 0 [])]
            5 1 [] 1) ∧
    ReduceRef [] 6
        (initState
          [unresolved (Code.switch (Code.var 0)
            [Code.appl (Code.var 0) [Code.value (.Int 1)]]) [.Thunk 1],
           unresolved (.mk .CodeMake 0 (.Int 0) []) []])
        (.Thunk 0)
      = .ok (.Struct 0 [.Int 1],
          State.mk
            [unresolved (Code.switch (Code.var 0)
              [Code.appl (Code.var 0) [Code.value (.Int 1)]]) [.Thunk 1],
             unresolved (.mk .CodeMake 0 (.Int 0) []) [],
             unresolved (Code.var 0) [.Thunk 1]]
            6 1 [] 2) ∧
    Reduce [] 5
        (initState
          [unresolved (Code.appl (Code.var 0) [Code.value (.Int 1)]) [.Thunk 1],
           unresolved (.mk .CodeMake 0 (.Int 0) []) []])
        (.Thunk 0)
      = .ok (.Struct 0 [.Int 1],
          State.mk [resolved (.Struct 0 [.Int 1]), unresolved (.mk .CodeMake 0 (.Int 0) []) []]
            3 1 [] 1) ∧
    Reduce [] 5
        (initState
          [unresolved (Code.appl (Code.var 0) [Code.value (.Int 1)]) [.Thunk 1],
           resolved (.Struct 0 [])])
        (.Thunk 0)
      = .ok (.Struct 0 [],
          State.mk [resolved (.Struct 0 []), resolved (.Struct 0 [])] 2 1 [] 0) ∧
    Reduce [] 5
        (initState
          [unresolved (Code.appl (Code.var 0) [Code.value (.Int 1)]) [.Struct 0 []]])
        (.Thunk 0)
      = .panic .notEmptyStack ∧
    Value.Struct 0 [] ≠ Value.Struct 0 [.Int 1] := by
  refine ⟨rfl, rfl, rfl, rfl, rfl, ?_⟩
  simp

/-! ### The Abstraction step -/

/-- An Abstraction whose arity is the length of the top part `frame` of the stack
takes exactly `frame` as its environment and leaves the part below it. -/
theorem step_abst_split (reduce : State → Value → Outcome (Value × State)) (fuel : Nat)
    (globals : List Value) (st : State) (rest frame : List Value) (shares : List Nat)
    (code body : Code) (data : List Value) (hk : code.Kind = .CodeAbst)
    (hx : code.X = (frame.length : Int)) (hb : code.Table[0]? = some body) :
    step reduce fuel globals st (rest ++ frame) shares (.interp code data)
      = .ok (.next (bumpMaxStack (tick st) rest) rest shares (.interp body frame)) := by
  rw [step_abst _ _ _ _ _ _ _ _ hk, hx]
  have h1 : ¬ (((rest ++ frame).length : Nat) : Int) < (frame.length : Int) := by
    simp only [List.length_append, Nat.cast_add]
    omega
  have h2 : ¬ ((frame.length : Nat) : Int) < 0 := by omega
  have h3 : (rest ++ frame).length - ((frame.length : Nat) : Int).toNat = rest.length := by
    simp
  have hidx : index code.Table 0 = .ok body := by simp [index, hb]
  rw [if_neg h1, if_neg h2, hidx, Outcome.ok_bind, h3]
  simp

/-- C17: Abstraction step.  When the interpreter reaches an Abstraction of arity N
with a pending stack of length L, it panics with "not enough arguments on stack"
if L < N; otherwise the stack splits as `rest ++ frame` with `frame` its top N
values, the new environment is `frame` (in stack order), the pending stack
becomes `rest`, its first L - N values in the same order, and interpretation
continues with the body. -/
theorem C17_abstraction_step (reduce : State → Value → Outcome (Value × State)) (fuel : Nat)
    (globals : List Value) (st : State) (stack : List Value) (shares : List Nat)
    (code : Code) (data : List Value) (n : Nat) (hk : code.Kind = .CodeAbst)
    (hx : code.X = (n : Int)) :
    (stack.length < n →
      step reduce fuel globals st stack shares (.interp code data)
        = .panic .notEnoughArguments) ∧
    (n ≤ stack.length → ∀ body, code.Table[0]? = some body →
      ∃ rest frame, stack = rest ++ frame ∧ frame.length = n ∧
        rest = stack.take (stack.length - n) ∧ frame = stack.drop (stack.length - n) ∧
        step reduce fuel globals st stack shares (.interp code data)
          = .ok (.next (bumpMaxStack (tick st) rest) rest shares (.interp body frame))) := by
  constructor
  · intro h
    rw [step_abst _ _ _ _ _ _ _ _ hk, hx, if_pos (by omega)]
  · intro h body hb
    refine ⟨stack.take (stack.length - n), stack.drop (stack.length - n),
      (List.take_append_drop _ _).symm, ?_, rfl, rfl, ?_⟩
    · simp only [List.length_drop]
      omega
    · have hlen : (stack.drop (stack.length - n)).length = n := by
        simp only [List.length_drop]
        omega
      have := step_abst_split reduce fuel globals st (stack.take (stack.length - n))
        (stack.drop (stack.length - n)) shares code body data hk (by rw [hlen, hx]) hb
      rw [List.take_append_drop] at this
      exact this

/-- Witness for C17: an Abstraction of arity 2 over the stack 1, 2, 3 takes the
frame 2, 3 and leaves 1; over the stack 1 it panics. -/
theorem C17_abstraction_step_witness :
    step (Reduce [] 0) 0 [] (initState []) [.Int 1] [] (.interp (Code.abst 2 (Code.var 0)) [])
      = .panic .notEnoughArguments ∧
    ∃ rest frame, [Value.Int 1, .Int 2, .Int 3] = rest ++ frame ∧ frame.length = 2 ∧
      rest = [Value.Int 1, .Int 2, .Int 3].take ([Value.Int 1, .Int 2, .Int 3].length - 2) ∧
      frame = [Value.Int 1, .Int 2, .Int 3].drop ([Value.Int 1, .Int 2, .Int 3].length - 2) ∧
      step (Reduce [] 0) 0 [] (initState []) [.Int 1, .Int 2, .Int 3] []
          (.interp (Code.abst 2 (Code.var 0)) [])
        = .ok (.next (bumpMaxStack (tick (initState [])) rest) rest []
            (.interp (Code.var 0) frame)) :=
  ⟨(C17_abstraction_step (Reduce [] 0) 0 [] (initState []) [.Int 1] []
      (Code.abst 2 (Code.var 0)) [] 2 rfl rfl).1 (by decide),
   (C17_abstraction_step (Reduce [] 0) 0 [] (initState []) [.Int 1, .Int 2, .Int 3] []
      (Code.abst 2 (Code.var 0)) [] 2 rfl rfl).2 (by decide) (Code.var 0) rfl⟩

/-! ### The Application step -/

/-- The argument loop, when every `Var` argument is in range: it appends one
unresolved thunk per argument that is neither a literal nor a variable and pushes
one value per argument. -/
theorem pushArgs_spec (data : List Value) : ∀ (cs : List Code) (st : State)
    (stack : List Value),
    (∀ c ∈ cs, c.Kind = .CodeVar → ∃ v, lookupVar data c.X = .ok v) →
    ∃ vs, pushArgs data cs st stack
        = .ok ({ st with heap := st.heap ++ (cs.filter Code.isThunked).map (unresolved · data) },
            stack ++ vs) ∧
      vs.length = cs.length ∧
      ∀ heap1, (st.heap ++ (cs.filter Code.isThunked).map (unresolved · data)) <+: heap1 →
        ArgsPushed data heap1 st.heap.length cs vs := by
  intro cs
  induction cs with
  | nil =>
    intro st stack _
    exact ⟨[], by simp [pushArgs], rfl, fun _ _ => trivial⟩
  | cons c cs ih =>
    intro st stack hvar
    have hvar' : ∀ c ∈ cs, c.Kind = .CodeVar → ∃ v, lookupVar data c.X = .ok v :=
      fun x hx => hvar x (List.mem_cons_of_mem _ hx)
    cases hk : c.Kind with
    | CodeValue =>
      obtain ⟨vs, h1, h2, h3⟩ := ih st (stack ++ [c.Value]) hvar'
      refine ⟨c.Value :: vs, ?_, by simp [h2], ?_⟩
      · rw [pushArgs]
        simp only [hk]
        rw [h1]
        simp [List.filter_cons, Code.isThunked, hk]
      · intro heap1 hp
        have := h3 heap1 (by simpa [List.filter_cons, Code.isThunked, hk] using hp)
        simpa [ArgsPushed, hk] using this
    | CodeVar =>
      obtain ⟨v, hv⟩ := hvar c (List.mem_cons_self _ _) hk
      obtain ⟨vs, h1, h2, h3⟩ := ih st (stack ++ [v]) hvar'
      refine ⟨v :: vs, ?_, by simp [h2], ?_⟩
      · rw [pushArgs]
        simp only [hk, hv, Outcome.bind_eq, Outcome.ok_bind]
        rw [h1]
        simp [List.filter_cons, Code.isThunked, hk]
      · intro heap1 hp
        have := h3 heap1 (by simpa [List.filter_cons, Code.isThunked, hk] using hp)
        simpa [ArgsPushed, hk, hv] using this
    | _ =>
      obtain ⟨vs, h1, h2, h3⟩ := ih (allocThunk st c data).1
        (stack ++ [.Thunk (allocThunk st c data).2]) hvar'
      refine ⟨.Thunk st.heap.length :: vs, ?_, by simp [h2], ?_⟩
      · rw [pushArgs]
        simp only [hk]
        rw [h1]
        simp [List.filter_cons, Code.isThunked, hk, allocThunk, unresolved]
      · intro heap1 hp
        have hp' : (st.heap ++ [unresolved c data])
            ++ (cs.filter Code.isThunked).map (unresolved · data) <+: heap1 := by
          simpa [List.filter_cons, Code.isThunked, hk] using hp
        have hget : heap1[st.heap.length]? = some (unresolved c data) := by
          obtain ⟨t, rfl⟩ := hp'
          rw [List.append_assoc, List.append_assoc,
            List.getElem?_append_right (le_refl _)]
          simp
        have := h3 heap1 (by simpa [allocThunk, unresolved] using hp')
        have this' : ArgsPushed data heap1 (st.heap.length + 1) cs vs := by
          simpa [allocThunk] using this
        simpa [ArgsPushed, hk, hget] using this'
/-- C18: Application step.  When the interpreter reaches Application(callee,
[a1..ak]) with pending stack S and environment E, and every `Var` argument is in
range, the pending stack becomes S followed by the values pushed for ak, ..., a1
(so the value of a1 ends on top and S is unchanged): the literal for a `Value`,
the entry E[len(E) - 1 - j] for `Var j`, and otherwise the address of a new
unresolved thunk with code ai and environment E.  The heap grows by exactly these
thunks, none for a `Value` or `Var`, and interpretation continues with the
callee. -/
theorem C18_application_step (reduce : State → Value → Outcome (Value × State)) (fuel : Nat)
    (globals : List Value) (st : State) (stack : List Value) (shares : List Nat)
    (code callee : Code) (args : List Code) (data : List Value)
    (hk : code.Kind = .CodeAppl) (htab : code.Table = callee :: args)
    (hvar : ∀ c ∈ args, c.Kind = .CodeVar → ∃ v, lookupVar data c.X = .ok v) :
    ∃ (vs : List Value) (st1 : State),
      step reduce fuel globals st stack shares (.interp code data)
        = .ok (.next (bumpMaxStack st1 (stack ++ vs)) (stack ++ vs) shares
            (.interp callee data)) ∧
      st1.heap = st.heap ++ (args.reverse.filter Code.isThunked).map (unresolved · data) ∧
      st1.Reductions = st.Reductions + 1 ∧ st1.MaxStack = st.MaxStack ∧
      st1.stderr = st.stderr ∧
      vs.length = args.length ∧
      ArgsPushed data st1.heap st.heap.length args.reverse vs := by
  obtain ⟨vs, h1, h2, h3⟩ := pushArgs_spec data args.reverse (tick st) stack
    (fun c hc => hvar c (List.mem_reverse.mp hc))
  refine ⟨vs, { tick st with heap := (tick st).heap ++
    (args.reverse.filter Code.isThunked).map (unresolved · data) },
    ?_, rfl, rfl, rfl, rfl, by simpa using h2, ?_⟩
  · rw [step_appl _ _ _ _ _ _ _ _ hk, htab]
    simp only [List.drop_succ_cons, List.drop_zero]
    rw [h1]
    simp [index]
  · exact h3 _ (List.prefix_refl _)

/-- Witness for C18: a literal, a variable and an application as arguments. -/
theorem C18_application_step_witness :
    ∃ (vs : List Value) (st1 : State),
      step (Reduce [] 0) 0 [] (initState []) [.Int 7] []
          (.interp (Code.appl (Code.operator OpIntAdd)
            [Code.value (.Int 1), Code.var 0, Code.appl (Code.value (.Int 2)) []]) [.Int 9])
        = .ok (.next (bumpMaxStack st1 ([.Int 7] ++ vs)) ([.Int 7] ++ vs) []
            (.interp (Code.operator OpIntAdd) [.Int 9])) ∧
      st1.heap = (initState []).heap ++
        (([Code.value (.Int 1), Code.var 0, Code.appl (Code.value (.Int 2)) []] : List Code).reverse.filter
          Code.isThunked).map (unresolved · [.Int 9]) ∧
      st1.Reductions = (initState []).Reductions + 1 ∧ st1.MaxStack = (initState []).MaxStack ∧
      st1.stderr = (initState []).stderr ∧
      vs.length = ([Code.value (.Int 1), Code.var 0, Code.appl (Code.value (.Int 2)) []] :
        List Code).length ∧
      ArgsPushed [.Int 9] st1.heap (initState []).heap.length
        ([Code.value (.Int 1), Code.var 0, Code.appl (Code.value (.Int 2)) []] : List Code).reverse
        vs :=
  C18_application_step (Reduce [] 0) 0 [] (initState []) [.Int 7] []
    (Code.appl (Code.operator OpIntAdd)
      [Code.value (.Int 1), Code.var 0, Code.appl (Code.value (.Int 2)) []])
    (Code.operator OpIntAdd) [Code.value (.Int 1), Code.var 0, Code.appl (Code.value (.Int 2)) []]
    [.Int 9] rfl rfl
    (by
      intro c hc hk
      simp only [List.mem_cons, List.mem_singleton, List.not_mem_nil, or_false] at hc
      rcases hc with rfl | rfl | rfl
      · cases hk
      · exact ⟨.Int 9, rfl⟩
      · cases hk)

/-! ### Variable indexing -/

/-- The variable lookup in a frame that holds the literals of `args` in reversed
order: `Var k` finds the literal of the argument number k, counted from 0. -/
theorem lookupVar_reverse (args : List Code) (k : Nat) (c : Code) (hc : args[k]? = some c) :
    lookupVar (args.reverse.map Code.Value) (k : Int) = .ok c.Value := by
  have hk : k < args.length := (List.getElem?_eq_some_iff.mp hc).1
  unfold lookupVar index
  have h1 : ¬ (((args.reverse.map Code.Value).length : Nat) : Int) - (k : Int) - 1 < 0 := by
    simp only [List.length_map, List.length_reverse]
    omega
  have h2 : ((((args.reverse.map Code.Value).length : Nat) : Int) - (k : Int) - 1).toNat
      = args.length - 1 - k := by
    simp only [List.length_map, List.length_reverse]
    omega
  rw [if_neg h1, h2, List.getElem?_map, List.getElem?_reverse (by omega)]
  have h3 : args.length - 1 - (args.length - 1 - k) = k := by omega
  rw [h3, hc]
  rfl

/-- C19, as stated, fails: forcing Application(Abstraction(2, Var 0), [Value 1,
Value 2]) returns the first argument 1, not the last argument 2 = a(N-k). -/
theorem C19_counterexample :
    Reduce [] 5
        (initState [unresolved (Code.appl (Code.abst 2 (Code.var 0))
          [Code.value (.Int 1), Code.value (.Int 2)]) []]) (.Thunk 0)
      = .ok (.Int 1, State.mk [resolved (.Int 1)] 3 2 [] 0) ∧
    ([Value.Int 1, .Int 2] : List Value)[2 - 0 - 1]? = some (.Int 2) ∧
    Value.Int 1 ≠ Value.Int 2 := by
  refine ⟨rfl, rfl, ?_⟩
  simp

/-- C19, amended: variable indexing counts from the first argument.  For every
N >= 1, every 0 <= k < N and all already-evaluated literals a1..aN, forcing an
unresolved thunk with code Application(Abstraction(N, Var k), [Value a1, ...,
Value aN]) returns a(k+1), the argument number k counted from 0: Var 0 yields the
first argument a1 and Var (N-1) the last argument aN. -/
theorem C19_variable_indexing (globals : List Value) (st : State) (addr j : Nat)
    (code fn body c : Code) (args : List Code) (data : List Value) (k : Nat)
    (ht : st.heap[addr]? = some (unresolved code data))
    (hk : code.Kind = .CodeAppl) (htab : code.Table = fn :: args)
    (hfn : fn.Kind = .CodeAbst) (hn : fn.X = (args.length : Int))
    (hbody : fn.Table[0]? = some body)
    (hb : body.Kind = .CodeVar) (hbx : body.X = (k : Int))
    (hargs : ∀ a ∈ args, a.Kind = .CodeValue ∧ a.Value.isWHNF = true)
    (hc : args[k]? = some c) :
    ∃ st1, Reduce globals (j + 5) st (.Thunk addr) = .ok (c.Value, st1) ∧
      st1.heap[addr]? = some (resolved c.Value) := by
  have hset := getElem?_set_same st.heap addr _ { Result := none, Code := none, Data := [] } ht
  have hpush : ∀ s : State, pushArgs data (code.Table.drop 1).reverse s []
      = .ok (s, [] ++ args.reverse.map Code.Value) := by
    intro s
    rw [htab]
    simp only [List.drop_succ_cons, List.drop_zero]
    rw [pushArgs_values data args.reverse s [] (fun a ha => (hargs a (List.mem_reverse.mp ha)).1)]
  have hcallee : index code.Table 0 = .ok fn := by rw [htab]; simp [index]
  have hwhnf : c.Value.isWHNF = true := (hargs c (List.getElem?_mem hc)).2
  have hiter : ∃ st2, iter (step (Reduce globals (j + 4)) (j + 4) globals) (j + 4 + 1) st [] []
      (.beginning (.Thunk addr)) = .ok (c.Value, st2, [addr]) ∧
      st2.heap = st.heap.set addr { Result := none, Code := none, Data := [] } := by
    rw [iter_next _ _ (step_unresolved _ _ _ _ _ addr code data ht),
      iter_next _ _ (by rw [step_appl _ _ _ _ _ _ _ _ hk, hpush, Outcome.ok_bind, hcallee]; rfl),
      iter_next _ _ (step_abst_split _ _ _ _ [] (args.reverse.map Code.Value) _ fn body data hfn
        (by simp [hn]) hbody),
      iter_next _ _ (by rw [step_var _ _ _ _ _ _ _ _ hb, hbx, lookupVar_reverse args k c hc]; rfl),
      iter_ret _ _ (by rw [step_whnf _ _ _ _ _ _ _ hwhnf]; rfl)]
    exact ⟨_, rfl, by simp [bumpMaxStack_heap, tick]⟩
  obtain ⟨st2, h1, h2⟩ := hiter
  refine ⟨memoize c.Value [addr] st2, ?_, ?_⟩
  · rw [Reduce_succ, h1]
    rfl
  · rw [memoize_heap, h2, hset]
    simp [resolved]

/-- Witness for the amended C19: with three arguments 1, 2, 3, Var 0 yields 1. -/
theorem C19_variable_indexing_witness :
    ∃ st1, Reduce [] (0 + 5)
        (initState [unresolved (Code.appl (Code.abst 3 (Code.var 0))
          [Code.value (.Int 1), Code.value (.Int 2), Code.value (.Int 3)]) []]) (.Thunk 0)
        = .ok ((Code.value (.Int 1)).Value, st1) ∧
      st1.heap[0]? = some (resolved (Code.value (.Int 1)).Value) :=
  C19_variable_indexing [] _ 0 0 _ (Code.abst 3 (Code.var 0)) (Code.var 0) (Code.value (.Int 1))
    [Code.value (.Int 1), Code.value (.Int 2), Code.value (.Int 3)] [] 0 rfl rfl rfl rfl rfl rfl
    rfl rfl
    (by
      intro a ha
      simp only [List.mem_cons, List.mem_singleton, List.not_mem_nil, or_false] at ha
      rcases ha with rfl | rfl | rfl <;> exact ⟨rfl, rfl⟩)
    rfl

/-! ### Make and Switch -/

/-- C20: Make/Switch round trip.  `Make t` executed over the pending stack S
returns the struct with `Index = t` and `Values = S`, in the same order, a newly
built one.  A
Switch over the pending stack P whose scrutinee evaluates to a struct with tag t
and fields S leaves the pending stack P followed by S and continues with
`Table[t + 1]`, the branch number t.  A branch that is an Abstraction of arity
len(S) then takes exactly S as its frame and leaves P, which is what an
Abstraction of that arity does when it is applied directly with S pushed over
P. -/
theorem C20_make_switch_round_trip (reduce : State → Value → Outcome (Value × State))
    (fuel : Nat) (globals : List Value) (shares : List Nat) (data : List Value) :
    (∀ (st : State) (S : List Value) (code : Code), code.Kind = .CodeMake →
      step reduce fuel globals st S shares (.interp code data)
        = .ok (.ret (.Struct code.X S) ((tick st).built 1) shares)) ∧
    (∀ (st st2 : State) (P S : List Value) (code scrutinee branch : Code) (t : Int),
      code.Kind = .CodeSwitch → code.Table[0]? = some scrutinee →
      reduce (allocThunk (tick st) scrutinee data).1
          (.Thunk (allocThunk (tick st) scrutinee data).2) = .ok (.Struct t S, st2) →
      index code.Table (t + 1) = .ok branch →
      step reduce fuel globals st P shares (.interp code data)
        = .ok (.next (bumpMaxStack st2 (P ++ S)) (P ++ S) shares (.interp branch data))) ∧
    (∀ (st : State) (P S : List Value) (branch body : Code) (env : List Value),
      branch.Kind = .CodeAbst → branch.X = (S.length : Int) → branch.Table[0]? = some body →
      step reduce fuel globals st (P ++ S) shares (.interp branch env)
        = .ok (.next (bumpMaxStack (tick st) P) P shares (.interp body S))) := by
  refine ⟨?_, ?_, ?_⟩
  · intro st S code hk
    exact step_make _ _ _ _ _ _ _ _ hk
  · intro st st2 P S code scrutinee branch t hk h0 hred hbr
    have hidx : index code.Table 0 = .ok scrutinee := by simp [index, h0]
    rw [step_switch _ _ _ _ _ _ _ _ hk, hidx, Outcome.ok_bind, hred, Outcome.ok_bind]
    simp only [asStruct, Outcome.ok_bind, hbr]
  · intro st P S branch body env hk hx hb
    exact step_abst_split _ _ _ _ P S _ branch body env hk hx hb

/-- Witness for C20, through the engine: the struct made by `Make 1` over the
arguments 10 and 20 is taken apart by a Switch whose branch 1 is an Abstraction
of arity 2; its `Var 0` finds 10, as in the direct application of that
Abstraction to 10 and 20. -/
theorem C20_make_switch_round_trip_witness :
    Reduce [] 9
        (initState [unresolved (Code.switch
          (Code.appl (.mk .CodeMake 1 (.Int 0) []) [Code.value (.Int 10), Code.value (.Int 20)])
          [Code.value (.Int 0), Code.abst 2 (Code.var 0)]) []]) (.Thunk 0)
      = .ok (.Int 10, State.mk [resolved (.Int 10), resolved (.Struct 1 [.Int 20, .Int 10])]
          5 2 [] 1) ∧
    Reduce [] 9
        (initState [unresolved (Code.appl (Code.abst 2 (Code.var 0))
          [Code.value (.Int 10), Code.value (.Int 20)]) []]) (.Thunk 0)
      = .ok (.Int 10, State.mk [resolved (.Int 10)] 3 2 [] 0) ∧
    step (Reduce [] 0) 0 [] (initState []) ([.Int 7] ++ [.Int 20, .Int 10]) []
        (.interp (Code.abst 2 (Code.var 0)) [])
      = .ok (.next (bumpMaxStack (tick (initState [])) [.Int 7]) [.Int 7] []
          (.interp (Code.var 0) [.Int 20, .Int 10])) :=
  ⟨rfl, rfl,
   (C20_make_switch_round_trip (Reduce [] 0) 0 [] [] []).2.2 (initState []) [.Int 7]
     [.Int 20, .Int 10] (Code.abst 2 (Code.var 0)) (Code.var 0) [] rfl rfl rfl⟩

end Runtime
